import Mathlib

/-! MiniQL lexer: a shallow embedding of the class `Scanner`, and the properties proved of it.

The definitions below transcribe `include/lexer/scanner.h`, `src/lexer/scanner.cpp` and the four
routines under `src/lexer/scanner/` function by function.

Conventions of the embedding:

* a C++ `char` is a Lean `Char`; a `std::string` is the `List Char` of its `char`s (for a
  non-ASCII byte: one element whose code is at least 128, which no comparison in the scanner
  distinguishes from any other non-ASCII byte);
* `size_t` offsets and the `int` line/column counters are `Nat` (no source text is long enough to
  overflow them);
* member functions that mutate the scanner take the scanner state and return the new one;
* `advance` reads `source_[current_]` without a guard in the source; here a read at an offset that
  is not strictly below the length of the text is the fault `Fault.out_of_bounds`;
* each `while` loop is a function recursing on a step budget, and exhausting the budget is the
  fault `Fault.out_of_fuel`; callers pass `source_.length + 1`;
* `std::stod` belongs to the C++ standard library, not to this repository: it is the parameter
  `stod`, returning `none` where the library call throws.
-/

namespace miniql.lexer

/-- The enumeration `TokenType` of `scanner.h`. -/
inductive TokenType where
  | SELECT | INSERT | UPDATE | DELETE | CREATE | DROP | TABLE | FROM | WHERE
  | INTO | VALUES | AND | OR | NOT | AS | JOIN | LEFT | RIGHT | INNER | OUTER
  | ON | ORDER | BY | GROUP | HAVING | LIMIT | OFFSET | ASC | DESC
  | PRIMARY | KEY | FOREIGN | REFERENCES | UNIQUE | INDEX | NULL_KW
  | INT | TEXT | REAL | BLOB | DATE | TIMESTAMP
  | IDENTIFIER | NUMBER | STRING
  | EQUAL | NOT_EQUAL | LESS_THAN | LESS_EQUAL | GREATER_THAN | GREATER_EQUAL
  | PLUS | MINUS | STAR | SLASH | PERCENT
  | LPAREN | RPAREN | COMMA | SEMICOLON | DOT
  | WHITESPACE | COMMENT | END_OF_FILE | UNKNOWN
  deriving DecidableEq, Repr

/-- The struct `Token` of `scanner.h`; `number_value` is the `double` of the union, a rational
here (every finite `double` is one), `0` unless `scanNumber` sets it. -/
structure Token where
  type : TokenType
  lexeme : List Char
  line : Nat
  column : Nat
  number_value : ℚ
  deriving DecidableEq

/-- The constructor `Token(t, lex, ln, col)`, which zeroes `number_value`. -/
def Token.mk4 (t : TokenType) (lex : List Char) (ln col : Nat) : Token :=
  { type := t, lexeme := lex, line := ln, column := col, number_value := 0 }

/-- The private data members of the class `Scanner`. -/
structure Scanner where
  source_ : List Char
  tokens_ : List Token
  errors_ : List (List Char)
  start_ : Nat
  current_ : Nat
  line_ : Nat
  column_ : Nat
  deriving DecidableEq

/-- What a run of the model can stop on instead of a result. -/
inductive Fault where
  | out_of_fuel
  | out_of_bounds
  deriving DecidableEq, Repr

/-- The static table `Scanner::keywords_`, in the order of its initialiser. -/
def keywords_ : List (List Char × TokenType) :=
  [ ("SELECT".toList, .SELECT), ("INSERT".toList, .INSERT), ("UPDATE".toList, .UPDATE),
    ("DELETE".toList, .DELETE), ("CREATE".toList, .CREATE), ("DROP".toList, .DROP),
    ("TABLE".toList, .TABLE),
    ("FROM".toList, .FROM), ("WHERE".toList, .WHERE), ("INTO".toList, .INTO),
    ("VALUES".toList, .VALUES),
    ("AND".toList, .AND), ("OR".toList, .OR), ("NOT".toList, .NOT),
    ("JOIN".toList, .JOIN), ("LEFT".toList, .LEFT), ("RIGHT".toList, .RIGHT),
    ("INNER".toList, .INNER), ("OUTER".toList, .OUTER), ("ON".toList, .ON),
    ("ORDER".toList, .ORDER), ("BY".toList, .BY), ("GROUP".toList, .GROUP),
    ("HAVING".toList, .HAVING), ("ASC".toList, .ASC), ("DESC".toList, .DESC),
    ("LIMIT".toList, .LIMIT), ("OFFSET".toList, .OFFSET),
    ("PRIMARY".toList, .PRIMARY), ("KEY".toList, .KEY), ("FOREIGN".toList, .FOREIGN),
    ("REFERENCES".toList, .REFERENCES), ("UNIQUE".toList, .UNIQUE), ("INDEX".toList, .INDEX),
    ("NULL".toList, .NULL_KW),
    ("INT".toList, .INT), ("TEXT".toList, .TEXT), ("REAL".toList, .REAL),
    ("BLOB".toList, .BLOB), ("DATE".toList, .DATE), ("TIMESTAMP".toList, .TIMESTAMP),
    ("AS".toList, .AS) ]

/-- The lookup `keywords_.find(key)`: the kind stored under `key`, if any. -/
def keywords_find (key : List Char) : Option TokenType :=
  (keywords_.find? (fun p => decide (p.1 = key))).map Prod.snd

/-- The constructor `Scanner(source)`. -/
def Scanner.init (source : List Char) : Scanner :=
  { source_ := source, tokens_ := [], errors_ := [],
    start_ := 0, current_ := 0, line_ := 1, column_ := 0 }

/-- The member `Scanner::isAtEnd`. -/
def isAtEnd (s : Scanner) : Bool :=
  decide (s.current_ ≥ s.source_.length)

/-- The member `Scanner::advance`: `column_++; return source_[current_++];`. -/
def advance (s : Scanner) : Except Fault (Char × Scanner) :=
  match s.source_[s.current_]? with
  | some c => .ok (c, { s with column_ := s.column_ + 1, current_ := s.current_ + 1 })
  | none => .error .out_of_bounds

/-- The member `Scanner::peek`. -/
def peek (s : Scanner) : Char :=
  if isAtEnd s then '\x00' else s.source_.getD s.current_ '\x00'

/-- The member `Scanner::peekNext`. -/
def peekNext (s : Scanner) : Char :=
  if s.current_ + 1 ≥ s.source_.length then '\x00' else s.source_.getD (s.current_ + 1) '\x00'

/-- The member `Scanner::match`: the flag it returns and the scanner afterwards. -/
def match_ (s : Scanner) (expected : Char) : Bool × Scanner :=
  if isAtEnd s || s.source_.getD s.current_ '\x00' != expected then (false, s)
  else (true, { s with current_ := s.current_ + 1, column_ := s.column_ + 1 })

/-- The member `Scanner::isDigit`. -/
def isDigit (c : Char) : Bool :=
  decide (c ≥ '0') && decide (c ≤ '9')

/-- The member `Scanner::isAlpha`. -/
def isAlpha (c : Char) : Bool :=
  (decide (c ≥ 'a') && decide (c ≤ 'z')) ||
  (decide (c ≥ 'A') && decide (c ≤ 'Z')) ||
  decide (c = '_')

/-- The member `Scanner::isAlphaNumeric`. -/
def isAlphaNumeric (c : Char) : Bool :=
  isAlpha c || isDigit c

/-- The call `source.substr(pos, len)` for `pos` within the text. -/
def substr (source : List Char) (pos len : Nat) : List Char :=
  (source.drop pos).take len

/-- The two-argument member `Scanner::addToken(type, lexeme)`. -/
def addTokenLex (s : Scanner) (type : TokenType) (lexeme : List Char) : Scanner :=
  { s with tokens_ := s.tokens_ ++ [Token.mk4 type lexeme s.line_ s.column_] }

/-- The one-argument member `Scanner::addToken(type)`. -/
def addToken (s : Scanner) (type : TokenType) : Scanner :=
  addTokenLex s type (substr s.source_ s.start_ (s.current_ - s.start_))

/-- The text `ss.str()` that `addError` builds from the counters and the message. -/
def formatError (line column : Nat) (message : List Char) : List Char :=
  "[Line ".toList ++ Nat.toDigits 10 line ++ ", Col ".toList ++ Nat.toDigits 10 column ++
    "] ".toList ++ message

/-- The member `Scanner::addError`. -/
def addError (s : Scanner) (message : List Char) : Scanner :=
  { s with errors_ := s.errors_ ++ [formatError s.line_ s.column_ message] }

/-- The C function `toupper` in the "C" locale. -/
def toupper (c : Char) : Char :=
  if 'a' ≤ c ∧ c ≤ 'z' then Char.ofNat (c.toNat - 32) else c

/-- The loop `while (!isAtEnd() && peek() != '\n') advance();` of `scanComment`. -/
def scanComment_lineLoop : Nat → Scanner → Except Fault Scanner
  | 0, _ => .error .out_of_fuel
  | fuel + 1, s =>
    if !isAtEnd s && peek s != '\n' then do
      let (_, s) ← advance s
      scanComment_lineLoop fuel s
    else pure s

/-- The loop `while (!isAtEnd()) ...` of `scanComment` together with the `addError` that follows
it: the `return` inside the loop leaves without the error, the loop condition leaves with it. -/
def scanComment_blockLoop : Nat → Scanner → Except Fault Scanner
  | 0, _ => .error .out_of_fuel
  | fuel + 1, s =>
    if !isAtEnd s then
      if peek s = '*' && peekNext s = '/' then do
        let (_, s) ← advance s
        let (_, s) ← advance s
        pure s
      else do
        let s := if peek s = '\n' then { s with line_ := s.line_ + 1, column_ := 0 } else s
        let (_, s) ← advance s
        scanComment_blockLoop fuel s
    else pure (addError s "Unterminated block comment".toList)

/-- The member `Scanner::scanComment` (`scan_comment.cpp`). -/
def scanComment (s : Scanner) : Except Fault Scanner :=
  if peek s = '-' && peekNext s = '-' then do
    let (_, s) ← advance s
    let (_, s) ← advance s
    scanComment_lineLoop (s.source_.length + 1) s
  else if peek s = '/' && peekNext s = '*' then do
    let (_, s) ← advance s
    let (_, s) ← advance s
    scanComment_blockLoop (s.source_.length + 1) s
  else pure s

/-- The loop `while (isAlphaNumeric(peek())) advance();` of `scanIdentifier`. -/
def scanIdentifier_loop : Nat → Scanner → Except Fault Scanner
  | 0, _ => .error .out_of_fuel
  | fuel + 1, s =>
    if isAlphaNumeric (peek s) then do
      let (_, s) ← advance s
      scanIdentifier_loop fuel s
    else pure s

/-- The member `Scanner::scanIdentifier` (`scan_identifier.cpp`). -/
def scanIdentifier (s : Scanner) : Except Fault Scanner := do
  let s ← scanIdentifier_loop (s.source_.length + 1) s
  let lexeme := substr s.source_ s.start_ (s.current_ - s.start_)
  let upper_lexeme := lexeme.map toupper
  let type :=
    match keywords_find upper_lexeme with
    | some t => t
    | none => TokenType.IDENTIFIER
  pure (addTokenLex s type lexeme)

/-- The loop `while (isDigit(peek())) advance();`, which `scanNumber` runs twice. -/
def scanNumber_digits : Nat → Scanner → Except Fault Scanner
  | 0, _ => .error .out_of_fuel
  | fuel + 1, s =>
    if isDigit (peek s) then do
      let (_, s) ← advance s
      scanNumber_digits fuel s
    else pure s

/-- The member `Scanner::scanNumber` (`scan_number.cpp`); `stod lexeme = none` is the `catch`. -/
def scanNumber (stod : List Char → Option ℚ) (s : Scanner) : Except Fault Scanner := do
  let s ← scanNumber_digits (s.source_.length + 1) s
  let s ←
    if peek s = '.' && isDigit (peekNext s) then do
      let (_, s) ← advance s
      scanNumber_digits (s.source_.length + 1) s
    else pure s
  let lexeme := substr s.source_ s.start_ (s.current_ - s.start_)
  let token := Token.mk4 .NUMBER lexeme s.line_ s.column_
  match stod lexeme with
  | some v => pure { s with tokens_ := s.tokens_ ++ [{ token with number_value := v }] }
  | none =>
    let s := addError s ("Invalid number format: ".toList ++ lexeme)
    pure { s with tokens_ := s.tokens_ ++ [{ token with number_value := 0 }] }

/-- The loop `while (!isAtEnd() && peek() != quote) ...` of `scanString`, threading `value`. -/
def scanString_loop (quote : Char) : Nat → Scanner → List Char → Except Fault (Scanner × List Char)
  | 0, _, _ => .error .out_of_fuel
  | fuel + 1, s, value =>
    if !isAtEnd s && peek s != quote then do
      let s := if peek s = '\n' then { s with line_ := s.line_ + 1, column_ := 0 } else s
      if peek s = '\\' && peekNext s = quote then do
        let (_, s) ← advance s
        let (c, s) ← advance s
        scanString_loop quote fuel s (value ++ [c])
      else do
        let (c, s) ← advance s
        scanString_loop quote fuel s (value ++ [c])
    else pure (s, value)

/-- The member `Scanner::scanString` (`scan_string.cpp`). -/
def scanString (s : Scanner) (quote : Char) : Except Fault Scanner := do
  let (s, value) ← scanString_loop quote (s.source_.length + 1) s []
  if isAtEnd s then
    pure (addError s "Unterminated string literal".toList)
  else do
    let (_, s) ← advance s
    pure { s with tokens_ := s.tokens_ ++ [Token.mk4 .STRING value s.line_ s.column_] }

/-- The `switch (c)` statement of `Scanner::scanToken`, case by case in source order. -/
def scanToken_switch (stod : List Char → Option ℚ) (c : Char) (s : Scanner) :
    Except Fault Scanner :=
  if c = '(' then pure (addToken s .LPAREN)
  else if c = ')' then pure (addToken s .RPAREN)
  else if c = ',' then pure (addToken s .COMMA)
  else if c = ';' then pure (addToken s .SEMICOLON)
  else if c = '.' then pure (addToken s .DOT)
  else if c = '+' then pure (addToken s .PLUS)
  else if c = '%' then pure (addToken s .PERCENT)
  else if c = '*' then pure (addToken s .STAR)
  else if c = '=' then pure (addToken s .EQUAL)
  else if c = '-' then
    let (m, s) := match_ s '-'
    if m then scanComment s else pure (addToken s .MINUS)
  else if c = '/' then
    let (m, s) := match_ s '*'
    if m then scanComment s else pure (addToken s .SLASH)
  else if c = '<' then
    let (m, s) := match_ s '='
    if m then pure (addToken s .LESS_EQUAL)
    else
      let (m, s) := match_ s '>'
      if m then pure (addToken s .NOT_EQUAL) else pure (addToken s .LESS_THAN)
  else if c = '>' then
    let (m, s) := match_ s '='
    if m then pure (addToken s .GREATER_EQUAL) else pure (addToken s .GREATER_THAN)
  else if c = '!' then
    let (m, s) := match_ s '='
    if m then pure (addToken s .NOT_EQUAL)
    else pure (addError s "Unexpected character '!'".toList)
  else if c = ' ' ∨ c = '\r' ∨ c = '\t' then pure s
  else if c = '\n' then pure { s with line_ := s.line_ + 1, column_ := 0 }
  else if c = '\'' ∨ c = '"' then scanString s c
  else if isDigit c then scanNumber stod s
  else if isAlpha c then scanIdentifier s
  else pure (addError s ("Unexpected character: '".toList ++ [c] ++ "'".toList))

/-- The member `Scanner::scanToken`: `char c = advance();` followed by the `switch`. -/
def scanToken (stod : List Char → Option ℚ) (s : Scanner) : Except Fault Scanner := do
  let (c, s) ← advance s
  scanToken_switch stod c s

/-- The loop `while (!isAtEnd()) { start_ = current_; scanToken(); }` of `scanTokens`. -/
def scanTokens_loop (stod : List Char → Option ℚ) : Nat → Scanner → Except Fault Scanner
  | 0, _ => .error .out_of_fuel
  | fuel + 1, s =>
    if !isAtEnd s then do
      let s ← scanToken stod { s with start_ := s.current_ }
      scanTokens_loop stod fuel s
    else pure s

/-- The member `Scanner::scanTokens`: the returned copy of `tokens_` and the scanner afterwards. -/
def scanTokens (stod : List Char → Option ℚ) (s : Scanner) :
    Except Fault (List Token × Scanner) := do
  let s ← scanTokens_loop stod (s.source_.length + 1) s
  let s := { s with tokens_ := s.tokens_ ++ [Token.mk4 .END_OF_FILE [] s.line_ s.column_] }
  pure (s.tokens_, s)

/-- One `scanTokens` call on a freshly constructed `Scanner(source)`. -/
def scan (stod : List Char → Option ℚ) (source : List Char) :
    Except Fault (List Token × Scanner) :=
  scanTokens stod (Scanner.init source)

/-- The function `tokenTypeToString` of `scanner.cpp`, case by case; the last line is its
`default`. -/
def tokenTypeToString : TokenType → List Char
  | .SELECT => "SELECT".toList
  | .INSERT => "INSERT".toList
  | .UPDATE => "UPDATE".toList
  | .DELETE => "DELETE".toList
  | .CREATE => "CREATE".toList
  | .DROP => "DROP".toList
  | .TABLE => "TABLE".toList
  | .FROM => "FROM".toList
  | .WHERE => "WHERE".toList
  | .INTO => "INTO".toList
  | .VALUES => "VALUES".toList
  | .AND => "AND".toList
  | .OR => "OR".toList
  | .NOT => "NOT".toList
  | .AS => "AS".toList
  | .JOIN => "JOIN".toList
  | .LEFT => "LEFT".toList
  | .RIGHT => "RIGHT".toList
  | .INNER => "INNER".toList
  | .OUTER => "OUTER".toList
  | .ON => "ON".toList
  | .ORDER => "ORDER".toList
  | .BY => "BY".toList
  | .GROUP => "GROUP".toList
  | .HAVING => "HAVING".toList
  | .LIMIT => "LIMIT".toList
  | .OFFSET => "OFFSET".toList
  | .ASC => "ASC".toList
  | .DESC => "DESC".toList
  | .PRIMARY => "PRIMARY".toList
  | .KEY => "KEY".toList
  | .FOREIGN => "FOREIGN".toList
  | .REFERENCES => "REFERENCES".toList
  | .UNIQUE => "UNIQUE".toList
  | .INDEX => "INDEX".toList
  | .NULL_KW => "NULL".toList
  | .INT => "INT".toList
  | .TEXT => "TEXT".toList
  | .REAL => "REAL".toList
  | .BLOB => "BLOB".toList
  | .DATE => "DATE".toList
  | .TIMESTAMP => "TIMESTAMP".toList
  | .IDENTIFIER => "IDENTIFIER".toList
  | .NUMBER => "NUMBER".toList
  | .STRING => "STRING".toList
  | .EQUAL => "=".toList
  | .NOT_EQUAL => "!=".toList
  | .LESS_THAN => "<".toList
  | .LESS_EQUAL => "<=".toList
  | .GREATER_THAN => ">".toList
  | .GREATER_EQUAL => ">=".toList
  | .PLUS => "+".toList
  | .MINUS => "-".toList
  | .STAR => "*".toList
  | .SLASH => "/".toList
  | .PERCENT => "%".toList
  | .LPAREN => "(".toList
  | .RPAREN => ")".toList
  | .COMMA => ",".toList
  | .SEMICOLON => ";".toList
  | .DOT => ".".toList
  | .WHITESPACE => "WHITESPACE".toList
  | .COMMENT => "COMMENT".toList
  | .END_OF_FILE => "EOF".toList
  | .UNKNOWN => "UNKNOWN".toList

/-! ## Auxiliary definitions used to state and prove the properties -/

/-- The unread part of the text: what lies at and after `current_`. -/
def rest (s : Scanner) : List Char := s.source_.drop s.current_

/-- The scanner after `n` successive `advance` calls. -/
def advanceBy (s : Scanner) (n : Nat) : Scanner :=
  { s with current_ := s.current_ + n, column_ := s.column_ + n }

/-- The kinds `scanToken` can append: every kind except the four "special" ones. -/
def produced (k : TokenType) : Bool :=
  !(decide (k = .WHITESPACE) || decide (k = .COMMENT) || decide (k = .END_OF_FILE) ||
    decide (k = .UNKNOWN))

/-- What every scanning routine preserves: the text and `start_` are untouched, the cursor only
moves forward and stays within the text, tokens and errors are only appended, and no appended
token has a special kind. -/
structure Extends (s t : Scanner) : Prop where
  source_eq : t.source_ = s.source_
  start_eq : t.start_ = s.start_
  current_le : s.current_ ≤ t.current_
  current_bound : s.current_ ≤ s.source_.length → t.current_ ≤ s.source_.length
  tokens_app : ∃ ts, t.tokens_ = s.tokens_ ++ ts ∧ ∀ x ∈ ts, produced x.type = true
  errors_app : ∃ es, t.errors_ = s.errors_ ++ es

/-- The kind `scanIdentifier` gives a lexeme: the keyword its uppercase form names, else
`IDENTIFIER`. -/
def identifierKind (lexeme : List Char) : TokenType :=
  match keywords_find (lexeme.map toupper) with
  | some t => t
  | none => .IDENTIFIER

/-- The characters that have a `case` label of their own in the `switch` of `scanToken`. -/
def caseLabels : List Char :=
  ['(', ')', ',', ';', '.', '+', '%', '*', '=', '-', '/', '<', '>', '!', ' ', '\r', '\t', '\n',
    '\'', '"']

/-- What a scan shows of its result: kind, text and line of every token in order, and the error
texts in order. -/
def outcome (r : Except Fault (List Token × Scanner)) :
    Except Fault (List (TokenType × String × Nat) × List String) :=
  r.map (fun p => (p.1.map (fun t => (t.type, String.mk t.lexeme, t.line)),
    p.2.errors_.map String.mk))

/-- The decoded text the specification gives a string body: every backslash immediately followed
by the quote character `q` is dropped and that quote kept, every other character is copied. -/
def unescape (q : Char) : List Char → List Char
  | [] => []
  | [c] => [c]
  | c :: d :: r => if c = '\\' ∧ d = q then q :: unescape q r else c :: unescape q (d :: r)

/-- The scanner `scanTokens` leaves behind when its loop stopped in state `t`. -/
def finish (t : Scanner) : Scanner :=
  { t with tokens_ := t.tokens_ ++ [Token.mk4 .END_OF_FILE [] t.line_ t.column_] }

/-- A string body the scanner reads to its end without closing the literal early or escaping the
closing quote: each `q` in it is the second half of a backslash-`q` pair, and its last character
is not a backslash left over to pair with the closing quote. -/
def escapedBody (q : Char) : List Char → Prop
  | [] => True
  | [c] => c ≠ q ∧ c ≠ '\\'
  | c :: d :: r =>
    if c = '\\' ∧ d = q then escapedBody q r else c ≠ q ∧ escapedBody q (d :: r)

/-- The scanner `t` differs from `s` at most in the cursor and the line/column counters. -/
structure Skips (s t : Scanner) : Prop where
  source_eq : t.source_ = s.source_
  start_eq : t.start_ = s.start_
  tokens_eq : t.tokens_ = s.tokens_
  errors_eq : t.errors_ = s.errors_

/-- The 26 capital letters, of which every key of the keyword table is made. -/
def capitals : List Char := "ABCDEFGHIJKLMNOPQRSTUVWXYZ".toList

/-- The end of `scanNumber`: the NUMBER token for the text between `start_` and `current_`,
with the value `stod` gives it, or with an error and the value 0 where `stod` throws. -/
def emitNumber (stod : List Char → Option ℚ) (s : Scanner) : Scanner :=
  match stod (substr s.source_ s.start_ (s.current_ - s.start_)) with
  | some v =>
    { s with tokens_ := s.tokens_ ++
        [{ Token.mk4 .NUMBER (substr s.source_ s.start_ (s.current_ - s.start_))
            s.line_ s.column_ with number_value := v }] }
  | none =>
    { addError s ("Invalid number format: ".toList ++
          substr s.source_ s.start_ (s.current_ - s.start_)) with
      tokens_ := s.tokens_ ++
        [{ Token.mk4 .NUMBER (substr s.source_ s.start_ (s.current_ - s.start_))
            s.line_ s.column_ with number_value := 0 }] }

/-- Where `scanNumber` stops reading: after the leading digits, and after a dot and the digits
behind it when a digit follows the dot. -/
def numberEnd (s : Scanner) : Scanner :=
  if peek (advanceBy s ((rest s).takeWhile isDigit).length) = '.' &&
      isDigit (peekNext (advanceBy s ((rest s).takeWhile isDigit).length)) then
    advanceBy (advanceBy (advanceBy s ((rest s).takeWhile isDigit).length) 1)
      ((rest (advanceBy (advanceBy s ((rest s).takeWhile isDigit).length) 1)).takeWhile
        isDigit).length
  else advanceBy s ((rest s).takeWhile isDigit).length

/-- The nine characters that are a token by themselves, with the kind of that token. -/
def singleCharKind : List (Char × TokenType) :=
  [('(', .LPAREN), (')', .RPAREN), (',', .COMMA), (';', .SEMICOLON), ('.', .DOT), ('+', .PLUS),
    ('%', .PERCENT), ('*', .STAR), ('=', .EQUAL)]

/-- The 42 keyword kinds: the first group of the enumeration `TokenType`, in its order. -/
def keywordKinds : List TokenType :=
  [.SELECT, .INSERT, .UPDATE, .DELETE, .CREATE, .DROP, .TABLE, .FROM, .WHERE,
    .INTO, .VALUES, .AND, .OR, .NOT, .AS, .JOIN, .LEFT, .RIGHT, .INNER, .OUTER,
    .ON, .ORDER, .BY, .GROUP, .HAVING, .LIMIT, .OFFSET, .ASC, .DESC,
    .PRIMARY, .KEY, .FOREIGN, .REFERENCES, .UNIQUE, .INDEX, .NULL_KW,
    .INT, .TEXT, .REAL, .BLOB, .DATE, .TIMESTAMP]

/-- What a scan shows of where it put its tokens: kind, line and column of every token. -/
def placement (r : Except Fault (List Token × Scanner)) :
    Except Fault (List (TokenType × Nat × Nat)) :=
  r.map (fun p => p.1.map (fun t => (t.type, t.line, t.column)))

/-- The characters read between the scanner states `s` and `t`: the text from the cursor of `s`
up to the cursor of `t`. -/
def consumed (s t : Scanner) : List Char := (rest s).take (t.current_ - s.current_)

/-- The cursor and the counters of `t` come from those of `s` by reading on in the same text:
the cursor has not gone back nor past the end, the line counter has grown by the number of
newlines read, and the column counter by the number of characters read when no newline was
among them. -/
def Moves (s t : Scanner) : Prop :=
  t.source_ = s.source_ ∧ s.current_ ≤ t.current_ ∧ t.current_ - s.current_ ≤ (rest s).length ∧
    t.line_ = s.line_ + (consumed s t).count '\n' ∧
    ('\n' ∉ consumed s t → t.column_ = s.column_ + (t.current_ - s.current_))

/-- The state `t` comes from `s` by reading characters only: the cursor and the counters have
moved, the tokens, the errors and `start_` are as they were. -/
def Reads (s t : Scanner) : Prop := Moves s t ∧ Skips s t

/-- The four characters `scanToken` drops without a token: space, carriage return, tab and
newline. -/
def blanks : List Char := [' ', '\r', '\t', '\n']

/-- The five messages `addError` is called with in the scanner. -/
def knownMessage (m : List Char) : Prop :=
  m = "Unexpected character '!'".toList ∨
  (∃ c : Char, m = "Unexpected character: '".toList ++ [c] ++ "'".toList) ∨
  m = "Unterminated string literal".toList ∨
  m = "Unterminated block comment".toList ∨
  ∃ text : List Char, m = "Invalid number format: ".toList ++ text

/-- How a token relates to the text the scanner read for it: a STRING token was read from a
quote, a body and the same quote; any other token has exactly that text as its lexeme, and the
text holds no blank. -/
def tokenText (tok : Token) (text : List Char) : Prop :=
  (tok.type = .STRING → ∃ q body, (q = '\'' ∨ q = '"') ∧ text = q :: (body ++ [q])) ∧
  (tok.type ≠ .STRING → tok.lexeme = text ∧ ∀ x ∈ text, x ∉ blanks)

/-- The texts a pass of the loop reads without a token and without an error: one blank, or
what starts like a comment. -/
def skipped (text : List Char) : Prop :=
  (∃ c, text = [c] ∧ c ∈ blanks) ∨ (∃ r, text = '-' :: '-' :: r) ∨ (∃ r, text = '/' :: '*' :: r)

/-- What one pass of the loop of `scanTokens` (`start_ = current_; scanToken();`) does to the
state `s` it starts in: it reads at least one character; it appends at most one token, placed
at the counters the pass ends with; it appends at most one error, rendered from those counters
and one of the five messages; and when it appends neither, what it read was a blank or the
start of a comment. -/
structure Pass (s t : Scanner) : Prop where
  moves : Moves s t
  progress : s.current_ < t.current_
  tokens : t.tokens_ = s.tokens_ ∨
    ∃ tok, t.tokens_ = s.tokens_ ++ [tok] ∧ tok.line = t.line_ ∧ tok.column = t.column_ ∧
      produced tok.type = true ∧ tokenText tok (consumed s t)
  errors : t.errors_ = s.errors_ ∨
    ∃ m, t.errors_ = s.errors_ ++ [formatError t.line_ t.column_ m] ∧ knownMessage m
  silent : t.tokens_ = s.tokens_ → t.errors_ = s.errors_ → skipped (consumed s t)

/-- What one pass of the loop read and the token it appended, if any. -/
structure Chunk where
  text : List Char
  token : Option Token

/-- The characters of `text` that follow its last newline: all of `text` when it holds none. -/
def afterLastNewline : List Char → List Char
  | [] => []
  | c :: r => if '\n' ∈ r then afterLastNewline r else if c = '\n' then r else c :: r

/-- Reading on from `s` to `t` the way the loops of `scanString` and of the block comment do:
the cursor and the line counter move as in `Moves`, and when a newline was among the characters
read the column counter is one more than the number of characters read after the last newline
(those loops set the counter to zero before `advance` reads the newline and counts it). -/
def Inner (s t : Scanner) : Prop :=
  Moves s t ∧
    ('\n' ∈ consumed s t → t.column_ = (afterLastNewline (consumed s t)).length + 1)

/-- The texts with which a pass that reads a string literal or runs the block-comment loop
starts: a quote, or the `/*` that `scanComment` tests for after the `/*` or the `--` that
`scanToken` has consumed (the repeated test that C2 to C4 report). -/
def opensInner (text : List Char) : Bool :=
  decide (text.take 1 = ['\'']) || decide (text.take 1 = ['"']) ||
    decide (text.take 4 = ['/', '*', '/', '*']) || decide (text.take 4 = ['-', '-', '/', '*'])

/-- What a pass of the loop of `scanTokens` that read a newline did to the column counter:
either it read the newline alone, at the top level of `scanToken`, and left the counter at zero;
or it read a string literal or a block comment and left the counter at one more than the number
of characters it read after the last newline. -/
def Column (s t : Scanner) : Prop :=
  '\n' ∈ consumed s t →
    (consumed s t = ['\n'] ∧ t.column_ = 0) ∨
    (opensInner (consumed s t) = true ∧
      t.column_ = (afterLastNewline (consumed s t)).length + 1)

/-- The loop of `scanTokens` run once more to record its history: the texts read by its
successive passes, in order. The history is not part of the program; the theorems relate it to
what `scanTokens` returns. -/
def passTexts (stod : List Char → Option ℚ) : Nat → Scanner → Except Fault (List (List Char))
  | 0, _ => .error .out_of_fuel
  | fuel + 1, s =>
    if !isAtEnd s then do
      let t ← scanToken stod { s with start_ := s.current_ }
      let texts ← passTexts stod fuel t
      pure (consumed s t :: texts)
    else pure []

/-- Whether the last newline of a scan was read inside a string literal or a block comment:
whether the last of the passes' texts that holds a newline is more than that newline alone. -/
def lastNewlineInside : List (List Char) → Bool
  | [] => false
  | x :: texts =>
    if '\n' ∈ texts.flatten then lastNewlineInside texts else decide ('\n' ∈ x ∧ x ≠ ['\n'])

/-- The 16 operator and delimiter kinds: the groups "Operadores relacionais", "Operadores
aritméticos" and "Delimitadores" of the enumeration `TokenType`, in its order. -/
def symbolKinds : List TokenType :=
  [.EQUAL, .NOT_EQUAL, .LESS_THAN, .LESS_EQUAL, .GREATER_THAN, .GREATER_EQUAL,
    .PLUS, .MINUS, .STAR, .SLASH, .PERCENT, .LPAREN, .RPAREN, .COMMA, .SEMICOLON, .DOT]

/-- The states in which the loop of `scanTokens` tests its condition during one scan of
`source`: the freshly constructed scanner, and the state each pass of the loop
(`start_ = current_; scanToken();`) returns from such a state that is not at the end. -/
inductive Reached (stod : List Char → Option ℚ) (source : List Char) : Scanner → Prop
  | fresh : Reached stod source (Scanner.init source)
  | pass {s t : Scanner} : Reached stod source s → isAtEnd s = false →
      scanToken stod { s with start_ := s.current_ } = .ok t → Reached stod source t

/-! ## Navigation, loops and totality of the scanning routines -/

theorem bind_ok {α β : Type} (a : α) (f : α → Except Fault β) :
    (Except.ok a >>= f) = f a := rfl

theorem bind_error {α β : Type} (e : Fault) (f : α → Except Fault β) :
    ((Except.error e : Except Fault α) >>= f) = Except.error e := rfl

theorem pure_ok {α : Type} (a : α) : (pure a : Except Fault α) = Except.ok a := rfl

theorem isAtEnd_iff (s : Scanner) : isAtEnd s = true ↔ rest s = [] := by
  simp [isAtEnd, rest, List.drop_eq_nil_iff]

theorem isAtEnd_of_nil {s : Scanner} (h : rest s = []) : isAtEnd s = true :=
  (isAtEnd_iff s).2 h

theorem isAtEnd_of_cons {s : Scanner} {c : Char} {r : List Char} (h : rest s = c :: r) :
    isAtEnd s = false := by
  cases hb : isAtEnd s with
  | false => rfl
  | true => rw [(isAtEnd_iff s).1 hb] at h; cases h

theorem getD_eq_headD (s : Scanner) (n : Nat) :
    s.source_.getD n '\x00' = (s.source_.drop n).headD '\x00' := by
  induction s.source_ generalizing n with
  | nil => simp
  | cons a l ih =>
    cases n with
    | zero => simp
    | succ n => simp

theorem peek_eq (s : Scanner) : peek s = (rest s).headD '\x00' := by
  unfold peek
  split
  · next h => rw [(isAtEnd_iff s).1 h]; rfl
  · exact getD_eq_headD s _

theorem drop_succ_eq (s : Scanner) : s.source_.drop (s.current_ + 1) = (rest s).drop 1 := by
  simp [rest, List.drop_drop, Nat.add_comm]

theorem peekNext_eq (s : Scanner) : peekNext s = ((rest s).drop 1).headD '\x00' := by
  unfold peekNext
  split
  · next h =>
    have : s.source_.drop (s.current_ + 1) = [] := List.drop_eq_nil_iff.2 h
    rw [← drop_succ_eq, this]; rfl
  · rw [getD_eq_headD, drop_succ_eq]

theorem rest_advanceBy (s : Scanner) (n : Nat) : rest (advanceBy s n) = (rest s).drop n := by
  simp [rest, advanceBy, List.drop_drop, Nat.add_comm]

theorem advance_cons {s : Scanner} {c : Char} {r : List Char} (h : rest s = c :: r) :
    advance s = .ok (c, advanceBy s 1) := by
  have hg : s.source_[s.current_]? = some c := by
    have := List.head?_drop s.source_ s.current_
    rw [show s.source_.drop s.current_ = c :: r from h] at this
    simpa using this.symm
  simp [advance, hg, advanceBy]

theorem advance_nil {s : Scanner} (h : rest s = []) : advance s = .error .out_of_bounds := by
  have hg : s.source_[s.current_]? = none := by
    have := List.head?_drop s.source_ s.current_
    rw [show s.source_.drop s.current_ = [] from h] at this
    simpa using this.symm
  simp [advance, hg]

theorem advanceBy_zero (s : Scanner) : advanceBy s 0 = s := rfl

theorem advanceBy_advanceBy (s : Scanner) (m n : Nat) :
    advanceBy (advanceBy s m) n = advanceBy s (m + n) := by
  simp [advanceBy, Nat.add_assoc]

theorem takeWhile_length_le {α : Type} (p : α → Bool) (l : List α) :
    (l.takeWhile p).length ≤ l.length := by
  induction l with
  | nil => simp
  | cons a l ih =>
    rw [List.takeWhile_cons]
    split
    · simpa using ih
    · simp

theorem take_length_takeWhile {α : Type} (p : α → Bool) (l : List α) :
    l.take (l.takeWhile p).length = l.takeWhile p := by
  induction l with
  | nil => simp
  | cons a l ih =>
    rw [List.takeWhile_cons]
    split
    · simpa using ih
    · simp

theorem scanIdentifier_loop_eq (fuel : Nat) (s : Scanner)
    (h : ((rest s).takeWhile isAlphaNumeric).length < fuel) :
    scanIdentifier_loop fuel s =
      .ok (advanceBy s ((rest s).takeWhile isAlphaNumeric).length) := by
  induction fuel generalizing s with
  | zero => omega
  | succ fuel ih =>
    cases hr : rest s with
    | nil =>
      have hp : peek s = '\x00' := by rw [peek_eq, hr]; rfl
      simp [scanIdentifier_loop, hp, pure_ok, advanceBy_zero, show isAlphaNumeric '\x00' = false by decide]
    | cons c r =>
      have hp : peek s = c := by rw [peek_eq, hr]; rfl
      rw [hr] at h
      cases hc : isAlphaNumeric c with
      | false => simp [scanIdentifier_loop, hp, hc, pure_ok, advanceBy_zero]
      | true =>
        have hr1 : rest (advanceBy s 1) = r := by rw [rest_advanceBy, hr]; rfl
        have hlen : ((rest (advanceBy s 1)).takeWhile isAlphaNumeric).length < fuel := by
          rw [hr1]; simp [List.takeWhile_cons, hc] at h; omega
        simp [scanIdentifier_loop, hp, hc, advance_cons hr, bind_ok, ih _ hlen, hr1,
          advanceBy_advanceBy, List.takeWhile_cons, Nat.add_comm]

theorem scanNumber_digits_eq (fuel : Nat) (s : Scanner)
    (h : ((rest s).takeWhile isDigit).length < fuel) :
    scanNumber_digits fuel s = .ok (advanceBy s ((rest s).takeWhile isDigit).length) := by
  induction fuel generalizing s with
  | zero => omega
  | succ fuel ih =>
    cases hr : rest s with
    | nil =>
      have hp : peek s = '\x00' := by rw [peek_eq, hr]; rfl
      simp [scanNumber_digits, hp, pure_ok, advanceBy_zero, show isDigit '\x00' = false by decide]
    | cons c r =>
      have hp : peek s = c := by rw [peek_eq, hr]; rfl
      rw [hr] at h
      cases hc : isDigit c with
      | false => simp [scanNumber_digits, hp, hc, pure_ok, advanceBy_zero]
      | true =>
        have hr1 : rest (advanceBy s 1) = r := by rw [rest_advanceBy, hr]; rfl
        have hlen : ((rest (advanceBy s 1)).takeWhile isDigit).length < fuel := by
          rw [hr1]; simp [List.takeWhile_cons, hc] at h; omega
        simp [scanNumber_digits, hp, hc, advance_cons hr, bind_ok, ih _ hlen, hr1,
          advanceBy_advanceBy, List.takeWhile_cons, Nat.add_comm]

theorem scanComment_lineLoop_eq (fuel : Nat) (s : Scanner)
    (h : ((rest s).takeWhile (fun c => c != '\n')).length < fuel) :
    scanComment_lineLoop fuel s =
      .ok (advanceBy s ((rest s).takeWhile (fun c => c != '\n')).length) := by
  induction fuel generalizing s with
  | zero => omega
  | succ fuel ih =>
    cases hr : rest s with
    | nil =>
      simp [scanComment_lineLoop, isAtEnd_of_nil hr, pure_ok, advanceBy_zero]
    | cons c r =>
      have hp : peek s = c := by rw [peek_eq, hr]; rfl
      rw [hr] at h
      by_cases hc : c = '\n'
      · simp [scanComment_lineLoop, hp, hc, pure_ok, advanceBy_zero]
      · have hr1 : rest (advanceBy s 1) = r := by rw [rest_advanceBy, hr]; rfl
        have hlen : ((rest (advanceBy s 1)).takeWhile (fun c => c != '\n')).length < fuel := by
          rw [hr1]; simp [List.takeWhile_cons, hc] at h; omega
        simp [scanComment_lineLoop, hp, hc, isAtEnd_of_cons hr, advance_cons hr, bind_ok,
          ih _ hlen, hr1, advanceBy_advanceBy, List.takeWhile_cons, Nat.add_comm]

theorem Extends.refl (s : Scanner) : Extends s s :=
  ⟨rfl, rfl, Nat.le_refl _, id, ⟨[], by simp⟩, ⟨[], by simp⟩⟩

theorem Extends.trans {a b c : Scanner} (h1 : Extends a b) (h2 : Extends b c) : Extends a c := by
  obtain ⟨t1, ht1, hp1⟩ := h1.tokens_app
  obtain ⟨t2, ht2, hp2⟩ := h2.tokens_app
  obtain ⟨e1, he1⟩ := h1.errors_app
  obtain ⟨e2, he2⟩ := h2.errors_app
  refine ⟨h2.source_eq.trans h1.source_eq, h2.start_eq.trans h1.start_eq,
    Nat.le_trans h1.current_le h2.current_le, ?_, ⟨t1 ++ t2, ?_, ?_⟩, ⟨e1 ++ e2, ?_⟩⟩
  · intro h
    have hb := h1.current_bound h
    have := h2.current_bound (by rw [h1.source_eq]; exact hb)
    rwa [h1.source_eq] at this
  · rw [ht2, ht1, List.append_assoc]
  · intro x hx
    rcases List.mem_append.1 hx with h | h
    · exact hp1 x h
    · exact hp2 x h
  · rw [he2, he1, List.append_assoc]

theorem rest_length (s : Scanner) : (rest s).length = s.source_.length - s.current_ := by
  simp [rest]

theorem Extends.advanceBy (s : Scanner) (n : Nat) (h : n ≤ (rest s).length) :
    Extends s (advanceBy s n) := by
  rw [rest_length] at h
  refine ⟨rfl, rfl, Nat.le_add_right _ _, ?_, ⟨[], by simp [miniql.lexer.advanceBy]⟩,
    ⟨[], by simp [miniql.lexer.advanceBy]⟩⟩
  intro hb
  show s.current_ + n ≤ s.source_.length
  omega

theorem Extends.addTokenLex (s : Scanner) (k : TokenType) (lex : List Char)
    (hk : produced k = true) : Extends s (addTokenLex s k lex) :=
  ⟨rfl, rfl, Nat.le_refl _, id,
    ⟨[Token.mk4 k lex s.line_ s.column_], rfl, by simpa [Token.mk4] using hk⟩, ⟨[], by simp [miniql.lexer.addTokenLex]⟩⟩

theorem Extends.addToken (s : Scanner) (k : TokenType) (hk : produced k = true) :
    Extends s (addToken s k) :=
  Extends.addTokenLex s k _ hk

theorem Extends.addError (s : Scanner) (m : List Char) : Extends s (addError s m) :=
  ⟨rfl, rfl, Nat.le_refl _, id, ⟨[], by simp [miniql.lexer.addError]⟩, ⟨[_], rfl⟩⟩

theorem Extends.newline (s : Scanner) :
    Extends s { s with line_ := s.line_ + 1, column_ := 0 } :=
  ⟨rfl, rfl, Nat.le_refl _, id, ⟨[], by simp⟩, ⟨[], by simp⟩⟩

theorem peek_nil {s : Scanner} (h : rest s = []) : peek s = '\x00' := by
  rw [peek_eq, h]; rfl

theorem peek_cons {s : Scanner} {c : Char} {r : List Char} (h : rest s = c :: r) :
    peek s = c := by
  rw [peek_eq, h]; rfl

theorem peekNext_nil {s : Scanner} (h : rest s = []) : peekNext s = '\x00' := by
  rw [peekNext_eq, h]; rfl

theorem peekNext_single {s : Scanner} {c : Char} (h : rest s = [c]) : peekNext s = '\x00' := by
  rw [peekNext_eq, h]; rfl

theorem peekNext_cons {s : Scanner} {c d : Char} {r : List Char} (h : rest s = c :: d :: r) :
    peekNext s = d := by
  rw [peekNext_eq, h]; rfl

theorem match_eq (s : Scanner) (e : Char) :
    match_ s e = if (rest s).head? = some e then (true, advanceBy s 1) else (false, s) := by
  cases hr : rest s with
  | nil => simp [match_, isAtEnd_of_nil hr]
  | cons c r =>
    have hg : s.source_.getD s.current_ '\x00' = c := by
      rw [getD_eq_headD]; show (rest s).headD '\x00' = c; rw [hr]; rfl
    unfold match_
    rw [isAtEnd_of_cons hr, hg]
    by_cases hc : c = e
    · simp [hc, advanceBy]
    · simp [hc]

theorem rest_newline (s : Scanner) :
    rest { s with line_ := s.line_ + 1, column_ := 0 } = rest s := rfl

theorem scanComment_blockLoop_ok (fuel : Nat) (s : Scanner) (h : (rest s).length < fuel) :
    ∃ t, scanComment_blockLoop fuel s = .ok t ∧ Extends s t := by
  induction fuel generalizing s with
  | zero => omega
  | succ fuel ih =>
    rw [scanComment_blockLoop]
    cases hr : rest s with
    | nil =>
      refine ⟨addError s "Unterminated block comment".toList, ?_, Extends.addError s _⟩
      simp [isAtEnd_of_nil hr, pure_ok]
    | cons c r =>
      have hp : peek s = c := peek_cons hr
      have hstep : ∀ u : Scanner, rest u = c :: r → Extends s u →
          ∃ t, (advance u >>= fun x => scanComment_blockLoop fuel x.2) = .ok t ∧ Extends s t := by
        intro u hu hsu
        have hr1 : rest (advanceBy u 1) = r := by rw [rest_advanceBy, hu]; rfl
        obtain ⟨t, ht, hext⟩ := ih (advanceBy u 1) (by rw [hr1]; rw [hr] at h; simp at h; omega)
        exact ⟨t, by rw [advance_cons hu, bind_ok]; exact ht,
          (hsu.trans (Extends.advanceBy _ 1 (by rw [hu]; simp))).trans hext⟩
      have hcont : ∃ t, (advance (if c = '\n' then { s with line_ := s.line_ + 1, column_ := 0 }
          else s) >>= fun x => scanComment_blockLoop fuel x.2) = .ok t ∧ Extends s t := by
        split
        · exact hstep _ hr (Extends.newline s)
        · exact hstep _ hr (Extends.refl s)
      cases r with
      | nil =>
        have hpn : peekNext s = '\x00' := peekNext_single hr
        simpa [isAtEnd_of_cons hr, hp, hpn] using hcont
      | cons d r' =>
        have hpn : peekNext s = d := peekNext_cons hr
        by_cases hclose : c = '*' ∧ d = '/'
        · have hr1 : rest (advanceBy s 1) = d :: r' := by rw [rest_advanceBy, hr]; rfl
          refine ⟨advanceBy s 2, ?_, Extends.advanceBy s 2 (by rw [hr]; simp)⟩
          simp [isAtEnd_of_cons hr, hp, hpn, hclose.1, hclose.2,
            advance_cons hr, bind_ok, advance_cons hr1, advanceBy_advanceBy, pure_ok]
        · have hcond : (decide (c = '*') && decide (d = '/')) = false := by
            simpa using hclose
          simpa [isAtEnd_of_cons hr, hp, hpn, hcond] using hcont

theorem scanString_loop_ok (quote : Char) (hq : quote ≠ '\x00') (fuel : Nat) (s : Scanner)
    (value : List Char) (h : (rest s).length < fuel) :
    ∃ t v, scanString_loop quote fuel s value = .ok (t, v) ∧ Extends s t := by
  induction fuel generalizing s value with
  | zero => omega
  | succ fuel ih =>
    rw [scanString_loop]
    cases hr : rest s with
    | nil =>
      exact ⟨s, value, by simp [isAtEnd_of_nil hr, pure_ok], Extends.refl s⟩
    | cons c r =>
      have hp : peek s = c := peek_cons hr
      rw [hr] at h
      by_cases hcq : c = quote
      · exact ⟨s, value, by simp [isAtEnd_of_cons hr, hp, hcq, pure_ok], Extends.refl s⟩
      · have hbody : ∀ u : Scanner, rest u = c :: r → Extends s u →
            ∃ t v, (if (decide (peek u = '\\') && decide (peekNext u = quote)) = true then
                advance u >>= fun x => advance x.2 >>= fun y =>
                  scanString_loop quote fuel y.2 (value ++ [y.1])
              else advance u >>= fun x => scanString_loop quote fuel x.2 (value ++ [x.1]))
              = .ok (t, v) ∧ Extends s t := by
          intro u hu hsu
          have hpu : peek u = c := peek_cons hu
          have hr1 : rest (advanceBy u 1) = r := by rw [rest_advanceBy, hu]; rfl
          have hplain : ∃ t v, (advance u >>= fun x =>
              scanString_loop quote fuel x.2 (value ++ [x.1])) = .ok (t, v) ∧ Extends s t := by
            obtain ⟨t, v, ht, hext⟩ := ih (advanceBy u 1) (value ++ [c])
              (by rw [hr1]; simp at h; omega)
            exact ⟨t, v, by rw [advance_cons hu, bind_ok]; exact ht,
              (hsu.trans (Extends.advanceBy _ 1 (by rw [hu]; simp))).trans hext⟩
          cases r with
          | nil =>
            have hpn : peekNext u = '\x00' := peekNext_single hu
            have : (decide (peek u = '\\') && decide (peekNext u = quote)) = false := by
              simp [hpn, Ne.symm hq]
            rw [this]
            simpa using hplain
          | cons d r' =>
            have hpn : peekNext u = d := peekNext_cons hu
            by_cases hesc : c = '\\' ∧ d = quote
            · have hr2 : rest (advanceBy (advanceBy u 1) 1) = r' := by
                rw [rest_advanceBy, hr1]; rfl
              obtain ⟨t, v, ht, hext⟩ := ih (advanceBy (advanceBy u 1) 1) (value ++ [d])
                (by rw [hr2]; simp at h; omega)
              refine ⟨t, v, ?_, ((hsu.trans (Extends.advanceBy _ 1 (by rw [hu]; simp))).trans
                (Extends.advanceBy _ 1 (by rw [hr1]; simp))).trans hext⟩
              have : (decide (peek u = '\\') && decide (peekNext u = quote)) = true := by
                simp [hpu, hpn, hesc.1, hesc.2]
              rw [this]
              simp only [if_true, advance_cons hu, bind_ok, advance_cons hr1]
              exact ht
            · have : (decide (peek u = '\\') && decide (peekNext u = quote)) = false := by
                simpa [hpu, hpn] using hesc
              rw [this]
              simpa using hplain
        have hcond : (!isAtEnd s && peek s != quote) = true := by
          simp [isAtEnd_of_cons hr, hp, hcq]
        rw [hcond]
        simp only [if_true]
        by_cases hn : peek s = '\n'
        · simp only [hn, if_true]
          obtain ⟨t, v, ht, hext⟩ :=
            hbody { s with line_ := s.line_ + 1, column_ := 0 } hr (Extends.newline s)
          exact ⟨t, v, ht, hext⟩
        · simp only [hn, if_false]
          obtain ⟨t, v, ht, hext⟩ := hbody s hr (Extends.refl s)
          exact ⟨t, v, ht, hext⟩

theorem rest_length_lt (s : Scanner) : (rest s).length < s.source_.length + 1 := by
  rw [rest_length]; omega

theorem takeWhile_rest_lt (p : Char → Bool) (s : Scanner) :
    ((rest s).takeWhile p).length < s.source_.length + 1 :=
  Nat.lt_of_le_of_lt (takeWhile_length_le p _) (rest_length_lt s)

theorem keywords_find_mem {key : List Char} {t : TokenType} (h : keywords_find key = some t) :
    (key, t) ∈ keywords_ := by
  unfold keywords_find at h
  cases hf : keywords_.find? (fun p => decide (p.1 = key)) with
  | none => rw [hf] at h; cases h
  | some p =>
    rw [hf] at h
    have hm := List.mem_of_find?_eq_some hf
    have hk := List.find?_some hf
    simp at hk h
    obtain ⟨a, b⟩ := p
    simp at hk h
    subst hk; subst h
    exact hm

theorem keywords_produced : ∀ p ∈ keywords_, produced p.2 = true := by decide

theorem identifierKind_produced (lexeme : List Char) : produced (identifierKind lexeme) = true := by
  unfold identifierKind
  cases h : keywords_find (lexeme.map toupper) with
  | none => rfl
  | some t => exact keywords_produced _ (keywords_find_mem h)

theorem scanIdentifier_eq (s : Scanner) :
    scanIdentifier s =
      .ok (addTokenLex (advanceBy s ((rest s).takeWhile isAlphaNumeric).length)
        (identifierKind (substr s.source_ s.start_
          (s.current_ + ((rest s).takeWhile isAlphaNumeric).length - s.start_)))
        (substr s.source_ s.start_
          (s.current_ + ((rest s).takeWhile isAlphaNumeric).length - s.start_))) := by
  unfold scanIdentifier
  rw [scanIdentifier_loop_eq _ _ (takeWhile_rest_lt _ s), bind_ok]
  rfl

theorem scanIdentifier_ok (s : Scanner) : ∃ t, scanIdentifier s = .ok t ∧ Extends s t :=
  ⟨_, scanIdentifier_eq s,
    (Extends.advanceBy s _ (takeWhile_length_le _ _)).trans
      (Extends.addTokenLex _ _ _ (identifierKind_produced _))⟩

theorem Extends.pushToken (s : Scanner) (x : Token) (hk : produced x.type = true) :
    Extends s { s with tokens_ := s.tokens_ ++ [x] } :=
  ⟨rfl, rfl, Nat.le_refl _, id, ⟨[x], rfl, by simpa using hk⟩, ⟨[], by simp⟩⟩

theorem scanNumber_tail_ok (stod : List Char → Option ℚ) (s : Scanner) :
    ∃ t, (match stod (substr s.source_ s.start_ (s.current_ - s.start_)) with
      | some v => (pure { s with tokens_ := s.tokens_ ++
          [{ Token.mk4 .NUMBER (substr s.source_ s.start_ (s.current_ - s.start_))
              s.line_ s.column_ with number_value := v }] } : Except Fault Scanner)
      | none =>
        pure { addError s ("Invalid number format: ".toList ++
            substr s.source_ s.start_ (s.current_ - s.start_)) with
          tokens_ := (addError s ("Invalid number format: ".toList ++
            substr s.source_ s.start_ (s.current_ - s.start_))).tokens_ ++
          [{ Token.mk4 .NUMBER (substr s.source_ s.start_ (s.current_ - s.start_))
              s.line_ s.column_ with number_value := 0 }] }) = .ok t ∧ Extends s t := by
  cases stod (substr s.source_ s.start_ (s.current_ - s.start_)) with
  | some v => exact ⟨_, rfl, Extends.pushToken s _ rfl⟩
  | none => exact ⟨_, rfl, (Extends.addError s _).trans (Extends.pushToken _ _ rfl)⟩

theorem scanNumber_ok (stod : List Char → Option ℚ) (s : Scanner) :
    ∃ t, scanNumber stod s = .ok t ∧ Extends s t := by
  unfold scanNumber
  rw [scanNumber_digits_eq _ _ (takeWhile_rest_lt _ s), bind_ok]
  have h1 : Extends s (advanceBy s ((rest s).takeWhile isDigit).length) :=
    Extends.advanceBy s _ (takeWhile_length_le _ _)
  generalize advanceBy s ((rest s).takeWhile isDigit).length = s1 at h1 ⊢
  split
  · next hcond =>
    simp only [Bool.and_eq_true, decide_eq_true_eq] at hcond
    cases hr : rest s1 with
    | nil => rw [peek_nil hr] at hcond; exact absurd hcond.1 (by decide)
    | cons c r =>
      rw [advance_cons hr, bind_ok]
      simp only []
      rw [scanNumber_digits_eq _ _ (takeWhile_rest_lt _ _), bind_ok]
      obtain ⟨t, ht, hext⟩ := scanNumber_tail_ok stod
        (advanceBy (advanceBy s1 1) ((rest (advanceBy s1 1)).takeWhile isDigit).length)
      exact ⟨t, ht, (h1.trans ((Extends.advanceBy s1 1 (by rw [hr]; simp)).trans
        (Extends.advanceBy _ _ (takeWhile_length_le _ _)))).trans hext⟩
  · rw [pure_ok, bind_ok]
    obtain ⟨t, ht, hext⟩ := scanNumber_tail_ok stod s1
    exact ⟨t, ht, h1.trans hext⟩

theorem scanComment_ok (s : Scanner) : ∃ t, scanComment s = .ok t ∧ Extends s t := by
  unfold scanComment
  have two : ∀ {c d : Char} {r : List Char}, rest s = c :: d :: r →
      (advance s >>= fun x => advance x.2) = .ok (d, advanceBy s 2) ∧
        rest (advanceBy s 2) = r ∧ Extends s (advanceBy s 2) := by
    intro c d r hr
    have hr1 : rest (advanceBy s 1) = d :: r := by rw [rest_advanceBy, hr]; rfl
    refine ⟨?_, by rw [rest_advanceBy, hr]; rfl, Extends.advanceBy s 2 (by rw [hr]; simp)⟩
    rw [advance_cons hr, bind_ok]
    simp only []
    rw [advance_cons hr1, advanceBy_advanceBy]
  cases hr : rest s with
  | nil =>
    refine ⟨s, ?_, Extends.refl s⟩
    simp [peek_nil hr, pure_ok]
  | cons c r =>
    cases r with
    | nil =>
      refine ⟨s, ?_, Extends.refl s⟩
      simp [peek_cons hr, peekNext_single hr, pure_ok]
    | cons d r' =>
      obtain ⟨hadv, hrest, hext⟩ := two hr
      have hadv1 : advance s = .ok (c, advanceBy s 1) := advance_cons hr
      have hr1 : rest (advanceBy s 1) = d :: r' := by rw [rest_advanceBy, hr]; rfl
      have hadv2 : advance (advanceBy s 1) = .ok (d, advanceBy s 2) := by
        rw [advance_cons hr1, advanceBy_advanceBy]
      by_cases h1 : c = '-' ∧ d = '-'
      · refine ⟨advanceBy (advanceBy s 2)
            ((rest (advanceBy s 2)).takeWhile (fun c => c != '\n')).length, ?_,
          hext.trans (Extends.advanceBy _ _ (takeWhile_length_le _ _))⟩
        simp only [peek_cons hr, peekNext_cons hr, h1.1, h1.2, decide_True, Bool.and_self,
          if_true, hadv1, bind_ok, hadv2]
        exact scanComment_lineLoop_eq _ _ (takeWhile_rest_lt _ _)
      · have hc1 : (decide (c = '-') && decide (d = '-')) = false := by simpa using h1
        by_cases h2 : c = '/' ∧ d = '*'
        · obtain ⟨t, ht, hext2⟩ := scanComment_blockLoop_ok ((advanceBy s 2).source_.length + 1)
            (advanceBy s 2) (rest_length_lt _)
          refine ⟨t, ?_, hext.trans hext2⟩
          simp only [peek_cons hr, peekNext_cons hr, hc1, h2.1, h2.2, decide_True, Bool.and_self,
            if_true, hadv1, bind_ok, hadv2]
          simpa using ht
        · have hc2 : (decide (c = '/') && decide (d = '*')) = false := by simpa using h2
          refine ⟨s, ?_, Extends.refl s⟩
          simp [peek_cons hr, peekNext_cons hr, hc1, hc2, pure_ok]

theorem scanString_ok (s : Scanner) (quote : Char) (hq : quote ≠ '\x00') :
    ∃ t, scanString s quote = .ok t ∧ Extends s t := by
  unfold scanString
  obtain ⟨u, v, hu, hext⟩ := scanString_loop_ok quote hq (s.source_.length + 1) s []
    (rest_length_lt s)
  rw [hu, bind_ok]
  simp only []
  cases hr : rest u with
  | nil =>
    refine ⟨addError u "Unterminated string literal".toList, ?_,
      hext.trans (Extends.addError u _)⟩
    rw [isAtEnd_of_nil hr]; rfl
  | cons c r =>
    refine ⟨{ advanceBy u 1 with tokens_ := (advanceBy u 1).tokens_ ++
        [Token.mk4 .STRING v (advanceBy u 1).line_ (advanceBy u 1).column_] }, ?_,
      hext.trans ((Extends.advanceBy u 1 (by rw [hr]; simp)).trans
      (Extends.pushToken (advanceBy u 1) (Token.mk4 .STRING v (advanceBy u 1).line_
        (advanceBy u 1).column_) rfl))⟩
    rw [isAtEnd_of_cons hr]
    simp only [Bool.false_eq_true, if_false, advance_cons hr, bind_ok]
    rfl

theorem match_extends (u : Scanner) (e : Char) : Extends u (match_ u e).2 := by
  rw [match_eq]
  split
  · next h =>
    refine Extends.advanceBy u 1 ?_
    cases hr : rest u with
    | nil => rw [hr] at h; cases h
    | cons a l => simp
  · exact Extends.refl u

theorem scanToken_switch_default (stod : List Char → Option ℚ) (c : Char) (u : Scanner)
    (hc : c ∉ caseLabels) :
    scanToken_switch stod c u =
      if isDigit c then scanNumber stod u
      else if isAlpha c then scanIdentifier u
      else pure (addError u ("Unexpected character: '".toList ++ [c] ++ "'".toList)) := by
  simp only [caseLabels, List.mem_cons, List.mem_singleton, List.not_mem_nil, not_or, or_false] at hc
  obtain ⟨h1, h2, h3, h4, h5, h6, h7, h8, h9, h10, h11, h12, h13, h14, h15, h16, h17, h18, h19,
    h20⟩ := hc
  unfold scanToken_switch
  rw [if_neg h1, if_neg h2, if_neg h3, if_neg h4, if_neg h5, if_neg h6, if_neg h7, if_neg h8,
    if_neg h9, if_neg h10, if_neg h11, if_neg h12, if_neg h13, if_neg h14,
    if_neg (by rintro (h | h | h) <;> contradiction), if_neg h18,
    if_neg (by rintro (h | h) <;> contradiction)]

theorem scanToken_switch_ok (stod : List Char → Option ℚ) (c : Char) (u : Scanner) :
    ∃ t, scanToken_switch stod c u = .ok t ∧ Extends u t := by
  by_cases hc : c ∈ caseLabels
  · have hm := fun e => match_extends u e
    have hcom := scanComment_ok
    have tok : ∀ (v : Scanner) k, produced k = true → Extends u v →
        ∃ t, (pure (addToken v k) : Except Fault Scanner) = .ok t ∧ Extends u t :=
      fun v k hk hv => ⟨_, rfl, hv.trans (Extends.addToken v k hk)⟩
    simp only [caseLabels, List.mem_cons, List.mem_singleton, List.not_mem_nil, or_false] at hc
    rcases hc with h | h | h | h | h | h | h | h | h | h | h | h | h | h | h | h | h | h | h | h
    all_goals subst h
    · exact tok u .LPAREN rfl (Extends.refl u)
    · exact tok u .RPAREN rfl (Extends.refl u)
    · exact tok u .COMMA rfl (Extends.refl u)
    · exact tok u .SEMICOLON rfl (Extends.refl u)
    · exact tok u .DOT rfl (Extends.refl u)
    · exact tok u .PLUS rfl (Extends.refl u)
    · exact tok u .PERCENT rfl (Extends.refl u)
    · exact tok u .STAR rfl (Extends.refl u)
    · exact tok u .EQUAL rfl (Extends.refl u)
    · show ∃ t, (if (match_ u '-').1 = true then scanComment (match_ u '-').2
        else pure (addToken (match_ u '-').2 .MINUS)) = .ok t ∧ Extends u t
      split
      · obtain ⟨t, ht, hext⟩ := scanComment_ok (match_ u '-').2
        exact ⟨t, ht, (hm _).trans hext⟩
      · exact tok _ _ rfl (hm _)
    · show ∃ t, (if (match_ u '*').1 = true then scanComment (match_ u '*').2
        else pure (addToken (match_ u '*').2 .SLASH)) = .ok t ∧ Extends u t
      split
      · obtain ⟨t, ht, hext⟩ := scanComment_ok (match_ u '*').2
        exact ⟨t, ht, (hm _).trans hext⟩
      · exact tok _ _ rfl (hm _)
    · show ∃ t, ((if (match_ u '=').1 = true then pure (addToken (match_ u '=').2 .LESS_EQUAL)
        else if (match_ (match_ u '=').2 '>').1 = true then
          pure (addToken (match_ (match_ u '=').2 '>').2 .NOT_EQUAL)
        else pure (addToken (match_ (match_ u '=').2 '>').2 .LESS_THAN)) :
          Except Fault Scanner) = .ok t ∧ Extends u t
      split
      · exact tok _ _ rfl (hm _)
      · split
        · exact tok _ _ rfl ((hm _).trans (match_extends _ _))
        · exact tok _ _ rfl ((hm _).trans (match_extends _ _))
    · show ∃ t, ((if (match_ u '=').1 = true then pure (addToken (match_ u '=').2 .GREATER_EQUAL)
        else pure (addToken (match_ u '=').2 .GREATER_THAN)) : Except Fault Scanner) = .ok t ∧
          Extends u t
      split
      · exact tok _ _ rfl (hm _)
      · exact tok _ _ rfl (hm _)
    · show ∃ t, ((if (match_ u '=').1 = true then pure (addToken (match_ u '=').2 .NOT_EQUAL)
        else pure (addError (match_ u '=').2 "Unexpected character '!'".toList)) :
          Except Fault Scanner) = .ok t ∧
          Extends u t
      split
      · exact tok _ _ rfl (hm _)
      · exact ⟨_, rfl, (hm _).trans (Extends.addError _ _)⟩
    · exact ⟨u, rfl, Extends.refl u⟩
    · exact ⟨u, rfl, Extends.refl u⟩
    · exact ⟨u, rfl, Extends.refl u⟩
    · exact ⟨_, rfl, Extends.newline u⟩
    · exact scanString_ok u '\'' (by decide)
    · exact scanString_ok u '"' (by decide)
  · rw [scanToken_switch_default stod c u hc]
    split
    · exact scanNumber_ok stod u
    · split
      · exact scanIdentifier_ok u
      · exact ⟨_, rfl, Extends.addError u _⟩

theorem scanToken_ok (stod : List Char → Option ℚ) (s : Scanner) {c : Char} {r : List Char}
    (hr : rest s = c :: r) :
    ∃ t, scanToken stod s = .ok t ∧ Extends (advanceBy s 1) t := by
  unfold scanToken
  rw [advance_cons hr, bind_ok]
  exact scanToken_switch_ok stod c (advanceBy s 1)

theorem scanTokens_loop_ok (stod : List Char → Option ℚ) (fuel : Nat) (s : Scanner)
    (h : (rest s).length < fuel) :
    ∃ t, scanTokens_loop stod fuel s = .ok t ∧ rest t = [] ∧ t.source_ = s.source_ ∧
      (∃ ts, t.tokens_ = s.tokens_ ++ ts ∧ ∀ x ∈ ts, produced x.type = true) ∧
      (∃ es, t.errors_ = s.errors_ ++ es) := by
  induction fuel generalizing s with
  | zero => omega
  | succ fuel ih =>
    rw [scanTokens_loop]
    cases hr : rest s with
    | nil =>
      refine ⟨s, ?_, hr, rfl, ⟨[], by simp⟩, ⟨[], by simp⟩⟩
      simp [isAtEnd_of_nil hr, pure_ok]
    | cons c r =>
      have hr0 : rest { s with start_ := s.current_ } = c :: r := hr
      obtain ⟨u, hu, hext⟩ := scanToken_ok stod { s with start_ := s.current_ } hr0
      have hlen : (rest u).length < fuel := by
        have h1 := hext.current_le
        have h2 := hext.source_eq
        rw [rest_length] at h ⊢
        rw [h2]
        simp only [advanceBy] at h1 ⊢
        have : s.current_ < s.source_.length := by
          have := congrArg List.length hr
          rw [rest_length] at this
          simp at this
          omega
        omega
      obtain ⟨t, ht, hnil, hsrc, ⟨ts, hts, hp⟩, ⟨es, hes⟩⟩ := ih u hlen
      obtain ⟨ts0, hts0, hp0⟩ := hext.tokens_app
      obtain ⟨es0, hes0⟩ := hext.errors_app
      refine ⟨t, ?_, hnil, hsrc.trans hext.source_eq, ⟨ts0 ++ ts, ?_, ?_⟩, ⟨es0 ++ es, ?_⟩⟩
      · simp only [isAtEnd_of_cons hr, Bool.not_false, if_true, hu, bind_ok]
        exact ht
      · rw [hts, hts0, List.append_assoc]; rfl
      · intro x hx
        rcases List.mem_append.1 hx with hx | hx
        · exact hp0 x hx
        · exact hp x hx
      · rw [hes, hes0, List.append_assoc]; rfl

theorem scan_ok (stod : List Char → Option ℚ) (source : List Char) :
    ∃ t ts es, scan stod source = .ok (ts ++ [Token.mk4 .END_OF_FILE [] t.line_ t.column_], t) ∧
      t.tokens_ = ts ++ [Token.mk4 .END_OF_FILE [] t.line_ t.column_] ∧
      t.errors_ = es ∧ t.source_ = source ∧ rest t = [] ∧
      ∀ x ∈ ts, produced x.type = true := by
  obtain ⟨t, ht, hnil, hsrc, ⟨ts, hts, hp⟩, -⟩ :=
    scanTokens_loop_ok stod (source.length + 1) (Scanner.init source) (rest_length_lt _)
  refine ⟨{ t with tokens_ := t.tokens_ ++ [Token.mk4 .END_OF_FILE [] t.line_ t.column_] },
    ts, t.errors_, ?_, ?_, rfl, hsrc, hnil, hp⟩
  · unfold scan scanTokens
    show (scanTokens_loop stod (source.length + 1) (Scanner.init source) >>= _) = _
    rw [ht, bind_ok]
    simp [pure_ok, hts, Scanner.init]
  · simp [hts, Scanner.init]

/-! ## Strings, words and numbers: what one `scanToken` step reads -/

theorem scanTokens_loop_step (stod : List Char → Option ℚ) (fuel : Nat) (s : Scanner)
    {c : Char} {r : List Char} (hr : rest s = c :: r) :
    scanTokens_loop stod (fuel + 1) s =
      scanToken stod { s with start_ := s.current_ } >>= scanTokens_loop stod fuel := by
  rw [scanTokens_loop]
  simp only [isAtEnd_of_cons hr, Bool.not_false, if_true]

theorem scanTokens_loop_done (stod : List Char → Option ℚ) (fuel : Nat) (s : Scanner)
    (hr : rest s = []) : scanTokens_loop stod (fuel + 1) s = .ok s := by
  rw [scanTokens_loop]
  simp only [isAtEnd_of_nil hr, Bool.not_true, Bool.false_eq_true, if_false, pure_ok]

theorem rest_init (source : List Char) : rest (Scanner.init source) = source := rfl

theorem scan_of_loop (stod : List Char → Option ℚ) (source : List Char) (t : Scanner)
    (h : scanTokens_loop stod (source.length + 1) (Scanner.init source) = .ok t) :
    scan stod source = .ok ((finish t).tokens_, finish t) := by
  unfold scan scanTokens
  show (scanTokens_loop stod (source.length + 1) (Scanner.init source) >>= _) = _
  rw [h, bind_ok]
  rfl

theorem scan_one_step (stod : List Char → Option ℚ) (c : Char) (r : List Char) (t : Scanner)
    (h : scanToken stod (Scanner.init (c :: r)) = .ok t) (ht : rest t = []) :
    scan stod (c :: r) = .ok ((finish t).tokens_, finish t) := by
  apply scan_of_loop
  rw [show (c :: r).length + 1 = (r.length + 1) + 1 from rfl,
    scanTokens_loop_step stod _ _ (rest_init (c :: r))]
  show (scanToken stod (Scanner.init (c :: r)) >>= _) = _
  rw [h, bind_ok, scanTokens_loop_done stod _ _ ht]

theorem Skips.same (s : Scanner) : Skips s s := ⟨rfl, rfl, rfl, rfl⟩

theorem Skips.andThen {a b c : Scanner} (h1 : Skips a b) (h2 : Skips b c) : Skips a c :=
  ⟨h2.source_eq.trans h1.source_eq, h2.start_eq.trans h1.start_eq,
    h2.tokens_eq.trans h1.tokens_eq, h2.errors_eq.trans h1.errors_eq⟩

theorem Skips.cursor (s : Scanner) (n : Nat) : Skips s (advanceBy s n) := ⟨rfl, rfl, rfl, rfl⟩

theorem Skips.lineBreak (s : Scanner) : Skips s { s with line_ := s.line_ + 1, column_ := 0 } :=
  ⟨rfl, rfl, rfl, rfl⟩

theorem escapedBody_head_ne {q c : Char} {b : List Char} (hq : q ≠ '\\')
    (hb : escapedBody q (c :: b)) : c ≠ q := by
  cases b with
  | nil => exact hb.1
  | cons d r =>
    unfold escapedBody at hb
    split at hb
    · next h => rw [h.1]; exact Ne.symm hq
    · exact hb.1

theorem scanString_loop_body (q : Char) (hq : q ≠ '\\') (fuel : Nat) (s : Scanner)
    (value b post : List Char)
    (hr : rest s = b ++ q :: post) (hb : escapedBody q b) (hf : b.length < fuel) :
    ∃ t, scanString_loop q fuel s value = .ok (t, value ++ unescape q b) ∧
      rest t = q :: post ∧ Skips s t := by
  induction fuel generalizing s value b with
  | zero => omega
  | succ fuel ih =>
    rw [scanString_loop]
    cases b with
    | nil =>
      have hr' : rest s = q :: post := hr
      refine ⟨s, ?_, hr', Skips.same s⟩
      simp [isAtEnd_of_cons hr', peek_cons hr', pure_ok, unescape]
    | cons c b' =>
      have hr' : rest s = c :: (b' ++ q :: post) := hr
      have hcq : c ≠ q := escapedBody_head_ne hq hb
      have hbody : ∀ u : Scanner, rest u = c :: (b' ++ q :: post) → Skips s u →
          ∃ t, (if (decide (peek u = '\\') && decide (peekNext u = q)) = true then
              advance u >>= fun x => advance x.2 >>= fun y =>
                scanString_loop q fuel y.2 (value ++ [y.1])
            else advance u >>= fun x => scanString_loop q fuel x.2 (value ++ [x.1]))
            = .ok (t, value ++ unescape q (c :: b')) ∧ rest t = q :: post ∧ Skips s t := by
        intro u hu hsu
        have hpu : peek u = c := peek_cons hu
        have hr1 : rest (advanceBy u 1) = b' ++ q :: post := by rw [rest_advanceBy, hu]; rfl
        cases b' with
        | nil =>
          have hpn : peekNext u = q := peekNext_cons hu
          have hc : (decide (peek u = '\\') && decide (peekNext u = q)) = false := by
            simp [hpu, hb.2]
          obtain ⟨t, ht, hrt, hst⟩ := ih (advanceBy u 1) (value ++ [c]) [] hr1 trivial
            (by simp at hf ⊢; omega)
          refine ⟨t, ?_, hrt, (hsu.andThen (Skips.cursor u 1)).andThen hst⟩
          rw [hc]
          simp only [Bool.false_eq_true, if_false, advance_cons hu, bind_ok, ht]
          simp [unescape]
        | cons d r =>
          have hpn : peekNext u = d := peekNext_cons hu
          unfold escapedBody at hb
          by_cases hesc : c = '\\' ∧ d = q
          · rw [if_pos hesc] at hb
            have hr2 : rest (advanceBy (advanceBy u 1) 1) = r ++ q :: post := by
              rw [rest_advanceBy, hr1]; rfl
            have hc : (decide (peek u = '\\') && decide (peekNext u = q)) = true := by
              simp [hpu, hpn, hesc.1, hesc.2]
            obtain ⟨t, ht, hrt, hst⟩ := ih (advanceBy (advanceBy u 1) 1) (value ++ [d]) r hr2 hb
              (by simp at hf ⊢; omega)
            refine ⟨t, ?_, hrt,
              ((hsu.andThen (Skips.cursor u 1)).andThen (Skips.cursor _ 1)).andThen hst⟩
            rw [hc]
            simp only [if_true, advance_cons hu, bind_ok, advance_cons hr1, ht]
            simp [unescape, hesc.1, hesc.2]
          · rw [if_neg hesc] at hb
            have hc : (decide (peek u = '\\') && decide (peekNext u = q)) = false := by
              simpa [hpu, hpn] using hesc
            obtain ⟨t, ht, hrt, hst⟩ := ih (advanceBy u 1) (value ++ [c]) (d :: r) hr1 hb.2
              (by simp at hf ⊢; omega)
            refine ⟨t, ?_, hrt, (hsu.andThen (Skips.cursor u 1)).andThen hst⟩
            rw [hc]
            simp only [Bool.false_eq_true, if_false, advance_cons hu, bind_ok, ht]
            simp [unescape, hesc]
      have hcond : (!isAtEnd s && peek s != q) = true := by
        simp [isAtEnd_of_cons hr', peek_cons hr', hcq]
      rw [hcond]
      simp only [if_true]
      by_cases hn : peek s = '\n'
      · simp only [hn, if_true]
        exact hbody { s with line_ := s.line_ + 1, column_ := 0 } hr' (Skips.lineBreak s)
      · simp only [hn, if_false]
        exact hbody s hr' (Skips.same s)

theorem escapedBody_of (q : Char) (hq : q ≠ '\\') : ∀ b : List Char,
    (∀ pre post, b = pre ++ q :: post → pre.getLast? = some '\\') →
    b.getLast? ≠ some '\\' → escapedBody q b
  | [], _, _ => trivial
  | [c], h1, h2 => by
    refine ⟨?_, ?_⟩
    · rintro rfl
      have := h1 [] [] rfl
      simp at this
    · rintro rfl
      exact h2 rfl
  | c :: d :: r, h1, h2 => by
    unfold escapedBody
    split
    · next hesc =>
      apply escapedBody_of q hq r
      · intro pre post hpre
        have := h1 (c :: d :: pre) post (by rw [hpre]; rfl)
        cases pre with
        | nil =>
          simp at this
          exact absurd (hesc.2.symm.trans this) hq
        | cons a l => simpa using this
      · intro hl
        apply h2
        cases r with
        | nil => simp at hl
        | cons a l => simpa using hl
    · next hesc =>
      refine ⟨?_, ?_⟩
      · rintro rfl
        have := h1 [] (d :: r) rfl
        simp at this
      · apply escapedBody_of q hq (d :: r)
        · intro pre post hpre
          have := h1 (c :: pre) post (by rw [hpre]; rfl)
          cases pre with
          | nil =>
            simp at this
            simp at hpre
            exact absurd ⟨this, hpre.1⟩ hesc
          | cons a l => simpa using this
        · intro hl
          apply h2
          simpa using hl

theorem scanString_closed (u : Scanner) (q : Char) (hq : q ≠ '\\') (b post : List Char)
    (hr : rest u = b ++ q :: post) (hb : escapedBody q b) :
    ∃ t, scanString u q = .ok { t with tokens_ := u.tokens_ ++
        [Token.mk4 .STRING (unescape q b) t.line_ t.column_] } ∧
      rest t = post ∧ Skips u t := by
  obtain ⟨t, ht, hrt, hst⟩ := scanString_loop_body q hq (u.source_.length + 1) u [] b post hr hb
    (by
      have := rest_length_lt u
      rw [hr] at this
      simp at this ⊢
      omega)
  refine ⟨advanceBy t 1, ?_, by rw [rest_advanceBy, hrt]; rfl, hst.andThen (Skips.cursor t 1)⟩
  unfold scanString
  rw [ht, bind_ok]
  simp only [List.nil_append, isAtEnd_of_cons hrt, Bool.false_eq_true, if_false,
    advance_cons hrt, bind_ok, pure_ok]
  rw [← hst.tokens_eq]
  rfl

theorem scanToken_squote (stod : List Char → Option ℚ) (s : Scanner) {r : List Char}
    (hr : rest s = '\'' :: r) : scanToken stod s = scanString (advanceBy s 1) '\'' := by
  unfold scanToken
  rw [advance_cons hr, bind_ok]
  rfl

theorem scanToken_dquote (stod : List Char → Option ℚ) (s : Scanner) {r : List Char}
    (hr : rest s = '"' :: r) : scanToken stod s = scanString (advanceBy s 1) '"' := by
  unfold scanToken
  rw [advance_cons hr, bind_ok]
  rfl

theorem scanToken_quote (stod : List Char → Option ℚ) (s : Scanner) {q : Char} {r : List Char}
    (hq : q = '\'' ∨ q = '"') (hr : rest s = q :: r) :
    scanToken stod s = scanString (advanceBy s 1) q := by
  rcases hq with rfl | rfl
  · exact scanToken_squote stod s hr
  · exact scanToken_dquote stod s hr

theorem quote_ne_backslash {q : Char} (hq : q = '\'' ∨ q = '"') : q ≠ '\\' := by
  rcases hq with rfl | rfl <;> decide

theorem scanString_loop_open (q : Char) (hq : q ≠ '\x00') (fuel : Nat) (s : Scanner)
    (value : List Char) (hb : q ∉ rest s) (hf : (rest s).length < fuel) :
    ∃ t v, scanString_loop q fuel s value = .ok (t, v) ∧ rest t = [] ∧ Skips s t := by
  induction fuel generalizing s value with
  | zero => omega
  | succ fuel ih =>
    rw [scanString_loop]
    cases hr : rest s with
    | nil =>
      exact ⟨s, value, by simp [isAtEnd_of_nil hr, pure_ok], hr, Skips.same s⟩
    | cons c r =>
      rw [hr] at hb hf
      have hcq : c ≠ q := fun h => hb (by rw [h]; exact List.mem_cons_self _ _)
      have hbody : ∀ u : Scanner, rest u = c :: r → Skips s u →
          ∃ t v, (if (decide (peek u = '\\') && decide (peekNext u = q)) = true then
              advance u >>= fun x => advance x.2 >>= fun y =>
                scanString_loop q fuel y.2 (value ++ [y.1])
            else advance u >>= fun x => scanString_loop q fuel x.2 (value ++ [x.1]))
            = .ok (t, v) ∧ rest t = [] ∧ Skips s t := by
        intro u hu hsu
        have hr1 : rest (advanceBy u 1) = r := by rw [rest_advanceBy, hu]; rfl
        have hpn : peekNext u ≠ q := by
          cases r with
          | nil => rw [peekNext_single hu]; exact Ne.symm hq
          | cons d r' =>
            rw [peekNext_cons hu]
            intro h
            exact hb (by rw [h]; simp)
        have hc : (decide (peek u = '\\') && decide (peekNext u = q)) = false := by
          simp [hpn]
        obtain ⟨t, v, ht, hrt, hst⟩ := ih (advanceBy u 1) (value ++ [c])
          (by rw [hr1]; exact fun h => hb (List.mem_cons_of_mem _ h))
          (by rw [hr1]; simp at hf; omega)
        refine ⟨t, v, ?_, hrt, (hsu.andThen (Skips.cursor u 1)).andThen hst⟩
        rw [hc]
        simp only [Bool.false_eq_true, if_false, advance_cons hu, bind_ok, ht]
      have hcond : (!isAtEnd s && peek s != q) = true := by
        simp [isAtEnd_of_cons hr, peek_cons hr, hcq]
      rw [hcond]
      simp only [if_true]
      by_cases hn : peek s = '\n'
      · simp only [hn, if_true]
        exact hbody { s with line_ := s.line_ + 1, column_ := 0 } hr (Skips.lineBreak s)
      · simp only [hn, if_false]
        exact hbody s hr (Skips.same s)

theorem scanString_open (u : Scanner) (q : Char) (hq : q ≠ '\x00') (hb : q ∉ rest u) :
    ∃ t, scanString u q = .ok (addError t "Unterminated string literal".toList) ∧
      rest t = [] ∧ Skips u t := by
  obtain ⟨t, v, ht, hrt, hst⟩ := scanString_loop_open q hq (u.source_.length + 1) u [] hb
    (rest_length_lt u)
  refine ⟨t, ?_, hrt, hst⟩
  unfold scanString
  rw [ht, bind_ok]
  simp only [isAtEnd_of_nil hrt, if_true, pure_ok]

theorem char_le_iff (a b : Char) : a ≤ b ↔ a.toNat ≤ b.toNat := Iff.rfl

theorem char_eq_iff (a b : Char) : a = b ↔ a.toNat = b.toNat := by
  constructor
  · intro h; rw [h]
  · intro h
    rw [← Char.ofNat_toNat a, ← Char.ofNat_toNat b, h]

theorem isAlpha_iff (c : Char) : isAlpha c = true ↔
    (97 ≤ c.toNat ∧ c.toNat ≤ 122) ∨ (65 ≤ c.toNat ∧ c.toNat ≤ 90) ∨ c.toNat = 95 := by
  simp only [isAlpha, Bool.or_eq_true, Bool.and_eq_true, decide_eq_true_eq, ge_iff_le,
    char_le_iff, char_eq_iff c '_', or_assoc]
  rfl

theorem isDigit_iff (c : Char) : isDigit c = true ↔ 48 ≤ c.toNat ∧ c.toNat ≤ 57 := by
  simp only [isDigit, Bool.and_eq_true, decide_eq_true_eq, ge_iff_le, char_le_iff]
  rfl

theorem isDigit_of_isAlpha {c : Char} (h : isAlpha c = true) : isDigit c = false := by
  cases hd : isDigit c with
  | false => rfl
  | true =>
    rw [isAlpha_iff] at h
    rw [isDigit_iff] at hd
    omega

theorem caseLabels_plain : ∀ x ∈ caseLabels, isAlpha x = false ∧ isDigit x = false := by decide

theorem not_caseLabel_of_isAlpha {c : Char} (h : isAlpha c = true) : c ∉ caseLabels := by
  intro hm
  rw [(caseLabels_plain c hm).1] at h
  cases h

theorem not_caseLabel_of_isDigit {c : Char} (h : isDigit c = true) : c ∉ caseLabels := by
  intro hm
  rw [(caseLabels_plain c hm).2] at h
  cases h

theorem scanToken_default (stod : List Char → Option ℚ) (s : Scanner) {c : Char} {r : List Char}
    (hr : rest s = c :: r) (hc : c ∉ caseLabels) :
    scanToken stod s =
      if isDigit c then scanNumber stod (advanceBy s 1)
      else if isAlpha c then scanIdentifier (advanceBy s 1)
      else pure (addError (advanceBy s 1)
        ("Unexpected character: '".toList ++ [c] ++ "'".toList)) := by
  unfold scanToken
  rw [advance_cons hr, bind_ok]
  exact scanToken_switch_default stod c (advanceBy s 1) hc

theorem scanToken_alpha (stod : List Char → Option ℚ) (s : Scanner) {c : Char} {r : List Char}
    (hr : rest s = c :: r) (hc : isAlpha c = true) :
    scanToken stod s = scanIdentifier (advanceBy s 1) := by
  rw [scanToken_default stod s hr (not_caseLabel_of_isAlpha hc), isDigit_of_isAlpha hc, hc]
  rfl

theorem scanToken_digit (stod : List Char → Option ℚ) (s : Scanner) {c : Char} {r : List Char}
    (hr : rest s = c :: r) (hc : isDigit c = true) :
    scanToken stod s = scanNumber stod (advanceBy s 1) := by
  rw [scanToken_default stod s hr (not_caseLabel_of_isDigit hc), hc]
  rfl

theorem takeWhile_eq_self {α : Type} (p : α → Bool) (l : List α) (h : ∀ x ∈ l, p x = true) :
    l.takeWhile p = l := by
  induction l with
  | nil => rfl
  | cons a l ih =>
    rw [List.takeWhile_cons, h a (List.mem_cons_self _ _), ih (fun x hx => h x (List.mem_cons_of_mem _ hx))]
    rfl

/-- Scanning a word: a text `c :: w` made of one letter or underscore followed by letters,
digits and underscores is one token with the whole text as lexeme. -/
theorem scan_word (stod : List Char → Option ℚ) (c : Char) (w : List Char)
    (hc : isAlpha c = true) (hw : ∀ x ∈ w, isAlphaNumeric x = true) :
    ∃ fin, scan stod (c :: w) =
        .ok ([Token.mk4 (identifierKind (c :: w)) (c :: w) 1 (w.length + 1),
          Token.mk4 .END_OF_FILE [] 1 (w.length + 1)], fin) ∧ fin.errors_ = [] := by
  have hr0 : rest (Scanner.init (c :: w)) = c :: w := rfl
  have hstep := scanToken_alpha stod _ hr0 hc
  rw [scanIdentifier_eq] at hstep
  have hr1 : rest (advanceBy (Scanner.init (c :: w)) 1) = w := by
    rw [rest_advanceBy, hr0]; rfl
  rw [hr1, takeWhile_eq_self _ _ hw] at hstep
  have hlex : substr (advanceBy (Scanner.init (c :: w)) 1).source_
      (advanceBy (Scanner.init (c :: w)) 1).start_
      ((advanceBy (Scanner.init (c :: w)) 1).current_ + w.length -
        (advanceBy (Scanner.init (c :: w)) 1).start_) = c :: w := by
    show ((c :: w).drop 0).take (0 + 1 + w.length - 0) = c :: w
    rw [List.drop_zero, Nat.sub_zero, Nat.zero_add, Nat.add_comm, List.take_succ_cons,
      List.take_length]
  rw [hlex] at hstep
  have hrt : rest (addTokenLex (advanceBy (advanceBy (Scanner.init (c :: w)) 1) w.length)
      (identifierKind (c :: w)) (c :: w)) = [] := by
    show (c :: w).drop (0 + 1 + w.length) = []
    rw [Nat.zero_add, Nat.add_comm, List.drop_succ_cons, List.drop_length]
  have hscan := scan_one_step stod c w _ hstep hrt
  refine ⟨finish (addTokenLex (advanceBy (advanceBy (Scanner.init (c :: w)) 1) w.length)
      (identifierKind (c :: w)) (c :: w)), ?_, rfl⟩
  rw [hscan]
  simp [finish, addTokenLex, advanceBy, Scanner.init, Token.mk4, Nat.add_comm]

theorem uint32_le_iff (a b : UInt32) : a ≤ b ↔ a.toNat ≤ b.toNat := Iff.rfl

theorem libIsDigit_iff (c : Char) : c.isDigit = true ↔ 48 ≤ c.toNat ∧ c.toNat ≤ 57 := by
  simp only [Char.isDigit, Bool.and_eq_true, decide_eq_true_eq, ge_iff_le, uint32_le_iff]
  rfl

theorem libIsAlpha_iff (c : Char) : c.isAlpha = true ↔
    (65 ≤ c.toNat ∧ c.toNat ≤ 90) ∨ (97 ≤ c.toNat ∧ c.toNat ≤ 122) := by
  simp only [Char.isAlpha, Char.isUpper, Char.isLower, Bool.or_eq_true, Bool.and_eq_true,
    decide_eq_true_eq, ge_iff_le, uint32_le_iff]
  rfl

theorem isAlphaNumeric_of_ascii {c : Char}
    (h : c.isAlpha = true ∨ c.isDigit = true ∨ c = '_') : isAlphaNumeric c = true := by
  unfold isAlphaNumeric
  rw [Bool.or_eq_true, isAlpha_iff, isDigit_iff]
  rcases h with h | h | h
  · rw [libIsAlpha_iff] at h; omega
  · rw [libIsDigit_iff] at h; omega
  · subst h; decide

theorem isDigit_eq (c : Char) : isDigit c = c.isDigit := by
  rw [Bool.eq_iff_iff, isDigit_iff, libIsDigit_iff]

theorem toupper_eq (c : Char) : toupper c = c.toUpper := by
  unfold toupper Char.toUpper
  simp only [char_le_iff]
  rfl

theorem keywords_capitals : ∀ p ∈ keywords_, p.1 ≠ [] ∧ ∀ b ∈ p.1, b ∈ capitals := by decide

theorem keywords_find_self : ∀ p ∈ keywords_, keywords_find p.1 = some p.2 := by decide

theorem capitals_case : ∀ b ∈ capitals,
    b.toUpper = b ∧ toupper b = b ∧ toupper b.toLower = b ∧ isAlpha b = true ∧
      isAlpha b.toLower = true := by decide

theorem keywords_find_none {key : List Char} (h : ∀ p ∈ keywords_, p.1 ≠ key) :
    keywords_find key = none := by
  unfold keywords_find
  rw [List.find?_eq_none.2 (fun p hp => by simpa using h p hp)]
  rfl

theorem isAlphaNumeric_of_isAlpha {c : Char} (h : isAlpha c = true) :
    isAlphaNumeric c = true := by
  unfold isAlphaNumeric
  rw [h]; rfl

theorem caseVariant_facts {v w : List Char}
    (hv : List.Forall₂ (fun a b => a = b ∨ a = b.toLower ∨ a = b.toUpper) v w)
    (hw : ∀ b ∈ w, b ∈ capitals) :
    v.map toupper = w ∧ ∀ x ∈ v, isAlpha x = true := by
  induction hv with
  | nil => exact ⟨rfl, by simp⟩
  | @cons a b l₁ l₂ hab _ ih =>
    obtain ⟨ih1, ih2⟩ := ih (fun x hx => hw x (List.mem_cons_of_mem _ hx))
    obtain ⟨c1, c2, c3, c4, c5⟩ := capitals_case b (hw b (List.mem_cons_self _ _))
    have hup : toupper a = b := by
      rcases hab with rfl | rfl | rfl
      · exact c2
      · exact c3
      · rw [c1]; exact c2
    have hal : isAlpha a = true := by
      rcases hab with rfl | rfl | rfl
      · exact c4
      · exact c5
      · rw [c1]; exact c4
    refine ⟨by rw [List.map_cons, hup, ih1], ?_⟩
    intro x hx
    rcases List.mem_cons.1 hx with rfl | hx
    · exact hal
    · exact ih2 x hx

theorem scanNumber_eq (stod : List Char → Option ℚ) (s : Scanner) :
    scanNumber stod s = .ok (emitNumber stod (numberEnd s)) := by
  have tail : ∀ u : Scanner,
      (match stod (substr u.source_ u.start_ (u.current_ - u.start_)) with
      | some v => (pure { u with tokens_ := u.tokens_ ++
          [{ Token.mk4 .NUMBER (substr u.source_ u.start_ (u.current_ - u.start_))
              u.line_ u.column_ with number_value := v }] } : Except Fault Scanner)
      | none =>
        pure { addError u ("Invalid number format: ".toList ++
            substr u.source_ u.start_ (u.current_ - u.start_)) with
          tokens_ := (addError u ("Invalid number format: ".toList ++
            substr u.source_ u.start_ (u.current_ - u.start_))).tokens_ ++
          [{ Token.mk4 .NUMBER (substr u.source_ u.start_ (u.current_ - u.start_))
              u.line_ u.column_ with number_value := 0 }] }) = .ok (emitNumber stod u) := by
    intro u
    unfold emitNumber
    cases stod (substr u.source_ u.start_ (u.current_ - u.start_)) <;> rfl
  unfold scanNumber numberEnd
  rw [scanNumber_digits_eq _ _ (takeWhile_rest_lt _ s), bind_ok]
  generalize advanceBy s ((rest s).takeWhile isDigit).length = s1
  split
  · next hcond =>
    simp only [Bool.and_eq_true, decide_eq_true_eq] at hcond
    cases hr : rest s1 with
    | nil => rw [peek_nil hr] at hcond; exact absurd hcond.1 (by decide)
    | cons c r =>
      rw [advance_cons hr, bind_ok]
      show (scanNumber_digits ((advanceBy s1 1).source_.length + 1) (advanceBy s1 1) >>= _) = _
      rw [scanNumber_digits_eq _ _ (takeWhile_rest_lt _ _), bind_ok]
      exact tail _
  · rw [pure_ok, bind_ok]
    exact tail _

theorem emitNumber_tokens (stod : List Char → Option ℚ) (s : Scanner) :
    ∃ tok, (emitNumber stod s).tokens_ = s.tokens_ ++ [tok] ∧ tok.type = .NUMBER ∧
      tok.lexeme = substr s.source_ s.start_ (s.current_ - s.start_) := by
  unfold emitNumber
  cases stod (substr s.source_ s.start_ (s.current_ - s.start_)) with
  | some v => exact ⟨_, rfl, rfl, rfl⟩
  | none => exact ⟨_, rfl, rfl, rfl⟩

theorem emitNumber_frame (stod : List Char → Option ℚ) (s : Scanner) :
    (emitNumber stod s).source_ = s.source_ ∧ (emitNumber stod s).current_ = s.current_ ∧
      (emitNumber stod s).start_ = s.start_ := by
  unfold emitNumber
  cases stod (substr s.source_ s.start_ (s.current_ - s.start_)) with
  | some v => exact ⟨rfl, rfl, rfl⟩
  | none => exact ⟨rfl, rfl, rfl⟩

theorem rest_emitNumber (stod : List Char → Option ℚ) (s : Scanner) :
    rest (emitNumber stod s) = rest s := by
  obtain ⟨h1, h2, -⟩ := emitNumber_frame stod s
  unfold rest
  rw [h1, h2]

theorem takeWhile_prefix {α : Type} (p : α → Bool) (d post : List α)
    (hd : ∀ x ∈ d, p x = true) (hpost : ∀ c, post.head? = some c → p c = false) :
    (d ++ post).takeWhile p = d := by
  induction d with
  | nil =>
    cases post with
    | nil => rfl
    | cons c r => simp [List.takeWhile_cons, hpost c rfl]
  | cons a d ih =>
    rw [List.cons_append, List.takeWhile_cons, hd a (List.mem_cons_self _ _),
      ih (fun x hx => hd x (List.mem_cons_of_mem _ hx))]
    rfl

theorem rest_advanceBy_append (u : Scanner) (a b : List Char) (h : rest u = a ++ b) :
    rest (advanceBy u a.length) = b := by
  rw [rest_advanceBy, h, List.drop_left]

theorem substr_at_start (s : Scanner) (a b : List Char) (n : Nat)
    (hs : s.source_.drop s.start_ = a ++ b) (hn : n = a.length) :
    substr s.source_ s.start_ n = a := by
  unfold substr
  rw [hs, hn, List.take_left]

/-- The integer form: the digits `c :: d` are read as one NUMBER token when what follows is
neither a digit nor a dot with a digit behind it. -/
theorem scanToken_integer (stod : List Char → Option ℚ) (s : Scanner) (c : Char)
    (d post : List Char) (hs : s.start_ = s.current_) (hr : rest s = c :: (d ++ post))
    (hc : isDigit c = true) (hd : ∀ x ∈ d, isDigit x = true)
    (hp : ∀ x, post.head? = some x → isDigit x = false)
    (hfrac : ∀ y r, post = '.' :: y :: r → isDigit y = false) :
    ∃ t tok, scanToken stod s = .ok t ∧ rest t = post ∧ t.source_ = s.source_ ∧
      t.tokens_ = s.tokens_ ++ [tok] ∧ tok.type = .NUMBER ∧ tok.lexeme = c :: d := by
  have hr1 : rest (advanceBy s 1) = d ++ post := by rw [rest_advanceBy, hr]; rfl
  have htw : (rest (advanceBy s 1)).takeWhile isDigit = d := by
    rw [hr1]; exact takeWhile_prefix _ _ _ hd hp
  have hr2 : rest (advanceBy (advanceBy s 1) d.length) = post :=
    rest_advanceBy_append _ _ _ hr1
  have hend : numberEnd (advanceBy s 1) = advanceBy (advanceBy s 1) d.length := by
    unfold numberEnd
    rw [htw]
    have : (decide (peek (advanceBy (advanceBy s 1) d.length) = '.') &&
        isDigit (peekNext (advanceBy (advanceBy s 1) d.length))) = false := by
      cases hpost : post with
      | nil =>
        rw [hpost] at hr2
        rw [peek_nil hr2]; rfl
      | cons a l =>
        rw [hpost] at hr2
        rw [peek_cons hr2]
        by_cases ha : a = '.'
        · cases l with
          | nil => rw [peekNext_single hr2]; simp [ha]; decide
          | cons y r =>
            rw [peekNext_cons hr2, hfrac y r (by rw [hpost, ha])]
            simp
        · simp [ha]
    rw [this]
    rfl
  obtain ⟨tok, htok, hty, hlex⟩ := emitNumber_tokens stod (numberEnd (advanceBy s 1))
  refine ⟨emitNumber stod (numberEnd (advanceBy s 1)), tok, ?_, ?_, ?_, ?_, hty, ?_⟩
  · rw [scanToken_digit stod s hr hc, scanNumber_eq]
  · rw [rest_emitNumber, hend, hr2]
  · rw [(emitNumber_frame stod _).1, hend]; rfl
  · rw [htok, hend]; rfl
  · rw [hlex, hend]
    refine substr_at_start _ (c :: d) post _ ?_ ?_
    · show s.source_.drop s.start_ = _
      rw [hs]; exact hr
    · show s.current_ + 1 + d.length - s.start_ = (c :: d).length
      rw [hs]; simp; omega

/-- The decimal form: the digits `c :: d`, a dot and the digits `y :: e` are read as one NUMBER
token when no digit follows. -/
theorem scanToken_decimal (stod : List Char → Option ℚ) (s : Scanner) (c y : Char)
    (d e post : List Char) (hs : s.start_ = s.current_)
    (hr : rest s = c :: (d ++ '.' :: y :: (e ++ post)))
    (hc : isDigit c = true) (hd : ∀ x ∈ d, isDigit x = true)
    (hy : isDigit y = true) (he : ∀ x ∈ e, isDigit x = true)
    (hp : ∀ x, post.head? = some x → isDigit x = false) :
    ∃ t tok, scanToken stod s = .ok t ∧ rest t = post ∧ t.source_ = s.source_ ∧
      t.tokens_ = s.tokens_ ++ [tok] ∧ tok.type = .NUMBER ∧
      tok.lexeme = c :: (d ++ '.' :: y :: e) := by
  have hr1 : rest (advanceBy s 1) = d ++ '.' :: y :: (e ++ post) := by
    rw [rest_advanceBy, hr]; rfl
  have htw : (rest (advanceBy s 1)).takeWhile isDigit = d := by
    rw [hr1]; exact takeWhile_prefix _ _ _ hd (by intro x hx; cases hx; decide)
  have hr2 : rest (advanceBy (advanceBy s 1) d.length) = '.' :: y :: (e ++ post) :=
    rest_advanceBy_append _ _ _ hr1
  have hr3 : rest (advanceBy (advanceBy (advanceBy s 1) d.length) 1) = (y :: e) ++ post := by
    rw [rest_advanceBy, hr2]; rfl
  have htw2 : (rest (advanceBy (advanceBy (advanceBy s 1) d.length) 1)).takeWhile isDigit =
      y :: e := by
    rw [hr3]
    refine takeWhile_prefix _ _ _ ?_ hp
    intro x hx
    rcases List.mem_cons.1 hx with rfl | hx
    · exact hy
    · exact he x hx
  have hr4 : rest (advanceBy (advanceBy (advanceBy (advanceBy s 1) d.length) 1)
      (y :: e).length) = post := rest_advanceBy_append _ _ _ hr3
  have hend : numberEnd (advanceBy s 1) =
      advanceBy (advanceBy (advanceBy (advanceBy s 1) d.length) 1) (y :: e).length := by
    unfold numberEnd
    rw [htw, htw2, peek_cons hr2, peekNext_cons hr2, hy]
    rfl
  obtain ⟨tok, htok, hty, hlex⟩ := emitNumber_tokens stod (numberEnd (advanceBy s 1))
  refine ⟨emitNumber stod (numberEnd (advanceBy s 1)), tok, ?_, ?_, ?_, ?_, hty, ?_⟩
  · rw [scanToken_digit stod s hr hc, scanNumber_eq]
  · rw [rest_emitNumber, hend, hr4]
  · rw [(emitNumber_frame stod _).1, hend]; rfl
  · rw [htok, hend]; rfl
  · rw [hlex, hend]
    refine substr_at_start _ (c :: (d ++ '.' :: y :: e)) post _ ?_ ?_
    · show s.source_.drop s.start_ = _
      rw [hs]; simpa using hr
    · show s.current_ + 1 + d.length + 1 + (y :: e).length - s.start_ = _
      rw [hs]; simp; omega

theorem scan_two (stod : List Char → Option ℚ) (source : List Char) (t u : Scanner)
    {e : Char} {l : List Char} (hlen : 2 ≤ source.length)
    (h : scanToken stod (Scanner.init source) = .ok t) (ht : rest t = e :: l)
    (h2 : scanToken stod { t with start_ := t.current_ } = .ok u) (hu : rest u = []) :
    scan stod source = .ok ((finish u).tokens_, finish u) := by
  apply scan_of_loop
  obtain ⟨n, hn⟩ : ∃ n, source.length = n + 2 := ⟨source.length - 2, by omega⟩
  cases source with
  | nil => simp at hlen
  | cons c r =>
    rw [hn, scanTokens_loop_step stod _ _ (rest_init (c :: r))]
    show (scanToken stod (Scanner.init (c :: r)) >>= _) = _
    rw [h, bind_ok, scanTokens_loop_step stod _ _ ht, h2, bind_ok,
      scanTokens_loop_done stod _ _ hu]

theorem scanToken_dot (stod : List Char → Option ℚ) (s : Scanner) {r : List Char}
    (hr : rest s = '.' :: r) : scanToken stod s = .ok (addToken (advanceBy s 1) .DOT) := by
  unfold scanToken
  rw [advance_cons hr, bind_ok]
  rfl

theorem isDigit_all {d : List Char} (h : ∀ x ∈ d, x.isDigit = true) :
    ∀ x ∈ d, isDigit x = true :=
  fun x hx => (isDigit_eq x).trans (h x hx)

theorem emitNumber_some (stod : List Char → Option ℚ) (s : Scanner) (v : ℚ)
    (h : stod (substr s.source_ s.start_ (s.current_ - s.start_)) = some v) :
    emitNumber stod s =
      { s with tokens_ := s.tokens_ ++
          [{ Token.mk4 .NUMBER (substr s.source_ s.start_ (s.current_ - s.start_))
              s.line_ s.column_ with number_value := v }] } := by
  unfold emitNumber
  rw [h]

theorem emitNumber_none (stod : List Char → Option ℚ) (s : Scanner)
    (h : stod (substr s.source_ s.start_ (s.current_ - s.start_)) = none) :
    emitNumber stod s =
      { addError s ("Invalid number format: ".toList ++
            substr s.source_ s.start_ (s.current_ - s.start_)) with
        tokens_ := s.tokens_ ++
          [{ Token.mk4 .NUMBER (substr s.source_ s.start_ (s.current_ - s.start_))
              s.line_ s.column_ with number_value := 0 }] } := by
  unfold emitNumber
  rw [h]

/-! ## One pass of the loop, and what a whole scan preserves -/

theorem match_hit {u : Scanner} {e : Char} {r : List Char} (h : rest u = e :: r) :
    match_ u e = (true, advanceBy u 1) := by
  rw [match_eq, h]; simp

theorem match_miss {u : Scanner} {e : Char} (h : (rest u).head? ≠ some e) :
    match_ u e = (false, u) := by
  rw [match_eq, if_neg h]

theorem rest_advanceBy_cons {s : Scanner} {c : Char} {r : List Char} (h : rest s = c :: r) :
    rest (advanceBy s 1) = r := by
  rw [rest_advanceBy, h]; rfl

theorem scanToken_less (stod : List Char → Option ℚ) (s : Scanner) {r : List Char}
    (hr : rest s = '<' :: r) :
    scanToken stod s = .ok
      (if r.head? = some '=' then addToken (advanceBy s 2) .LESS_EQUAL
       else if r.head? = some '>' then addToken (advanceBy s 2) .NOT_EQUAL
       else addToken (advanceBy s 1) .LESS_THAN) := by
  have hr1 := rest_advanceBy_cons hr
  unfold scanToken
  rw [advance_cons hr, bind_ok]
  show (if (match_ (advanceBy s 1) '=').1 = true then
      pure (addToken (match_ (advanceBy s 1) '=').2 .LESS_EQUAL)
    else if (match_ (match_ (advanceBy s 1) '=').2 '>').1 = true then
      pure (addToken (match_ (match_ (advanceBy s 1) '=').2 '>').2 .NOT_EQUAL)
    else pure (addToken (match_ (match_ (advanceBy s 1) '=').2 '>').2 .LESS_THAN) :
      Except Fault Scanner) = _
  by_cases h1 : r.head? = some '='
  · obtain ⟨r', rfl⟩ : ∃ r', r = '=' :: r' := by
      cases r with
      | nil => simp at h1
      | cons a l => exact ⟨l, by simp at h1; rw [h1]⟩
    rw [match_hit hr1, if_pos h1, advanceBy_advanceBy]
    rfl
  · rw [match_miss (by rw [hr1]; exact h1), if_neg h1]
    simp only [Bool.false_eq_true, if_false]
    by_cases h2 : r.head? = some '>'
    · obtain ⟨r', rfl⟩ : ∃ r', r = '>' :: r' := by
        cases r with
        | nil => simp at h2
        | cons a l => exact ⟨l, by simp at h2; rw [h2]⟩
      rw [match_hit hr1, if_pos h2, advanceBy_advanceBy]
      rfl
    · rw [match_miss (by rw [hr1]; exact h2), if_neg h2]
      rfl

theorem head?_eq_some_cons {r : List Char} {e : Char} (h : r.head? = some e) :
    ∃ r', r = e :: r' := by
  cases r with
  | nil => simp at h
  | cons a l => exact ⟨l, by simp at h; rw [h]⟩

theorem scanToken_single (stod : List Char → Option ℚ) (s : Scanner) {c : Char} {k : TokenType}
    {r : List Char} (hk : (c, k) ∈ singleCharKind) (hr : rest s = c :: r) :
    scanToken stod s = .ok (addToken (advanceBy s 1) k) := by
  unfold scanToken
  rw [advance_cons hr, bind_ok]
  simp only [singleCharKind, List.mem_cons, List.mem_singleton, Prod.mk.injEq,
    List.not_mem_nil, or_false] at hk
  rcases hk with h | h | h | h | h | h | h | h | h <;> (obtain ⟨hc, hk⟩ := h; subst hc hk; rfl)

theorem scanToken_blank (stod : List Char → Option ℚ) (s : Scanner) {c : Char} {r : List Char}
    (hc : c = ' ' ∨ c = '\r' ∨ c = '\t') (hr : rest s = c :: r) :
    scanToken stod s = .ok (advanceBy s 1) := by
  unfold scanToken
  rw [advance_cons hr, bind_ok]
  rcases hc with rfl | rfl | rfl <;> rfl

theorem scanToken_newline (stod : List Char → Option ℚ) (s : Scanner) {r : List Char}
    (hr : rest s = '\n' :: r) :
    scanToken stod s =
      .ok { advanceBy s 1 with line_ := (advanceBy s 1).line_ + 1, column_ := 0 } := by
  unfold scanToken
  rw [advance_cons hr, bind_ok]
  rfl

theorem scanToken_greater (stod : List Char → Option ℚ) (s : Scanner) {r : List Char}
    (hr : rest s = '>' :: r) :
    scanToken stod s = .ok
      (if r.head? = some '=' then addToken (advanceBy s 2) .GREATER_EQUAL
       else addToken (advanceBy s 1) .GREATER_THAN) := by
  have hr1 := rest_advanceBy_cons hr
  unfold scanToken
  rw [advance_cons hr, bind_ok]
  show (if (match_ (advanceBy s 1) '=').1 = true then
      pure (addToken (match_ (advanceBy s 1) '=').2 .GREATER_EQUAL)
    else pure (addToken (match_ (advanceBy s 1) '=').2 .GREATER_THAN) :
      Except Fault Scanner) = _
  by_cases h1 : r.head? = some '='
  · obtain ⟨r', rfl⟩ := head?_eq_some_cons h1
    rw [match_hit hr1, if_pos h1, advanceBy_advanceBy]
    rfl
  · rw [match_miss (by rw [hr1]; exact h1), if_neg h1]
    rfl

theorem scanToken_bang (stod : List Char → Option ℚ) (s : Scanner) {r : List Char}
    (hr : rest s = '!' :: r) :
    scanToken stod s = .ok
      (if r.head? = some '=' then addToken (advanceBy s 2) .NOT_EQUAL
       else addError (advanceBy s 1) "Unexpected character '!'".toList) := by
  have hr1 := rest_advanceBy_cons hr
  unfold scanToken
  rw [advance_cons hr, bind_ok]
  show (if (match_ (advanceBy s 1) '=').1 = true then
      pure (addToken (match_ (advanceBy s 1) '=').2 .NOT_EQUAL)
    else pure (addError (match_ (advanceBy s 1) '=').2 "Unexpected character '!'".toList) :
      Except Fault Scanner) = _
  by_cases h1 : r.head? = some '='
  · obtain ⟨r', rfl⟩ := head?_eq_some_cons h1
    rw [match_hit hr1, if_pos h1, advanceBy_advanceBy]
    rfl
  · rw [match_miss (by rw [hr1]; exact h1), if_neg h1]
    rfl

theorem scanToken_minus (stod : List Char → Option ℚ) (s : Scanner) {r : List Char}
    (hr : rest s = '-' :: r) :
    scanToken stod s =
      if r.head? = some '-' then scanComment (advanceBy s 2)
      else .ok (addToken (advanceBy s 1) .MINUS) := by
  have hr1 := rest_advanceBy_cons hr
  unfold scanToken
  rw [advance_cons hr, bind_ok]
  show (if (match_ (advanceBy s 1) '-').1 = true then scanComment (match_ (advanceBy s 1) '-').2
    else pure (addToken (match_ (advanceBy s 1) '-').2 .MINUS)) = _
  by_cases h1 : r.head? = some '-'
  · obtain ⟨r', rfl⟩ := head?_eq_some_cons h1
    rw [match_hit hr1, if_pos h1, advanceBy_advanceBy]
    rfl
  · rw [match_miss (by rw [hr1]; exact h1), if_neg h1]
    rfl

theorem scanToken_slash (stod : List Char → Option ℚ) (s : Scanner) {r : List Char}
    (hr : rest s = '/' :: r) :
    scanToken stod s =
      if r.head? = some '*' then scanComment (advanceBy s 2)
      else .ok (addToken (advanceBy s 1) .SLASH) := by
  have hr1 := rest_advanceBy_cons hr
  unfold scanToken
  rw [advance_cons hr, bind_ok]
  show (if (match_ (advanceBy s 1) '*').1 = true then scanComment (match_ (advanceBy s 1) '*').2
    else pure (addToken (match_ (advanceBy s 1) '*').2 .SLASH)) = _
  by_cases h1 : r.head? = some '*'
  · obtain ⟨r', rfl⟩ := head?_eq_some_cons h1
    rw [match_hit hr1, if_pos h1, advanceBy_advanceBy]
    rfl
  · rw [match_miss (by rw [hr1]; exact h1), if_neg h1]
    rfl

theorem scanToken_unexpected (stod : List Char → Option ℚ) (s : Scanner) {c : Char}
    {r : List Char} (hr : rest s = c :: r) (hc : c ∉ caseLabels)
    (hd : isDigit c = false) (ha : isAlpha c = false) :
    scanToken stod s = .ok (addError (advanceBy s 1)
      ("Unexpected character: '".toList ++ [c] ++ "'".toList)) := by
  rw [scanToken_default stod s hr hc, hd, ha]
  rfl

theorem moves_same (s : Scanner) : Moves s s := by
  refine ⟨rfl, Nat.le_refl _, by simp, ?_, ?_⟩
  · simp [consumed]
  · intro _; simp

theorem rest_of_moves {s t : Scanner} (h : Moves s t) :
    rest t = (rest s).drop (t.current_ - s.current_) := by
  obtain ⟨h1, h2, -⟩ := h
  unfold rest
  rw [h1, List.drop_drop]
  congr 1
  omega

theorem consumed_append {s u t : Scanner} (h1 : Moves s u) (h2 : Moves u t) :
    consumed s t = consumed s u ++ consumed u t := by
  have hr := rest_of_moves h1
  obtain ⟨-, a2, a3, -⟩ := h1
  obtain ⟨-, b2, -⟩ := h2
  unfold consumed
  rw [hr, show t.current_ - s.current_ = (u.current_ - s.current_) + (t.current_ - u.current_)
    by omega, List.take_add]

theorem moves_andThen {s u t : Scanner} (h1 : Moves s u) (h2 : Moves u t) : Moves s t := by
  have hc := consumed_append h1 h2
  have hr := rest_of_moves h1
  obtain ⟨a1, a2, a3, a4, a5⟩ := h1
  obtain ⟨b1, b2, b3, b4, b5⟩ := h2
  refine ⟨b1.trans a1, Nat.le_trans a2 b2, ?_, ?_, ?_⟩
  · rw [hr, List.length_drop] at b3
    omega
  · rw [hc, List.count_append, b4, a4, Nat.add_assoc]
  · intro hn
    rw [hc, List.mem_append, not_or] at hn
    rw [b5 hn.2, a5 hn.1]
    omega

theorem consumed_advanceBy (s : Scanner) (n : Nat) :
    consumed s (advanceBy s n) = (rest s).take n := by
  simp [consumed, advanceBy]

theorem moves_cursor (s : Scanner) (n : Nat) (hn : n ≤ (rest s).length)
    (hnl : '\n' ∉ (rest s).take n) : Moves s (advanceBy s n) := by
  refine ⟨rfl, Nat.le_add_right _ _, ?_, ?_, ?_⟩
  · show s.current_ + n - s.current_ ≤ _
    omega
  · rw [consumed_advanceBy, List.count_eq_zero_of_not_mem hnl]
    rfl
  · intro _
    show s.column_ + n = s.column_ + (s.current_ + n - s.current_)
    omega

theorem moves_step {s : Scanner} {c : Char} {r : List Char} (hr : rest s = c :: r)
    (hc : c ≠ '\n') : Moves s (advanceBy s 1) := by
  refine moves_cursor s 1 (by rw [hr]; simp) ?_
  rw [hr]
  simpa using Ne.symm hc

theorem moves_breakLine {s t : Scanner} {r : List Char} (hr : rest s = '\n' :: r)
    (h1 : t.source_ = s.source_) (h2 : t.current_ = s.current_ + 1)
    (h3 : t.line_ = s.line_ + 1) : Moves s t := by
  have hc : consumed s t = ['\n'] := by
    unfold consumed
    rw [h2, hr]; simp
  refine ⟨h1, by omega, ?_, ?_, ?_⟩
  · rw [h2, hr]; simp
  · rw [hc, h3]; rfl
  · rw [hc]; simp

theorem reads_same (s : Scanner) : Reads s s := ⟨moves_same s, Skips.same s⟩

theorem reads_andThen {s u t : Scanner} (h1 : Reads s u) (h2 : Reads u t) : Reads s t :=
  ⟨moves_andThen h1.1 h2.1, h1.2.andThen h2.2⟩

theorem reads_step {s : Scanner} {c : Char} {r : List Char} (hr : rest s = c :: r)
    (hc : c ≠ '\n') : Reads s (advanceBy s 1) :=
  ⟨moves_step hr hc, Skips.cursor s 1⟩

theorem reads_breakLine {s : Scanner} {r : List Char} (hr : rest s = '\n' :: r) :
    Reads s (advanceBy { s with line_ := s.line_ + 1, column_ := 0 } 1) :=
  ⟨moves_breakLine hr rfl rfl rfl, ⟨rfl, rfl, rfl, rfl⟩⟩

/-- Reading one character the way the loops of `scanString` and of the block comment do: the
line counter is bumped first when the character is a newline. -/
theorem reads_bumped {s : Scanner} {c : Char} {r : List Char} (hr : rest s = c :: r) :
    Reads s (advanceBy (if c = '\n' then { s with line_ := s.line_ + 1, column_ := 0 } else s)
      1) := by
  split
  · next h => subst h; exact reads_breakLine hr
  · next h => exact reads_step hr h

theorem rest_bumped (s : Scanner) (c : Char) :
    rest (if c = '\n' then { s with line_ := s.line_ + 1, column_ := 0 } else s) = rest s := by
  split <;> rfl

theorem scanString_loop_reads (q : Char) (hq0 : q ≠ '\x00') (hqn : q ≠ '\n') (fuel : Nat)
    (s : Scanner) (value : List Char) (hf : (rest s).length < fuel) :
    ∃ t v, scanString_loop q fuel s value = .ok (t, v) ∧ Reads s t ∧
      (rest t = [] ∨ ∃ r, rest t = q :: r) := by
  induction fuel generalizing s value with
  | zero => omega
  | succ fuel ih =>
    rw [scanString_loop]
    cases hr : rest s with
    | nil =>
      exact ⟨s, value, by simp [isAtEnd_of_nil hr, pure_ok], reads_same s, Or.inl hr⟩
    | cons c r =>
      have hp : peek s = c := peek_cons hr
      rw [hr] at hf
      by_cases hcq : c = q
      · exact ⟨s, value, by simp [isAtEnd_of_cons hr, hp, hcq, pure_ok], reads_same s,
          Or.inr ⟨r, by rw [hr, hcq]⟩⟩
      · have hbody : ∀ u : Scanner, rest u = c :: r → Reads s (advanceBy u 1) →
            ∃ t v, (if (decide (peek u = '\\') && decide (peekNext u = q)) = true then
                advance u >>= fun x => advance x.2 >>= fun y =>
                  scanString_loop q fuel y.2 (value ++ [y.1])
              else advance u >>= fun x => scanString_loop q fuel x.2 (value ++ [x.1]))
              = .ok (t, v) ∧ Reads s t ∧ (rest t = [] ∨ ∃ r, rest t = q :: r) := by
          intro u hu hsu
          have hpu : peek u = c := peek_cons hu
          have hr1 : rest (advanceBy u 1) = r := rest_advanceBy_cons hu
          have hplain : ∃ t v, (advance u >>= fun x =>
              scanString_loop q fuel x.2 (value ++ [x.1])) = .ok (t, v) ∧ Reads s t ∧
                (rest t = [] ∨ ∃ r, rest t = q :: r) := by
            obtain ⟨t, v, ht, hrd, hend⟩ := ih (advanceBy u 1) (value ++ [c])
              (by rw [hr1]; simp at hf; omega)
            exact ⟨t, v, by rw [advance_cons hu, bind_ok]; exact ht, reads_andThen hsu hrd, hend⟩
          cases r with
          | nil =>
            have hpn : peekNext u = '\x00' := peekNext_single hu
            have : (decide (peek u = '\\') && decide (peekNext u = q)) = false := by
              simp [hpn, Ne.symm hq0]
            rw [this]
            simpa using hplain
          | cons d r' =>
            have hpn : peekNext u = d := peekNext_cons hu
            by_cases hesc : c = '\\' ∧ d = q
            · have hr2 : rest (advanceBy (advanceBy u 1) 1) = r' := rest_advanceBy_cons hr1
              obtain ⟨t, v, ht, hrd, hend⟩ := ih (advanceBy (advanceBy u 1) 1) (value ++ [d])
                (by rw [hr2]; simp at hf; omega)
              refine ⟨t, v, ?_, reads_andThen
                (reads_andThen hsu (reads_step hr1 (by rw [hesc.2]; exact hqn))) hrd, hend⟩
              have : (decide (peek u = '\\') && decide (peekNext u = q)) = true := by
                simp [hpu, hpn, hesc.1, hesc.2]
              rw [this]
              simp only [if_true, advance_cons hu, bind_ok, advance_cons hr1]
              exact ht
            · have : (decide (peek u = '\\') && decide (peekNext u = q)) = false := by
                simpa [hpu, hpn] using hesc
              rw [this]
              simpa using hplain
        have hcond : (!isAtEnd s && peek s != q) = true := by
          simp [isAtEnd_of_cons hr, hp, hcq]
        rw [hcond]
        simp only [if_true]
        by_cases hn : peek s = '\n'
        · simp only [hn, if_true]
          have hcn : c = '\n' := hp.symm.trans hn
          subst hcn
          exact hbody { s with line_ := s.line_ + 1, column_ := 0 } hr (reads_breakLine hr)
        · simp only [hn, if_false]
          exact hbody s hr (reads_step hr (fun h => hn (hp.trans h)))

theorem scanComment_blockLoop_reads (fuel : Nat) (s : Scanner) (hf : (rest s).length < fuel) :
    ∃ t, Reads s t ∧
      (scanComment_blockLoop fuel s = .ok t ∨
        (rest t = [] ∧ scanComment_blockLoop fuel s =
          .ok (addError t "Unterminated block comment".toList))) := by
  induction fuel generalizing s with
  | zero => omega
  | succ fuel ih =>
    rw [scanComment_blockLoop]
    cases hr : rest s with
    | nil =>
      refine ⟨s, reads_same s, Or.inr ⟨hr, ?_⟩⟩
      simp [isAtEnd_of_nil hr, pure_ok]
    | cons c r =>
      have hp : peek s = c := peek_cons hr
      have hstep : ∀ u : Scanner, rest u = c :: r → Reads s (advanceBy u 1) →
          ∃ t, Reads s t ∧
            ((advance u >>= fun x => scanComment_blockLoop fuel x.2) = .ok t ∨
              (rest t = [] ∧ (advance u >>= fun x => scanComment_blockLoop fuel x.2) =
                .ok (addError t "Unterminated block comment".toList))) := by
        intro u hu hsu
        have hr1 : rest (advanceBy u 1) = r := rest_advanceBy_cons hu
        obtain ⟨t, hrd, ht⟩ := ih (advanceBy u 1) (by rw [hr1]; rw [hr] at hf; simp at hf; omega)
        refine ⟨t, reads_andThen hsu hrd, ?_⟩
        rw [advance_cons hu, bind_ok]
        exact ht
      have hcont : ∃ t, Reads s t ∧
          ((advance (if c = '\n' then { s with line_ := s.line_ + 1, column_ := 0 }
            else s) >>= fun x => scanComment_blockLoop fuel x.2) = .ok t ∨
            (rest t = [] ∧ (advance (if c = '\n' then { s with line_ := s.line_ + 1, column_ := 0 }
              else s) >>= fun x => scanComment_blockLoop fuel x.2) =
              .ok (addError t "Unterminated block comment".toList))) :=
        hstep _ ((rest_bumped s c).trans hr) (reads_bumped hr)
      cases r with
      | nil =>
        have hpn : peekNext s = '\x00' := peekNext_single hr
        simpa [isAtEnd_of_cons hr, hp, hpn] using hcont
      | cons d r' =>
        have hpn : peekNext s = d := peekNext_cons hr
        by_cases hclose : c = '*' ∧ d = '/'
        · have hr1 : rest (advanceBy s 1) = d :: r' := rest_advanceBy_cons hr
          refine ⟨advanceBy (advanceBy s 1) 1,
            reads_andThen (reads_step hr (by rw [hclose.1]; decide))
              (reads_step hr1 (by rw [hclose.2]; decide)), Or.inl ?_⟩
          simp [isAtEnd_of_cons hr, hp, hpn, hclose.1, hclose.2,
            advance_cons hr, bind_ok, advance_cons hr1, pure_ok]
        · have hcond : (decide (c = '*') && decide (d = '/')) = false := by
            simpa using hclose
          simpa [isAtEnd_of_cons hr, hp, hpn, hcond] using hcont

theorem moves_of_fields {s t : Scanner} (k : Nat) (hsrc : t.source_ = s.source_)
    (hcur : t.current_ = s.current_ + k) (hk : k ≤ (rest s).length)
    (hnl : '\n' ∉ (rest s).take k) (hline : t.line_ = s.line_)
    (hcol : t.column_ = s.column_ + k) : Moves s t := by
  have hc : consumed s t = (rest s).take k := by
    unfold consumed; rw [hcur]; congr 1; omega
  refine ⟨hsrc, by omega, by omega, ?_, ?_⟩
  · rw [hc, List.count_eq_zero_of_not_mem hnl, hline]; rfl
  · intro _; rw [hcol, hcur]; omega

theorem consumed_of_current {s t : Scanner} (k : Nat) (hcur : t.current_ = s.current_ + k) :
    consumed s t = (rest s).take k := by
  unfold consumed; rw [hcur]; congr 1; omega

theorem newline_mem_blanks : '\n' ∈ blanks := by decide

theorem append_singleton_ne {α : Type} (l : List α) (a : α) : l ++ [a] ≠ l := by
  intro h
  have := congrArg List.length h
  simp at this

/-- A pass that read `k` characters without a blank and appended one token other than a STRING
whose lexeme is what it read. -/
theorem pass_of_token {s t : Scanner} (k : Nat) (tok : Token)
    (hsrc : t.source_ = s.source_) (hcur : t.current_ = s.current_ + k)
    (hline : t.line_ = s.line_) (hcol : t.column_ = s.column_ + k)
    (hk1 : 1 ≤ k) (hk2 : k ≤ (rest s).length) (hb : ∀ x ∈ (rest s).take k, x ∉ blanks)
    (htok : t.tokens_ = s.tokens_ ++ [tok]) (htl : tok.line = t.line_)
    (htc : tok.column = t.column_) (hprod : produced tok.type = true)
    (hns : tok.type ≠ .STRING) (hlex : tok.lexeme = (rest s).take k)
    (herr : t.errors_ = s.errors_ ∨
      ∃ m, t.errors_ = s.errors_ ++ [formatError t.line_ t.column_ m] ∧ knownMessage m) :
    Pass s t := by
  have hc := consumed_of_current k hcur
  refine ⟨moves_of_fields k hsrc hcur hk2 (fun h => hb _ h newline_mem_blanks) hline hcol,
    by omega, Or.inr ⟨tok, htok, htl, htc, hprod, fun h => absurd h hns, fun _ => ?_⟩, herr, ?_⟩
  · rw [hc]; exact ⟨hlex, hb⟩
  · intro h
    rw [htok] at h
    exact absurd h (append_singleton_ne _ _)

theorem substr_from_cursor (s : Scanner) (n k : Nat) (h : n = s.current_ + k - s.current_) :
    substr s.source_ s.current_ n = (rest s).take k := by
  unfold substr rest
  rw [h]
  congr 1
  omega

theorem take_one_of_cons {c : Char} {r : List Char} : (c :: r).take 1 = [c] := rfl

theorem pass_addToken (s : Scanner) (k : Nat) (kind : TokenType)
    (hk1 : 1 ≤ k) (hk2 : k ≤ (rest s).length) (hb : ∀ x ∈ (rest s).take k, x ∉ blanks)
    (hprod : produced kind = true) (hns : kind ≠ .STRING) :
    Pass s (addToken (advanceBy { s with start_ := s.current_ } k) kind) :=
  pass_of_token k (Token.mk4 kind (substr s.source_ s.current_ (s.current_ + k - s.current_))
      s.line_ (s.column_ + k)) rfl rfl rfl rfl hk1 hk2 hb rfl rfl rfl hprod hns
    (substr_from_cursor s _ k rfl) (Or.inl rfl)

theorem pass_addError {s : Scanner} {c : Char} {r : List Char} (hr : rest s = c :: r)
    (hc : c ≠ '\n') (m : List Char) (hm : knownMessage m) :
    Pass s (addError (advanceBy { s with start_ := s.current_ } 1) m) := by
  refine ⟨moves_of_fields 1 rfl rfl (by rw [hr]; simp) ?_ rfl rfl, Nat.lt_succ_self _,
    Or.inl rfl, Or.inr ⟨m, rfl, hm⟩, ?_⟩
  · rw [hr, take_one_of_cons]; simpa using Ne.symm hc
  · intro _ h
    exact absurd h (append_singleton_ne _ _)

theorem pass_blank {s : Scanner} {c : Char} {r : List Char} (hr : rest s = c :: r)
    (hc : c = ' ' ∨ c = '\r' ∨ c = '\t') :
    Pass s (advanceBy { s with start_ := s.current_ } 1) := by
  have hcn : c ≠ '\n' := by rcases hc with rfl | rfl | rfl <;> decide
  have hcb : c ∈ blanks := by rcases hc with rfl | rfl | rfl <;> decide
  refine ⟨moves_of_fields 1 rfl rfl (by rw [hr]; simp) ?_ rfl rfl, Nat.lt_succ_self _,
    Or.inl rfl, Or.inl rfl, ?_⟩
  · rw [hr, take_one_of_cons]; simpa using Ne.symm hcn
  · intro _ _
    refine Or.inl ⟨c, ?_, hcb⟩
    rw [consumed_of_current 1 rfl, hr]
    rfl

theorem pass_newline {s : Scanner} {r : List Char} (hr : rest s = '\n' :: r) :
    Pass s { advanceBy { s with start_ := s.current_ } 1 with
      line_ := (advanceBy { s with start_ := s.current_ } 1).line_ + 1, column_ := 0 } := by
  refine ⟨moves_breakLine hr rfl rfl rfl, Nat.lt_succ_self _, Or.inl rfl, Or.inl rfl, ?_⟩
  intro _ _
  refine Or.inl ⟨'\n', ?_, by decide⟩
  rw [consumed_of_current 1 rfl, hr]
  rfl

theorem singleCharKind_facts : ∀ p ∈ singleCharKind,
    p.1 ∉ blanks ∧ produced p.2 = true ∧ p.2 ≠ TokenType.STRING := by decide

/-- A pass that read the one character `c`, not a blank, and appended one token. -/
theorem pass_one {s : Scanner} {c : Char} {r : List Char} (kind : TokenType)
    (hr : rest s = c :: r) (hc : c ∉ blanks)
    (hprod : produced kind = true) (hns : kind ≠ .STRING) :
    Pass s (addToken (advanceBy { s with start_ := s.current_ } 1) kind) := by
  refine pass_addToken s 1 kind (Nat.le_refl _) (by rw [hr]; simp) ?_ hprod hns
  intro x hx
  rw [hr, take_one_of_cons, List.mem_singleton] at hx
  rw [hx]; exact hc

theorem pass_single {s : Scanner} {c : Char} {k : TokenType} {r : List Char}
    (hk : (c, k) ∈ singleCharKind) (hr : rest s = c :: r) :
    Pass s (addToken (advanceBy { s with start_ := s.current_ } 1) k) := by
  obtain ⟨h1, h2, h3⟩ := singleCharKind_facts (c, k) hk
  exact pass_one k hr h1 h2 h3

/-- A pass that read the two characters `c`, `d`, neither a blank, and appended one token. -/
theorem pass_pair {s : Scanner} {c d : Char} {r : List Char} (kind : TokenType)
    (hr : rest s = c :: d :: r) (hc : c ∉ blanks) (hd : d ∉ blanks)
    (hprod : produced kind = true) (hns : kind ≠ .STRING) :
    Pass s (addToken (advanceBy { s with start_ := s.current_ } 2) kind) := by
  refine pass_addToken s 2 kind (by omega) (by rw [hr]; simp) ?_ hprod hns
  intro x hx
  rw [hr] at hx
  simp only [List.take_succ_cons, List.take_zero, List.mem_cons, List.mem_singleton,
    List.not_mem_nil, or_false] at hx
  rcases hx with rfl | rfl
  · exact hc
  · exact hd

theorem takeWhile_all {α : Type} (p : α → Bool) (l : List α) :
    ∀ x ∈ l.takeWhile p, p x = true := by
  intro x hx
  exact List.mem_takeWhile_imp hx

theorem reads_while (s : Scanner) (p : Char → Bool) (hp : p '\n' = false) :
    Reads s (advanceBy s ((rest s).takeWhile p).length) := by
  refine ⟨moves_cursor s _ (takeWhile_length_le p _) ?_, Skips.cursor s _⟩
  rw [take_length_takeWhile]
  intro h
  have := takeWhile_all p _ _ h
  rw [hp] at this
  cases this

theorem reads_two {s : Scanner} {c d : Char} {r : List Char} (hr : rest s = c :: d :: r)
    (hc : c ≠ '\n') (hd : d ≠ '\n') : Reads s (advanceBy s 2) := by
  have h := reads_andThen (reads_step hr hc) (reads_step (rest_advanceBy_cons hr) hd)
  rwa [advanceBy_advanceBy] at h

/-- What `scanComment` does: it only reads, and either returns the state it read up to or, at
the end of the text, that state with the error `Unterminated block comment`. -/
theorem scanComment_reads (s : Scanner) :
    ∃ t, Reads s t ∧
      (scanComment s = .ok t ∨
        (rest t = [] ∧ scanComment s = .ok (addError t "Unterminated block comment".toList))) := by
  unfold scanComment
  cases hr : rest s with
  | nil =>
    refine ⟨s, reads_same s, Or.inl ?_⟩
    simp [peek_nil hr, pure_ok]
  | cons c r =>
    cases r with
    | nil =>
      refine ⟨s, reads_same s, Or.inl ?_⟩
      simp [peek_cons hr, peekNext_single hr, pure_ok]
    | cons d r' =>
      have hadv1 : advance s = .ok (c, advanceBy s 1) := advance_cons hr
      have hr1 : rest (advanceBy s 1) = d :: r' := rest_advanceBy_cons hr
      have hadv2 : advance (advanceBy s 1) = .ok (d, advanceBy s 2) := by
        rw [advance_cons hr1, advanceBy_advanceBy]
      by_cases h1 : c = '-' ∧ d = '-'
      · have h2r := reads_two hr (by rw [h1.1]; decide) (by rw [h1.2]; decide)
        refine ⟨advanceBy (advanceBy s 2)
            ((rest (advanceBy s 2)).takeWhile (fun c => c != '\n')).length,
          reads_andThen h2r (reads_while _ _ (by decide)), Or.inl ?_⟩
        simp only [peek_cons hr, peekNext_cons hr, h1.1, h1.2, decide_True, Bool.and_self,
          if_true, hadv1, bind_ok, hadv2]
        exact scanComment_lineLoop_eq _ _ (takeWhile_rest_lt _ _)
      · have hc1 : (decide (c = '-') && decide (d = '-')) = false := by simpa using h1
        by_cases h2 : c = '/' ∧ d = '*'
        · have h2r := reads_two hr (by rw [h2.1]; decide) (by rw [h2.2]; decide)
          obtain ⟨t, hrd, ht⟩ := scanComment_blockLoop_reads ((advanceBy s 2).source_.length + 1)
            (advanceBy s 2) (rest_length_lt _)
          refine ⟨t, reads_andThen h2r hrd, ?_⟩
          simp only [peek_cons hr, peekNext_cons hr, hc1, h2.1, h2.2, decide_True, Bool.and_self,
            if_true, hadv1, bind_ok, hadv2]
          simpa using ht
        · have hc2 : (decide (c = '/') && decide (d = '*')) = false := by simpa using h2
          refine ⟨s, reads_same s, Or.inl ?_⟩
          simp [peek_cons hr, peekNext_cons hr, hc1, hc2, pure_ok]

/-- What `scanString` does: it reads up to the end of the text and adds the error
`Unterminated string literal`, or it reads up to the closing quote, reads that quote and adds
one STRING token placed at the counters it ends with. -/
theorem scanString_reads (s : Scanner) (q : Char) (hq : q = '\'' ∨ q = '"') :
    ∃ u value, Reads s u ∧
      ((rest u = [] ∧
          scanString s q = .ok (addError u "Unterminated string literal".toList)) ∨
        (∃ r, rest u = q :: r ∧
          scanString s q = .ok { advanceBy u 1 with tokens_ := (advanceBy u 1).tokens_ ++
            [Token.mk4 .STRING value (advanceBy u 1).line_ (advanceBy u 1).column_] })) := by
  have hq0 : q ≠ '\x00' := by rcases hq with rfl | rfl <;> decide
  have hqn : q ≠ '\n' := by rcases hq with rfl | rfl <;> decide
  obtain ⟨u, v, hu, hrd, hend⟩ := scanString_loop_reads q hq0 hqn (s.source_.length + 1) s []
    (rest_length_lt s)
  refine ⟨u, v, hrd, ?_⟩
  unfold scanString
  rw [hu, bind_ok]
  rcases hend with hnil | ⟨r, hr⟩
  · refine Or.inl ⟨hnil, ?_⟩
    simp only [isAtEnd_of_nil hnil, if_true, pure_ok]
  · refine Or.inr ⟨r, hr, ?_⟩
    simp only [isAtEnd_of_cons hr, Bool.false_eq_true, if_false, advance_cons hr, bind_ok,
      pure_ok]

/-- Where `scanNumber` stops, as a number of characters read: all of them digits or a dot. -/
theorem numberEnd_form (s : Scanner) :
    ∃ k, numberEnd s = advanceBy s k ∧ k ≤ (rest s).length ∧
      ∀ x ∈ (rest s).take k, isDigit x = true ∨ x = '.' := by
  have hd : ∀ x ∈ (rest s).take ((rest s).takeWhile isDigit).length,
      isDigit x = true ∨ x = '.' := by
    intro x hx
    rw [take_length_takeWhile] at hx
    exact Or.inl (takeWhile_all _ _ _ hx)
  unfold numberEnd
  split
  · next hcond =>
    simp only [Bool.and_eq_true, decide_eq_true_eq] at hcond
    have hr1 := rest_advanceBy s ((rest s).takeWhile isDigit).length
    cases hrest : rest (advanceBy s ((rest s).takeWhile isDigit).length) with
    | nil => rw [peek_nil hrest] at hcond; exact absurd hcond.1 (by decide)
    | cons c r =>
      have hc : c = '.' := by rw [← peek_cons hrest]; exact hcond.1
      subst hc
      have hr2 : rest (advanceBy (advanceBy s ((rest s).takeWhile isDigit).length) 1) = r :=
        rest_advanceBy_cons hrest
      have hsplit : rest s = (rest s).takeWhile isDigit ++ '.' :: r := by
        conv_lhs => rw [← List.take_append_drop ((rest s).takeWhile isDigit).length (rest s)]
        rw [take_length_takeWhile, ← hr1, hrest]
      have hdig := takeWhile_all isDigit (rest s)
      rw [hr2]
      clear hd hcond hr1 hrest hr2
      generalize (rest s).takeWhile isDigit = d at hsplit hdig ⊢
      refine ⟨d.length + 1 + (r.takeWhile isDigit).length, ?_, ?_, ?_⟩
      · rw [advanceBy_advanceBy, advanceBy_advanceBy, Nat.add_assoc]
      · have h1 := congrArg List.length hsplit
        have h2 := takeWhile_length_le isDigit r
        simp at h1
        omega
      · intro x hx
        have htake : (d ++ '.' :: r).take (d.length + 1 + (r.takeWhile isDigit).length) =
            d ++ '.' :: r.takeWhile isDigit := by
          rw [Nat.add_assoc, List.take_append, Nat.add_comm 1, List.take_succ_cons,
            take_length_takeWhile]
        rw [hsplit, htake] at hx
        rcases List.mem_append.1 hx with hx | hx
        · exact Or.inl (hdig x hx)
        · rcases List.mem_cons.1 hx with hx | hx
          · exact Or.inr hx
          · exact Or.inl (takeWhile_all _ _ _ hx)
  · exact ⟨_, rfl, takeWhile_length_le _ _, hd⟩

theorem blanks_facts : ∀ x ∈ blanks, isDigit x = false ∧ isAlphaNumeric x = false ∧ x ≠ '.' := by
  decide

theorem not_blank_of_digit_or_dot {x : Char} (h : isDigit x = true ∨ x = '.') : x ∉ blanks := by
  intro hb
  obtain ⟨h1, -, h3⟩ := blanks_facts x hb
  rcases h with h | h
  · rw [h1] at h; cases h
  · exact h3 h

theorem not_blank_of_alnum {x : Char} (h : isAlphaNumeric x = true) : x ∉ blanks := by
  intro hb
  rw [(blanks_facts x hb).2.1] at h
  cases h

theorem keywords_not_string : ∀ p ∈ keywords_, p.2 ≠ TokenType.STRING := by decide

theorem identifierKind_ne_string (lexeme : List Char) :
    identifierKind lexeme ≠ TokenType.STRING := by
  unfold identifierKind
  cases h : keywords_find (lexeme.map toupper) with
  | none => decide
  | some t => exact keywords_not_string _ (keywords_find_mem h)

theorem take_succ_rest {s : Scanner} {c : Char} {r : List Char} (hr : rest s = c :: r)
    (k : Nat) : (rest s).take (1 + k) = c :: r.take k := by
  rw [hr, Nat.add_comm, List.take_succ_cons]

theorem pass_comment (s : Scanner) {c d : Char} {r : List Char} (hr : rest s = c :: d :: r)
    (hcd : (c = '-' ∧ d = '-') ∨ (c = '/' ∧ d = '*')) :
    ∃ t, scanComment (advanceBy { s with start_ := s.current_ } 2) = .ok t ∧ Pass s t := by
  have hcn : c ≠ '\n' ∧ d ≠ '\n' := by
    rcases hcd with ⟨rfl, rfl⟩ | ⟨rfl, rfl⟩ <;> exact ⟨by decide, by decide⟩
  have hm : Moves s (advanceBy { s with start_ := s.current_ } 2) := by
    refine moves_of_fields 2 rfl rfl (by rw [hr]; simp) ?_ rfl rfl
    rw [hr]
    simp only [List.take_succ_cons, List.take_zero, List.mem_cons, List.not_mem_nil, or_false,
      not_or]
    exact ⟨Ne.symm hcn.1, Ne.symm hcn.2⟩
  have htext : consumed s (advanceBy { s with start_ := s.current_ } 2) = [c, d] := by
    rw [consumed_of_current 2 rfl, hr]; rfl
  obtain ⟨t, hrd, ht⟩ := scanComment_reads (advanceBy { s with start_ := s.current_ } 2)
  have hmt : Moves s t := moves_andThen hm hrd.1
  have hprog : s.current_ < t.current_ := by
    have := hrd.1.2.1
    have h2 : (advanceBy { s with start_ := s.current_ } 2).current_ = s.current_ + 2 := rfl
    omega
  have hskip : skipped (consumed s t) := by
    rw [consumed_append hm hrd.1, htext]
    rcases hcd with ⟨rfl, rfl⟩ | ⟨rfl, rfl⟩
    · exact Or.inr (Or.inl ⟨_, rfl⟩)
    · exact Or.inr (Or.inr ⟨_, rfl⟩)
  rcases ht with ht | ⟨-, ht⟩
  · exact ⟨t, ht, ⟨hmt, hprog, Or.inl hrd.2.tokens_eq, Or.inl hrd.2.errors_eq, fun _ _ => hskip⟩⟩
  · refine ⟨_, ht, ⟨hmt, hprog, Or.inl hrd.2.tokens_eq,
      Or.inr ⟨"Unterminated block comment".toList, ?_, Or.inr (Or.inr (Or.inr (Or.inl rfl)))⟩,
      fun _ _ => hskip⟩⟩
    show t.errors_ ++ _ = _
    rw [hrd.2.errors_eq]
    rfl

theorem pass_string (s : Scanner) {q : Char} {r : List Char} (hr : rest s = q :: r)
    (hq : q = '\'' ∨ q = '"') :
    ∃ t, scanString (advanceBy { s with start_ := s.current_ } 1) q = .ok t ∧ Pass s t := by
  have hqn : q ≠ '\n' := by rcases hq with rfl | rfl <;> decide
  have hm : Moves s (advanceBy { s with start_ := s.current_ } 1) := by
    refine moves_of_fields 1 rfl rfl (by rw [hr]; simp) ?_ rfl rfl
    rw [hr, take_one_of_cons]
    simpa using Ne.symm hqn
  have htext : consumed s (advanceBy { s with start_ := s.current_ } 1) = [q] := by
    rw [consumed_of_current 1 rfl, hr]; rfl
  obtain ⟨u, value, hrd, hu⟩ := scanString_reads (advanceBy { s with start_ := s.current_ } 1)
    q hq
  have hmu : Moves s u := moves_andThen hm hrd.1
  have hprog : s.current_ < u.current_ := by
    have := hrd.1.2.1
    have h2 : (advanceBy { s with start_ := s.current_ } 1).current_ = s.current_ + 1 := rfl
    omega
  rcases hu with ⟨-, hu⟩ | ⟨r', hr', hu⟩
  · refine ⟨_, hu, ⟨hmu, hprog, Or.inl hrd.2.tokens_eq,
      Or.inr ⟨"Unterminated string literal".toList, ?_, Or.inr (Or.inr (Or.inl rfl))⟩, ?_⟩⟩
    · show u.errors_ ++ _ = _
      rw [hrd.2.errors_eq]
      rfl
    · intro _ h
      have : u.errors_ ++ [formatError u.line_ u.column_ "Unterminated string literal".toList] =
          s.errors_ := h
      rw [hrd.2.errors_eq] at this
      exact absurd this (append_singleton_ne _ _)
  · have hlast : Moves u (advanceBy u 1) := moves_step hr' hqn
    have hmt : Moves s (advanceBy u 1) := moves_andThen hmu hlast
    have hct : consumed s (advanceBy u 1) = q :: (consumed
        (advanceBy { s with start_ := s.current_ } 1) u ++ [q]) := by
      rw [consumed_append hmu hlast, consumed_append hm hrd.1, htext,
        consumed_of_current (s := u) (t := advanceBy u 1) 1 rfl, hr']
      rfl
    have htoks : u.tokens_ = s.tokens_ := hrd.2.tokens_eq
    refine ⟨_, hu, ⟨hmt, Nat.lt_succ_of_lt hprog,
      Or.inr ⟨Token.mk4 .STRING value u.line_ (u.column_ + 1), ?_, rfl, rfl, rfl,
        fun _ => ⟨q, _, hq, hct⟩, fun h => absurd rfl h⟩, Or.inl hrd.2.errors_eq, ?_⟩⟩
    · show u.tokens_ ++ _ = _
      rw [htoks]
      rfl
    · intro h
      have : u.tokens_ ++ [Token.mk4 .STRING value u.line_ (u.column_ + 1)] = s.tokens_ := h
      rw [htoks] at this
      exact absurd this (append_singleton_ne _ _)

theorem pass_number (stod : List Char → Option ℚ) (s : Scanner) {c : Char} {r : List Char}
    (hr : rest s = c :: r) (hc : isDigit c = true) :
    ∃ t, scanNumber stod (advanceBy { s with start_ := s.current_ } 1) = .ok t ∧ Pass s t := by
  have hv : rest (advanceBy { s with start_ := s.current_ } 1) = r := rest_advanceBy_cons hr
  obtain ⟨k, hend, hk, hdig⟩ := numberEnd_form (advanceBy { s with start_ := s.current_ } 1)
  rw [hv] at hk hdig
  have hb : ∀ x ∈ (rest s).take (1 + k), x ∉ blanks := by
    intro x hx
    rw [take_succ_rest hr] at hx
    rcases List.mem_cons.1 hx with rfl | hx
    · exact not_blank_of_digit_or_dot (Or.inl hc)
    · exact not_blank_of_digit_or_dot (hdig x hx)
  have hlen : 1 + k ≤ (rest s).length := by rw [hr]; simp; omega
  have hlex : substr s.source_ s.current_ (s.current_ + (1 + k) - s.current_) =
      (rest s).take (1 + k) := substr_from_cursor s _ (1 + k) rfl
  refine ⟨_, scanNumber_eq stod _, ?_⟩
  rw [hend, advanceBy_advanceBy]
  cases hst : stod (substr s.source_ s.current_ (s.current_ + (1 + k) - s.current_)) with
  | some v =>
    rw [emitNumber_some stod _ v hst]
    refine pass_of_token (1 + k) _ rfl rfl rfl rfl (by omega) hlen hb rfl rfl rfl rfl
      ?_ hlex (Or.inl rfl)
    intro h; cases h
  | none =>
    rw [emitNumber_none stod _ hst]
    refine pass_of_token (1 + k) _ rfl rfl rfl rfl (by omega) hlen hb rfl rfl rfl rfl
      ?_ hlex (Or.inr ⟨_, rfl, Or.inr (Or.inr (Or.inr (Or.inr ⟨_, rfl⟩)))⟩)
    intro h; cases h

theorem pass_identifier (s : Scanner) {c : Char} {r : List Char}
    (hr : rest s = c :: r) (hc : isAlpha c = true) :
    ∃ t, scanIdentifier (advanceBy { s with start_ := s.current_ } 1) = .ok t ∧ Pass s t := by
  have hv : rest (advanceBy { s with start_ := s.current_ } 1) = r := rest_advanceBy_cons hr
  have hb : ∀ x ∈ (rest s).take (1 + (r.takeWhile isAlphaNumeric).length), x ∉ blanks := by
    intro x hx
    rw [take_succ_rest hr, take_length_takeWhile] at hx
    rcases List.mem_cons.1 hx with rfl | hx
    · exact not_blank_of_alnum (isAlphaNumeric_of_isAlpha hc)
    · exact not_blank_of_alnum (takeWhile_all _ _ _ hx)
  have hlen : 1 + (r.takeWhile isAlphaNumeric).length ≤ (rest s).length := by
    have := takeWhile_length_le isAlphaNumeric r
    rw [hr]; simp; omega
  have hlex : substr s.source_ s.current_
      (s.current_ + 1 + (r.takeWhile isAlphaNumeric).length - s.current_) =
      (rest s).take (1 + (r.takeWhile isAlphaNumeric).length) :=
    substr_from_cursor s _ _ (by omega)
  refine ⟨_, scanIdentifier_eq _, ?_⟩
  rw [hv, advanceBy_advanceBy]
  exact pass_of_token (1 + (r.takeWhile isAlphaNumeric).length) _ rfl rfl rfl rfl (by omega)
    hlen hb rfl rfl rfl (identifierKind_produced _) (identifierKind_ne_string _) hlex
    (Or.inl rfl)

/-- Every pass of the loop of `scanTokens` from a state that is not at the end of the text
returns, and does what `Pass` says. -/
theorem scanToken_pass (stod : List Char → Option ℚ) (s : Scanner) {c : Char} {r : List Char}
    (hr : rest s = c :: r) :
    ∃ t, scanToken stod { s with start_ := s.current_ } = .ok t ∧ Pass s t := by
  have hu : rest { s with start_ := s.current_ } = c :: r := hr
  by_cases hc : c ∈ caseLabels
  · simp only [caseLabels, List.mem_cons, List.mem_singleton, List.not_mem_nil, or_false] at hc
    rcases hc with h | h | h | h | h | h | h | h | h | h | h | h | h | h | h | h | h | h | h | h
    all_goals subst h
    · exact ⟨_, scanToken_single stod _ (k := .LPAREN) (by decide) hu, pass_single (by decide) hr⟩
    · exact ⟨_, scanToken_single stod _ (k := .RPAREN) (by decide) hu, pass_single (by decide) hr⟩
    · exact ⟨_, scanToken_single stod _ (k := .COMMA) (by decide) hu, pass_single (by decide) hr⟩
    · exact ⟨_, scanToken_single stod _ (k := .SEMICOLON) (by decide) hu,
        pass_single (by decide) hr⟩
    · exact ⟨_, scanToken_single stod _ (k := .DOT) (by decide) hu, pass_single (by decide) hr⟩
    · exact ⟨_, scanToken_single stod _ (k := .PLUS) (by decide) hu, pass_single (by decide) hr⟩
    · exact ⟨_, scanToken_single stod _ (k := .PERCENT) (by decide) hu,
        pass_single (by decide) hr⟩
    · exact ⟨_, scanToken_single stod _ (k := .STAR) (by decide) hu, pass_single (by decide) hr⟩
    · exact ⟨_, scanToken_single stod _ (k := .EQUAL) (by decide) hu, pass_single (by decide) hr⟩
    · rw [scanToken_minus stod _ hu]
      by_cases h1 : r.head? = some '-'
      · obtain ⟨r', rfl⟩ := head?_eq_some_cons h1
        rw [if_pos h1]
        exact pass_comment s hr (Or.inl ⟨rfl, rfl⟩)
      · rw [if_neg h1]
        exact ⟨_, rfl, pass_one .MINUS hr (by decide) rfl (by decide)⟩
    · rw [scanToken_slash stod _ hu]
      by_cases h1 : r.head? = some '*'
      · obtain ⟨r', rfl⟩ := head?_eq_some_cons h1
        rw [if_pos h1]
        exact pass_comment s hr (Or.inr ⟨rfl, rfl⟩)
      · rw [if_neg h1]
        exact ⟨_, rfl, pass_one .SLASH hr (by decide) rfl (by decide)⟩
    · refine ⟨_, scanToken_less stod _ hu, ?_⟩
      by_cases h1 : r.head? = some '='
      · obtain ⟨r', rfl⟩ := head?_eq_some_cons h1
        rw [if_pos h1]
        exact pass_pair .LESS_EQUAL hr (by decide) (by decide) rfl (by decide)
      · rw [if_neg h1]
        by_cases h2 : r.head? = some '>'
        · obtain ⟨r', rfl⟩ := head?_eq_some_cons h2
          rw [if_pos h2]
          exact pass_pair .NOT_EQUAL hr (by decide) (by decide) rfl (by decide)
        · rw [if_neg h2]
          exact pass_one .LESS_THAN hr (by decide) rfl (by decide)
    · refine ⟨_, scanToken_greater stod _ hu, ?_⟩
      by_cases h1 : r.head? = some '='
      · obtain ⟨r', rfl⟩ := head?_eq_some_cons h1
        rw [if_pos h1]
        exact pass_pair .GREATER_EQUAL hr (by decide) (by decide) rfl (by decide)
      · rw [if_neg h1]
        exact pass_one .GREATER_THAN hr (by decide) rfl (by decide)
    · refine ⟨_, scanToken_bang stod _ hu, ?_⟩
      by_cases h1 : r.head? = some '='
      · obtain ⟨r', rfl⟩ := head?_eq_some_cons h1
        rw [if_pos h1]
        exact pass_pair .NOT_EQUAL hr (by decide) (by decide) rfl (by decide)
      · rw [if_neg h1]
        exact pass_addError hr (by decide) _ (Or.inl rfl)
    · exact ⟨_, scanToken_blank stod _ (Or.inl rfl) hu, pass_blank hr (Or.inl rfl)⟩
    · exact ⟨_, scanToken_blank stod _ (Or.inr (Or.inl rfl)) hu,
        pass_blank hr (Or.inr (Or.inl rfl))⟩
    · exact ⟨_, scanToken_blank stod _ (Or.inr (Or.inr rfl)) hu,
        pass_blank hr (Or.inr (Or.inr rfl))⟩
    · exact ⟨_, scanToken_newline stod _ hu, pass_newline hr⟩
    · rw [scanToken_quote stod _ (Or.inl rfl) hu]
      exact pass_string s hr (Or.inl rfl)
    · rw [scanToken_quote stod _ (Or.inr rfl) hu]
      exact pass_string s hr (Or.inr rfl)
  · rw [scanToken_default stod _ hu hc]
    cases hd : isDigit c with
    | true =>
      simp only [if_true]
      exact pass_number stod s hr hd
    | false =>
      cases ha : isAlpha c with
      | true =>
        simp only [Bool.false_eq_true, if_false, if_true]
        exact pass_identifier s hr ha
      | false =>
        simp only [Bool.false_eq_true, if_false]
        refine ⟨_, rfl, pass_addError hr ?_ _ (Or.inr (Or.inl ⟨c, rfl⟩))⟩
        intro h
        exact hc (by rw [h]; decide)

/-- Induction along the loop of `scanTokens`: a property that holds of the state the loop starts
in and is kept by every pass holds of the state the loop ends in, and the loop does end, at the
end of the text. -/
theorem scanTokens_loop_induct (stod : List Char → Option ℚ) (P : Scanner → Prop)
    (hstep : ∀ s t, P s → Pass s t → P t) (fuel : Nat) (s : Scanner)
    (hf : (rest s).length < fuel) (h0 : P s) :
    ∃ t, scanTokens_loop stod fuel s = .ok t ∧ rest t = [] ∧ t.source_ = s.source_ ∧ P t := by
  induction fuel generalizing s with
  | zero => omega
  | succ fuel ih =>
    cases hr : rest s with
    | nil => exact ⟨s, scanTokens_loop_done stod _ _ hr, hr, rfl, h0⟩
    | cons c r =>
      obtain ⟨u, hu, hp⟩ := scanToken_pass stod s hr
      have hlen : (rest u).length < fuel := by
        rw [rest_of_moves hp.moves, List.length_drop]
        have h1 := hp.progress
        have h2 := hp.moves.2.2.1
        omega
      obtain ⟨t, ht, hnil, hsrc, hP⟩ := ih u hlen (hstep s u h0 hp)
      refine ⟨t, ?_, hnil, hsrc.trans hp.moves.1, hP⟩
      rw [scanTokens_loop_step stod _ _ hr, hu, bind_ok]
      exact ht

/-- Induction along a whole scan: a property that holds of the fresh scanner and is kept by
every pass of the loop holds of the state the loop ends in; the scan returns that state's
tokens followed by the sentinel. -/
theorem scan_induct (stod : List Char → Option ℚ) (source : List Char) (P : Scanner → Prop)
    (h0 : P (Scanner.init source)) (hstep : ∀ s t, P s → Pass s t → P t) :
    ∃ t, scan stod source = .ok ((finish t).tokens_, finish t) ∧ rest t = [] ∧
      t.source_ = source ∧ P t := by
  obtain ⟨t, ht, hnil, hsrc, hP⟩ := scanTokens_loop_induct stod P hstep (source.length + 1)
    (Scanner.init source) (rest_length_lt _) h0
  exact ⟨t, scan_of_loop stod source t ht, hnil, hsrc, hP⟩

theorem scanTokens_loop_more (stod : List Char → Option ℚ) (fuel : Nat) (s t : Scanner)
    (h : scanTokens_loop stod fuel s = .ok t) : scanTokens_loop stod (fuel + 1) s = .ok t := by
  induction fuel generalizing s with
  | zero => rw [scanTokens_loop] at h; cases h
  | succ fuel ih =>
    cases hr : rest s with
    | nil =>
      rw [scanTokens_loop_done stod _ _ hr] at h ⊢
      exact h
    | cons c r =>
      rw [scanTokens_loop_step stod _ _ hr] at h ⊢
      cases hu : scanToken stod { s with start_ := s.current_ } with
      | error e => rw [hu, bind_error] at h; cases h
      | ok u =>
        rw [hu, bind_ok] at h
        rw [bind_ok]
        exact ih u h

theorem scanTokens_loop_fuel (stod : List Char → Option ℚ) (s : Scanner) (fuel : Nat)
    (hf : (rest s).length < fuel) :
    scanTokens_loop stod fuel s = scanTokens_loop stod ((rest s).length + 1) s := by
  obtain ⟨t, ht, -⟩ := scanTokens_loop_ok stod ((rest s).length + 1) s (Nat.lt_succ_self _)
  rw [ht]
  obtain ⟨k, rfl⟩ : ∃ k, fuel = (rest s).length + 1 + k := ⟨fuel - ((rest s).length + 1), by omega⟩
  clear hf
  induction k with
  | zero => exact ht
  | succ k ih => exact scanTokens_loop_more stod _ s t ih

/-- The counters of a pass end strictly later than they started, in the order of positions. -/
theorem pass_position {s t : Scanner} (hp : Pass s t) :
    s.line_ < t.line_ ∨ (s.line_ = t.line_ ∧ s.column_ < t.column_) := by
  obtain ⟨-, -, -, hline, hcol⟩ := hp.moves
  have hprog := hp.progress
  by_cases hn : '\n' ∈ consumed s t
  · left
    have := List.count_pos_iff.2 hn
    omega
  · right
    rw [List.count_eq_zero_of_not_mem hn] at hline
    have := hcol hn
    exact ⟨by omega, by omega⟩

theorem take_of_moves {s t : Scanner} (h : Moves s t) :
    s.source_.take t.current_ = s.source_.take s.current_ ++ consumed s t := by
  obtain ⟨-, h2, -⟩ := h
  unfold consumed rest
  rw [← List.take_add]
  congr 1
  omega

theorem source_of_moves {s t : Scanner} (h : Moves s t) :
    s.source_ = s.source_.take s.current_ ++ (consumed s t ++ s.source_.drop t.current_) := by
  rw [← List.append_assoc, ← take_of_moves h, List.take_append_drop]

theorem split_concat {α : Type} {pre post l : List α} {x c : α}
    (h : l ++ [c] = pre ++ x :: post) :
    (post = [] ∧ pre = l ∧ x = c) ∨ ∃ post', post = post' ++ [c] ∧ l = pre ++ x :: post' := by
  rcases List.eq_nil_or_concat post with rfl | ⟨post', d, rfl⟩
  · have h' : l ++ [c] = pre ++ [x] := h
    obtain ⟨h1, h2⟩ := List.append_inj' h' rfl
    exact Or.inl ⟨rfl, h1.symm, by simpa using h2.symm⟩
  · have h' : l ++ [c] = (pre ++ x :: post') ++ [d] := by
      rw [h]; simp
    obtain ⟨h1, h2⟩ := List.append_inj' h' rfl
    have hd : c = d := by simpa using h2
    exact Or.inr ⟨post', by rw [hd, List.concat_eq_append], h1⟩

theorem not_mem_of_not_mem_source {s t : Scanner} (h : Moves s t) {x : Char}
    (hx : x ∉ s.source_) : x ∉ consumed s t := by
  intro hc
  apply hx
  rw [source_of_moves h]
  exact List.mem_append_right _ (List.mem_append_left _ hc)

theorem consumed_length {s t : Scanner} (h : Moves s t) :
    (consumed s t).length = t.current_ - s.current_ := by
  unfold consumed
  rw [List.length_take]
  exact Nat.min_eq_left h.2.2.1

theorem current_le_length {s t : Scanner} (h : Moves s t) (hlt : s.current_ < t.current_) :
    t.current_ ≤ s.source_.length := by
  have := h.2.2.1
  rw [rest_length] at this
  omega

theorem take_of_rest_nil {s : Scanner} (h : rest s = []) :
    s.source_.take s.current_ = s.source_ := by
  have := (isAtEnd_iff s).2 h
  simp only [isAtEnd, decide_eq_true_eq] at this
  exact List.take_of_length_le this

theorem filter_eq_self_of_no_blank {l : List Char} (h : ∀ x ∈ l, x ∉ blanks) :
    l.filter (fun c => decide (c ∉ blanks)) = l := by
  rw [List.filter_eq_self]
  intro x hx
  simpa using h x hx

/-! ## Columns after a newline, and the states a scan goes through -/

theorem afterLastNewline_of_not_mem {l : List Char} (h : '\n' ∉ l) : afterLastNewline l = l := by
  cases l with
  | nil => rfl
  | cons c r =>
    rw [List.mem_cons, not_or] at h
    rw [afterLastNewline, if_neg h.2, if_neg (Ne.symm h.1)]

theorem afterLastNewline_append_right (a : List Char) {b : List Char} (h : '\n' ∈ b) :
    afterLastNewline (a ++ b) = afterLastNewline b := by
  induction a with
  | nil => rfl
  | cons c a ih =>
    rw [List.cons_append, afterLastNewline, if_pos (List.mem_append_right _ h), ih]

theorem afterLastNewline_append_left (a : List Char) {b : List Char} (h : '\n' ∉ b) :
    afterLastNewline (a ++ b) = afterLastNewline a ++ b := by
  induction a with
  | nil => exact afterLastNewline_of_not_mem h
  | cons c a ih =>
    rw [List.cons_append, afterLastNewline, afterLastNewline]
    by_cases ha : '\n' ∈ a
    · rw [if_pos (List.mem_append_left _ ha), if_pos ha, ih]
    · have hab : '\n' ∉ a ++ b := by
        rw [List.mem_append, not_or]
        exact ⟨ha, h⟩
      rw [if_neg hab, if_neg ha]
      split <;> rfl

theorem afterLastNewline_length_le (l : List Char) : (afterLastNewline l).length ≤ l.length := by
  induction l with
  | nil => exact Nat.le_refl _
  | cons c r ih =>
    rw [afterLastNewline]
    split
    · exact Nat.le_succ_of_le ih
    · split
      · exact Nat.le_succ _
      · exact Nat.le_refl _

theorem not_newline_of_line {s t : Scanner} (hm : Moves s t) (hl : t.line_ = s.line_) :
    '\n' ∉ consumed s t := by
  intro h
  have h1 := List.count_pos_iff.2 h
  have h2 := hm.2.2.2.1
  omega

theorem inner_of_line {s t : Scanner} (hm : Moves s t) (hl : t.line_ = s.line_) : Inner s t :=
  ⟨hm, fun h => absurd h (not_newline_of_line hm hl)⟩

theorem inner_same (s : Scanner) : Inner s s := inner_of_line (moves_same s) rfl

theorem inner_andThen {s u t : Scanner} (h1 : Inner s u) (h2 : Inner u t) : Inner s t := by
  refine ⟨moves_andThen h1.1 h2.1, fun hn => ?_⟩
  rw [consumed_append h1.1 h2.1] at hn ⊢
  by_cases h : '\n' ∈ consumed u t
  · rw [afterLastNewline_append_right _ h]
    exact h2.2 h
  · have hs : '\n' ∈ consumed s u := by
      rcases List.mem_append.1 hn with h' | h'
      · exact h'
      · exact absurd h' h
    rw [afterLastNewline_append_left _ h, List.length_append, h2.1.2.2.2.2 h, h1.2 hs,
      consumed_length h2.1]
    omega

theorem inner_step {s : Scanner} {c : Char} {r : List Char} (hr : rest s = c :: r)
    (hc : c ≠ '\n') : Inner s (advanceBy s 1) :=
  inner_of_line (moves_step hr hc) rfl

theorem inner_breakLine {s : Scanner} {r : List Char} (hr : rest s = '\n' :: r) :
    Inner s (advanceBy { s with line_ := s.line_ + 1, column_ := 0 } 1) := by
  refine ⟨moves_breakLine hr rfl rfl rfl, fun _ => ?_⟩
  have hc : consumed s (advanceBy { s with line_ := s.line_ + 1, column_ := 0 } 1) = ['\n'] := by
    rw [consumed_of_current 1 rfl, hr]
    rfl
  rw [hc]
  rfl

theorem inner_bumped {s : Scanner} {c : Char} {r : List Char} (hr : rest s = c :: r) :
    Inner s (advanceBy (if c = '\n' then { s with line_ := s.line_ + 1, column_ := 0 } else s)
      1) := by
  split
  · next h => subst h; exact inner_breakLine hr
  · next h => exact inner_step hr h

theorem inner_frame {s t u : Scanner} (h : Inner s t) (h1 : u.source_ = t.source_)
    (h2 : u.current_ = t.current_) (h3 : u.line_ = t.line_) (h4 : u.column_ = t.column_) :
    Inner s u := by
  obtain ⟨⟨a1, a2, a3, a4, a5⟩, b⟩ := h
  have hc : consumed s u = consumed s t := by
    unfold consumed
    rw [h2]
  refine ⟨⟨h1.trans a1, by omega, by omega, ?_, ?_⟩, ?_⟩
  · rw [hc, h3]; exact a4
  · rw [hc, h4, h2]; exact a5
  · rw [hc, h4]; exact b

theorem inner_while (s : Scanner) (p : Char → Bool) (hp : p '\n' = false) :
    Inner s (advanceBy s ((rest s).takeWhile p).length) := by
  refine inner_of_line (moves_cursor s _ (takeWhile_length_le p _) ?_) rfl
  rw [take_length_takeWhile]
  intro h
  have := takeWhile_all p _ _ h
  rw [hp] at this
  cases this

theorem scanString_loop_inner (q : Char) (hq0 : q ≠ '\x00') (hqn : q ≠ '\n') (fuel : Nat)
    (s : Scanner) (value : List Char) (hf : (rest s).length < fuel) :
    ∃ t v, scanString_loop q fuel s value = .ok (t, v) ∧ Inner s t ∧
      (rest t = [] ∨ ∃ r, rest t = q :: r) := by
  induction fuel generalizing s value with
  | zero => omega
  | succ fuel ih =>
    rw [scanString_loop]
    cases hr : rest s with
    | nil =>
      exact ⟨s, value, by simp [isAtEnd_of_nil hr, pure_ok], inner_same s, Or.inl hr⟩
    | cons c r =>
      have hp : peek s = c := peek_cons hr
      rw [hr] at hf
      by_cases hcq : c = q
      · exact ⟨s, value, by simp [isAtEnd_of_cons hr, hp, hcq, pure_ok], inner_same s,
          Or.inr ⟨r, by rw [hr, hcq]⟩⟩
      · have hbody : ∀ u : Scanner, rest u = c :: r → Inner s (advanceBy u 1) →
            ∃ t v, (if (decide (peek u = '\\') && decide (peekNext u = q)) = true then
                advance u >>= fun x => advance x.2 >>= fun y =>
                  scanString_loop q fuel y.2 (value ++ [y.1])
              else advance u >>= fun x => scanString_loop q fuel x.2 (value ++ [x.1]))
              = .ok (t, v) ∧ Inner s t ∧ (rest t = [] ∨ ∃ r, rest t = q :: r) := by
          intro u hu hsu
          have hpu : peek u = c := peek_cons hu
          have hr1 : rest (advanceBy u 1) = r := rest_advanceBy_cons hu
          have hplain : ∃ t v, (advance u >>= fun x =>
              scanString_loop q fuel x.2 (value ++ [x.1])) = .ok (t, v) ∧ Inner s t ∧
                (rest t = [] ∨ ∃ r, rest t = q :: r) := by
            obtain ⟨t, v, ht, hrd, hend⟩ := ih (advanceBy u 1) (value ++ [c])
              (by rw [hr1]; simp at hf; omega)
            exact ⟨t, v, by rw [advance_cons hu, bind_ok]; exact ht, inner_andThen hsu hrd, hend⟩
          cases r with
          | nil =>
            have hpn : peekNext u = '\x00' := peekNext_single hu
            have : (decide (peek u = '\\') && decide (peekNext u = q)) = false := by
              simp [hpn, Ne.symm hq0]
            rw [this]
            simpa using hplain
          | cons d r' =>
            have hpn : peekNext u = d := peekNext_cons hu
            by_cases hesc : c = '\\' ∧ d = q
            · have hr2 : rest (advanceBy (advanceBy u 1) 1) = r' := rest_advanceBy_cons hr1
              obtain ⟨t, v, ht, hrd, hend⟩ := ih (advanceBy (advanceBy u 1) 1) (value ++ [d])
                (by rw [hr2]; simp at hf; omega)
              refine ⟨t, v, ?_, inner_andThen
                (inner_andThen hsu (inner_step hr1 (by rw [hesc.2]; exact hqn))) hrd, hend⟩
              have : (decide (peek u = '\\') && decide (peekNext u = q)) = true := by
                simp [hpu, hpn, hesc.1, hesc.2]
              rw [this]
              simp only [if_true, advance_cons hu, bind_ok, advance_cons hr1]
              exact ht
            · have : (decide (peek u = '\\') && decide (peekNext u = q)) = false := by
                simpa [hpu, hpn] using hesc
              rw [this]
              simpa using hplain
        have hcond : (!isAtEnd s && peek s != q) = true := by
          simp [isAtEnd_of_cons hr, hp, hcq]
        rw [hcond]
        simp only [if_true]
        by_cases hn : peek s = '\n'
        · simp only [hn, if_true]
          have hcn : c = '\n' := hp.symm.trans hn
          subst hcn
          exact hbody { s with line_ := s.line_ + 1, column_ := 0 } hr (inner_breakLine hr)
        · simp only [hn, if_false]
          exact hbody s hr (inner_step hr (fun h => hn (hp.trans h)))

theorem scanComment_blockLoop_inner (fuel : Nat) (s : Scanner) (hf : (rest s).length < fuel) :
    ∃ t, Inner s t ∧
      (scanComment_blockLoop fuel s = .ok t ∨
        (rest t = [] ∧ scanComment_blockLoop fuel s =
          .ok (addError t "Unterminated block comment".toList))) := by
  induction fuel generalizing s with
  | zero => omega
  | succ fuel ih =>
    rw [scanComment_blockLoop]
    cases hr : rest s with
    | nil =>
      refine ⟨s, inner_same s, Or.inr ⟨hr, ?_⟩⟩
      simp [isAtEnd_of_nil hr, pure_ok]
    | cons c r =>
      have hp : peek s = c := peek_cons hr
      have hstep : ∀ u : Scanner, rest u = c :: r → Inner s (advanceBy u 1) →
          ∃ t, Inner s t ∧
            ((advance u >>= fun x => scanComment_blockLoop fuel x.2) = .ok t ∨
              (rest t = [] ∧ (advance u >>= fun x => scanComment_blockLoop fuel x.2) =
                .ok (addError t "Unterminated block comment".toList))) := by
        intro u hu hsu
        have hr1 : rest (advanceBy u 1) = r := rest_advanceBy_cons hu
        obtain ⟨t, hrd, ht⟩ := ih (advanceBy u 1) (by rw [hr1]; rw [hr] at hf; simp at hf; omega)
        refine ⟨t, inner_andThen hsu hrd, ?_⟩
        rw [advance_cons hu, bind_ok]
        exact ht
      have hcont : ∃ t, Inner s t ∧
          ((advance (if c = '\n' then { s with line_ := s.line_ + 1, column_ := 0 }
            else s) >>= fun x => scanComment_blockLoop fuel x.2) = .ok t ∨
            (rest t = [] ∧ (advance (if c = '\n' then { s with line_ := s.line_ + 1, column_ := 0 }
              else s) >>= fun x => scanComment_blockLoop fuel x.2) =
              .ok (addError t "Unterminated block comment".toList))) :=
        hstep _ ((rest_bumped s c).trans hr) (inner_bumped hr)
      cases r with
      | nil =>
        have hpn : peekNext s = '\x00' := peekNext_single hr
        simpa [isAtEnd_of_cons hr, hp, hpn] using hcont
      | cons d r' =>
        have hpn : peekNext s = d := peekNext_cons hr
        by_cases hclose : c = '*' ∧ d = '/'
        · have hr1 : rest (advanceBy s 1) = d :: r' := rest_advanceBy_cons hr
          refine ⟨advanceBy (advanceBy s 1) 1,
            inner_andThen (inner_step hr (by rw [hclose.1]; decide))
              (inner_step hr1 (by rw [hclose.2]; decide)), Or.inl ?_⟩
          simp [isAtEnd_of_cons hr, hp, hpn, hclose.1, hclose.2,
            advance_cons hr, bind_ok, advance_cons hr1, pure_ok]
        · have hcond : (decide (c = '*') && decide (d = '/')) = false := by
            simpa using hclose
          simpa [isAtEnd_of_cons hr, hp, hpn, hcond] using hcont

theorem inner_two {s : Scanner} {c d : Char} {r : List Char} (hr : rest s = c :: d :: r)
    (hc : c ≠ '\n') (hd : d ≠ '\n') : Inner s (advanceBy s 2) := by
  have h := inner_andThen (inner_step hr hc) (inner_step (rest_advanceBy_cons hr) hd)
  rwa [advanceBy_advanceBy] at h

/-- What `scanComment` does to the counters: it reads on as the inner loops do, and it reads a
newline only in its block loop, that is when the text at the cursor starts with `/*`. -/
theorem scanComment_inner (s : Scanner) :
    ∃ t, Inner s t ∧
      (scanComment s = .ok t ∨
        (rest t = [] ∧ scanComment s = .ok (addError t "Unterminated block comment".toList))) ∧
      ('\n' ∈ consumed s t → ∃ r, consumed s t = '/' :: '*' :: r) := by
  unfold scanComment
  cases hr : rest s with
  | nil =>
    refine ⟨s, inner_same s, Or.inl ?_, fun h => absurd h (not_newline_of_line (moves_same s) rfl)⟩
    simp [peek_nil hr, pure_ok]
  | cons c r =>
    cases r with
    | nil =>
      refine ⟨s, inner_same s, Or.inl ?_,
        fun h => absurd h (not_newline_of_line (moves_same s) rfl)⟩
      simp [peek_cons hr, peekNext_single hr, pure_ok]
    | cons d r' =>
      have hadv1 : advance s = .ok (c, advanceBy s 1) := advance_cons hr
      have hr1 : rest (advanceBy s 1) = d :: r' := rest_advanceBy_cons hr
      have hadv2 : advance (advanceBy s 1) = .ok (d, advanceBy s 2) := by
        rw [advance_cons hr1, advanceBy_advanceBy]
      by_cases h1 : c = '-' ∧ d = '-'
      · have h2r := inner_two hr (by rw [h1.1]; decide) (by rw [h1.2]; decide)
        have hin := inner_andThen h2r (inner_while (advanceBy s 2) (fun c => c != '\n')
          (by decide))
        refine ⟨advanceBy (advanceBy s 2)
            ((rest (advanceBy s 2)).takeWhile (fun c => c != '\n')).length,
          hin, Or.inl ?_, fun h => absurd h (not_newline_of_line hin.1 rfl)⟩
        simp only [peek_cons hr, peekNext_cons hr, h1.1, h1.2, decide_True, Bool.and_self,
          if_true, hadv1, bind_ok, hadv2]
        exact scanComment_lineLoop_eq _ _ (takeWhile_rest_lt _ _)
      · have hc1 : (decide (c = '-') && decide (d = '-')) = false := by simpa using h1
        by_cases h2 : c = '/' ∧ d = '*'
        · have h2r := inner_two hr (by rw [h2.1]; decide) (by rw [h2.2]; decide)
          obtain ⟨t, hrd, ht⟩ := scanComment_blockLoop_inner ((advanceBy s 2).source_.length + 1)
            (advanceBy s 2) (rest_length_lt _)
          refine ⟨t, inner_andThen h2r hrd, ?_, fun _ => ⟨consumed (advanceBy s 2) t, ?_⟩⟩
          · simp only [peek_cons hr, peekNext_cons hr, hc1, h2.1, h2.2, decide_True,
              Bool.and_self, if_true, hadv1, bind_ok, hadv2]
            simpa using ht
          · rw [consumed_append h2r.1 hrd.1, consumed_advanceBy, hr, h2.1, h2.2]
            rfl
        · have hc2 : (decide (c = '/') && decide (d = '*')) = false := by simpa using h2
          refine ⟨s, inner_same s, Or.inl ?_,
            fun h => absurd h (not_newline_of_line (moves_same s) rfl)⟩
          simp [peek_cons hr, peekNext_cons hr, hc1, hc2, pure_ok]

/-- What `scanString` does: it reads up to the end of the text and adds the error
`Unterminated string literal`, or it reads up to the closing quote, reads that quote and adds
one STRING token placed at the counters it ends with. -/
theorem scanString_inner (s : Scanner) (q : Char) (hq : q = '\'' ∨ q = '"') :
    ∃ u value, Inner s u ∧
      ((rest u = [] ∧
          scanString s q = .ok (addError u "Unterminated string literal".toList)) ∨
        (∃ r, rest u = q :: r ∧
          scanString s q = .ok { advanceBy u 1 with tokens_ := (advanceBy u 1).tokens_ ++
            [Token.mk4 .STRING value (advanceBy u 1).line_ (advanceBy u 1).column_] })) := by
  have hq0 : q ≠ '\x00' := by rcases hq with rfl | rfl <;> decide
  have hqn : q ≠ '\n' := by rcases hq with rfl | rfl <;> decide
  obtain ⟨u, v, hu, hrd, hend⟩ := scanString_loop_inner q hq0 hqn (s.source_.length + 1) s []
    (rest_length_lt s)
  refine ⟨u, v, hrd, ?_⟩
  unfold scanString
  rw [hu, bind_ok]
  rcases hend with hnil | ⟨r, hr⟩
  · refine Or.inl ⟨hnil, ?_⟩
    simp only [isAtEnd_of_nil hnil, if_true, pure_ok]
  · refine Or.inr ⟨r, hr, ?_⟩
    simp only [isAtEnd_of_cons hr, Bool.false_eq_true, if_false, advance_cons hr, bind_ok,
      pure_ok]

theorem column_glue {s t : Scanner} (hp : Pass s t) (hl : t.line_ = s.line_) :
    Pass s t ∧ Column s t :=
  ⟨hp, fun h => absurd h (not_newline_of_line hp.moves hl)⟩

theorem column_newline {s : Scanner} {r : List Char} (hr : rest s = '\n' :: r) :
    Column s { advanceBy { s with start_ := s.current_ } 1 with
      line_ := (advanceBy { s with start_ := s.current_ } 1).line_ + 1, column_ := 0 } := by
  intro _
  refine Or.inl ⟨?_, rfl⟩
  rw [consumed_of_current 1 rfl, hr]
  rfl

theorem consumed_head {s t : Scanner} {c : Char} {r : List Char} (hr : rest s = c :: r)
    (hlt : s.current_ < t.current_) : ∃ r', consumed s t = c :: r' := by
  obtain ⟨n, hn⟩ : ∃ n, t.current_ - s.current_ = n + 1 := ⟨t.current_ - s.current_ - 1, by omega⟩
  unfold consumed
  rw [hn, hr]
  exact ⟨_, rfl⟩

theorem column_of_inner {s t : Scanner} (h : Inner s t)
    (ho : '\n' ∈ consumed s t → opensInner (consumed s t) = true) : Column s t :=
  fun hn => Or.inr ⟨ho hn, h.2 hn⟩

theorem column_string (s : Scanner) {q : Char} {r : List Char} (hr : rest s = q :: r)
    (hq : q = '\'' ∨ q = '"') :
    ∃ t, scanString (advanceBy { s with start_ := s.current_ } 1) q = .ok t ∧ Pass s t ∧
      Column s t := by
  have hqn : q ≠ '\n' := by rcases hq with rfl | rfl <;> decide
  obtain ⟨t, ht, hp⟩ := pass_string s hr hq
  refine ⟨t, ht, hp, ?_⟩
  have hm : Moves s (advanceBy { s with start_ := s.current_ } 1) := by
    refine moves_of_fields 1 rfl rfl (by rw [hr]; simp) ?_ rfl rfl
    rw [hr, take_one_of_cons]
    simpa using Ne.symm hqn
  obtain ⟨w, value, hin, hw⟩ := scanString_inner (advanceBy { s with start_ := s.current_ } 1)
    q hq
  have hsw : Inner s w := inner_andThen (inner_of_line hm rfl) hin
  have hopen : '\n' ∈ consumed s t → opensInner (consumed s t) = true := by
    intro _
    obtain ⟨r', hr'⟩ := consumed_head (t := t) hr hp.progress
    rw [hr']
    rcases hq with rfl | rfl <;> rfl
  rcases hw with ⟨-, hw⟩ | ⟨r', hr', hw⟩
  · rw [hw] at ht
    cases ht
    exact column_of_inner (inner_frame hsw rfl rfl rfl rfl) hopen
  · rw [hw] at ht
    cases ht
    exact column_of_inner (inner_frame (inner_andThen hsw (inner_step hr' hqn)) rfl rfl rfl rfl)
      hopen

theorem column_comment (s : Scanner) {c d : Char} {r : List Char} (hr : rest s = c :: d :: r)
    (hcd : (c = '-' ∧ d = '-') ∨ (c = '/' ∧ d = '*')) :
    ∃ t, scanComment (advanceBy { s with start_ := s.current_ } 2) = .ok t ∧ Pass s t ∧
      Column s t := by
  have hcn : c ≠ '\n' ∧ d ≠ '\n' := by
    rcases hcd with ⟨h1, h2⟩ | ⟨h1, h2⟩ <;> subst h1 h2 <;> exact ⟨by decide, by decide⟩
  obtain ⟨t, ht, hp⟩ := pass_comment s hr hcd
  refine ⟨t, ht, hp, ?_⟩
  have hm : Moves s (advanceBy { s with start_ := s.current_ } 2) := by
    refine moves_of_fields 2 rfl rfl (by rw [hr]; simp) ?_ rfl rfl
    rw [hr]
    simp only [List.take_succ_cons, List.take_zero, List.mem_cons, List.not_mem_nil, or_false,
      not_or]
    exact ⟨Ne.symm hcn.1, Ne.symm hcn.2⟩
  have htext : consumed s (advanceBy { s with start_ := s.current_ } 2) = [c, d] := by
    rw [consumed_of_current 2 rfl, hr]; rfl
  obtain ⟨w, hin, hw, hshape⟩ := scanComment_inner (advanceBy { s with start_ := s.current_ } 2)
  have hsw : Inner s w := inner_andThen (inner_of_line hm rfl) hin
  have hopen : '\n' ∈ consumed s w → opensInner (consumed s w) = true := by
    intro hn
    rw [consumed_append hm hin.1, htext] at hn ⊢
    have hnw : '\n' ∈ consumed (advanceBy { s with start_ := s.current_ } 2) w := by
      rcases List.mem_append.1 hn with h | h
      · simp only [List.mem_cons, List.not_mem_nil, or_false] at h
        rcases h with h | h
        · exact absurd h.symm hcn.1
        · exact absurd h.symm hcn.2
      · exact h
    obtain ⟨r', hr'⟩ := hshape hnw
    rw [hr']
    rcases hcd with ⟨h1, h2⟩ | ⟨h1, h2⟩ <;> subst h1 h2 <;> rfl
  rcases hw with hw | ⟨-, hw⟩
  · rw [hw] at ht
    cases ht
    exact column_of_inner hsw hopen
  · rw [hw] at ht
    cases ht
    exact column_of_inner (inner_frame hsw rfl rfl rfl rfl) hopen

theorem emitNumber_line (stod : List Char → Option ℚ) (s : Scanner) :
    (emitNumber stod s).line_ = s.line_ := by
  unfold emitNumber
  split <;> rfl

theorem column_number (stod : List Char → Option ℚ) (s : Scanner) {c : Char} {r : List Char}
    (hr : rest s = c :: r) (hc : isDigit c = true) :
    ∃ t, scanNumber stod (advanceBy { s with start_ := s.current_ } 1) = .ok t ∧ Pass s t ∧
      Column s t := by
  obtain ⟨t, ht, hp⟩ := pass_number stod s hr hc
  refine ⟨t, ht, column_glue hp ?_⟩
  rw [scanNumber_eq] at ht
  cases ht
  obtain ⟨k, hk, -⟩ := numberEnd_form (advanceBy { s with start_ := s.current_ } 1)
  rw [emitNumber_line, hk]
  rfl

theorem column_identifier (s : Scanner) {c : Char} {r : List Char}
    (hr : rest s = c :: r) (hc : isAlpha c = true) :
    ∃ t, scanIdentifier (advanceBy { s with start_ := s.current_ } 1) = .ok t ∧ Pass s t ∧
      Column s t := by
  obtain ⟨t, ht, hp⟩ := pass_identifier s hr hc
  refine ⟨t, ht, column_glue hp ?_⟩
  rw [scanIdentifier_eq] at ht
  cases ht
  rfl

theorem scanToken_column (stod : List Char → Option ℚ) (s : Scanner) {c : Char} {r : List Char}
    (hr : rest s = c :: r) :
    ∃ t, scanToken stod { s with start_ := s.current_ } = .ok t ∧ Pass s t ∧ Column s t := by
  have hu : rest { s with start_ := s.current_ } = c :: r := hr
  by_cases hc : c ∈ caseLabels
  · simp only [caseLabels, List.mem_cons, List.mem_singleton, List.not_mem_nil, or_false] at hc
    rcases hc with h | h | h | h | h | h | h | h | h | h | h | h | h | h | h | h | h | h | h | h
    all_goals subst h
    · exact ⟨_, scanToken_single stod _ (k := .LPAREN) (by decide) hu, column_glue (pass_single (by decide) hr) rfl⟩
    · exact ⟨_, scanToken_single stod _ (k := .RPAREN) (by decide) hu, column_glue (pass_single (by decide) hr) rfl⟩
    · exact ⟨_, scanToken_single stod _ (k := .COMMA) (by decide) hu, column_glue (pass_single (by decide) hr) rfl⟩
    · exact ⟨_, scanToken_single stod _ (k := .SEMICOLON) (by decide) hu,
        column_glue (pass_single (by decide) hr) rfl⟩
    · exact ⟨_, scanToken_single stod _ (k := .DOT) (by decide) hu, column_glue (pass_single (by decide) hr) rfl⟩
    · exact ⟨_, scanToken_single stod _ (k := .PLUS) (by decide) hu, column_glue (pass_single (by decide) hr) rfl⟩
    · exact ⟨_, scanToken_single stod _ (k := .PERCENT) (by decide) hu,
        column_glue (pass_single (by decide) hr) rfl⟩
    · exact ⟨_, scanToken_single stod _ (k := .STAR) (by decide) hu, column_glue (pass_single (by decide) hr) rfl⟩
    · exact ⟨_, scanToken_single stod _ (k := .EQUAL) (by decide) hu, column_glue (pass_single (by decide) hr) rfl⟩
    · rw [scanToken_minus stod _ hu]
      by_cases h1 : r.head? = some '-'
      · obtain ⟨r', rfl⟩ := head?_eq_some_cons h1
        rw [if_pos h1]
        exact column_comment s hr (Or.inl ⟨rfl, rfl⟩)
      · rw [if_neg h1]
        exact ⟨_, rfl, column_glue (pass_one .MINUS hr (by decide) rfl (by decide)) rfl⟩
    · rw [scanToken_slash stod _ hu]
      by_cases h1 : r.head? = some '*'
      · obtain ⟨r', rfl⟩ := head?_eq_some_cons h1
        rw [if_pos h1]
        exact column_comment s hr (Or.inr ⟨rfl, rfl⟩)
      · rw [if_neg h1]
        exact ⟨_, rfl, column_glue (pass_one .SLASH hr (by decide) rfl (by decide)) rfl⟩
    · refine ⟨_, scanToken_less stod _ hu, ?_⟩
      by_cases h1 : r.head? = some '='
      · obtain ⟨r', rfl⟩ := head?_eq_some_cons h1
        rw [if_pos h1]
        exact column_glue (pass_pair .LESS_EQUAL hr (by decide) (by decide) rfl (by decide)) rfl
      · rw [if_neg h1]
        by_cases h2 : r.head? = some '>'
        · obtain ⟨r', rfl⟩ := head?_eq_some_cons h2
          rw [if_pos h2]
          exact column_glue (pass_pair .NOT_EQUAL hr (by decide) (by decide) rfl (by decide)) rfl
        · rw [if_neg h2]
          exact column_glue (pass_one .LESS_THAN hr (by decide) rfl (by decide)) rfl
    · refine ⟨_, scanToken_greater stod _ hu, ?_⟩
      by_cases h1 : r.head? = some '='
      · obtain ⟨r', rfl⟩ := head?_eq_some_cons h1
        rw [if_pos h1]
        exact column_glue (pass_pair .GREATER_EQUAL hr (by decide) (by decide) rfl (by decide)) rfl
      · rw [if_neg h1]
        exact column_glue (pass_one .GREATER_THAN hr (by decide) rfl (by decide)) rfl
    · refine ⟨_, scanToken_bang stod _ hu, ?_⟩
      by_cases h1 : r.head? = some '='
      · obtain ⟨r', rfl⟩ := head?_eq_some_cons h1
        rw [if_pos h1]
        exact column_glue (pass_pair .NOT_EQUAL hr (by decide) (by decide) rfl (by decide)) rfl
      · rw [if_neg h1]
        exact column_glue (pass_addError hr (by decide) _ (Or.inl rfl)) rfl
    · exact ⟨_, scanToken_blank stod _ (Or.inl rfl) hu, column_glue (pass_blank hr (Or.inl rfl)) rfl⟩
    · exact ⟨_, scanToken_blank stod _ (Or.inr (Or.inl rfl)) hu,
        column_glue (pass_blank hr (Or.inr (Or.inl rfl))) rfl⟩
    · exact ⟨_, scanToken_blank stod _ (Or.inr (Or.inr rfl)) hu,
        column_glue (pass_blank hr (Or.inr (Or.inr rfl))) rfl⟩
    · exact ⟨_, scanToken_newline stod _ hu, pass_newline hr, column_newline hr⟩
    · rw [scanToken_quote stod _ (Or.inl rfl) hu]
      exact column_string s hr (Or.inl rfl)
    · rw [scanToken_quote stod _ (Or.inr rfl) hu]
      exact column_string s hr (Or.inr rfl)
  · rw [scanToken_default stod _ hu hc]
    cases hd : isDigit c with
    | true =>
      simp only [if_true]
      exact column_number stod s hr hd
    | false =>
      cases ha : isAlpha c with
      | true =>
        simp only [Bool.false_eq_true, if_false, if_true]
        exact column_identifier s hr ha
      | false =>
        simp only [Bool.false_eq_true, if_false]
        refine ⟨_, rfl, column_glue (pass_addError hr ?_ _ (Or.inr (Or.inl ⟨c, rfl⟩))) rfl⟩
        intro h
        exact hc (by rw [h]; decide)

theorem passTexts_done (stod : List Char → Option ℚ) (fuel : Nat) (s : Scanner)
    (hr : rest s = []) : passTexts stod (fuel + 1) s = .ok [] := by
  rw [passTexts]
  simp [isAtEnd_of_nil hr, pure_ok]

theorem passTexts_step (stod : List Char → Option ℚ) (fuel : Nat) (s u : Scanner)
    (texts : List (List Char)) {c : Char} {r : List Char} (hr : rest s = c :: r)
    (hu : scanToken stod { s with start_ := s.current_ } = .ok u)
    (ht : passTexts stod fuel u = .ok texts) :
    passTexts stod (fuel + 1) s = .ok (consumed s u :: texts) := by
  rw [passTexts]
  simp only [isAtEnd_of_cons hr, Bool.not_false, if_true, hu, bind_ok, ht]
  rfl

theorem rest_split {s t : Scanner} (h : Moves s t) : rest s = consumed s t ++ rest t := by
  rw [rest_of_moves h]
  exact (List.take_append_drop _ _).symm

theorem lastNewlineInside_cons_of_mem (x : List Char) {texts : List (List Char)}
    (h : '\n' ∈ texts.flatten) : lastNewlineInside (x :: texts) = lastNewlineInside texts := by
  rw [lastNewlineInside, if_pos h]

theorem lastNewlineInside_cons_of_not_mem (x : List Char) {texts : List (List Char)}
    (h : '\n' ∉ texts.flatten) :
    lastNewlineInside (x :: texts) = decide ('\n' ∈ x ∧ x ≠ ['\n']) := by
  rw [lastNewlineInside, if_neg h]

theorem opensInner_newline : opensInner ['\n'] = false := by decide

/-- The loop of `scanTokens` and its history, from any state: both return, the texts of the
history are non-empty and make up the unread text, a text that holds a newline is that newline
alone or starts as a string literal or block comment does, and the column counter the loop ends
with is given by the characters after the last newline and by where that newline was read. -/
theorem passTexts_column (stod : List Char → Option ℚ) (fuel : Nat) (s : Scanner)
    (hf : (rest s).length < fuel) :
    ∃ texts t, passTexts stod fuel s = .ok texts ∧ scanTokens_loop stod fuel s = .ok t ∧
      rest t = [] ∧ texts.flatten = rest s ∧
      (∀ x ∈ texts, x ≠ [] ∧ ('\n' ∈ x → x = ['\n'] ∨ opensInner x = true)) ∧
      t.column_ = if '\n' ∈ rest s then
          (afterLastNewline (rest s)).length + (if lastNewlineInside texts then 1 else 0)
        else s.column_ + (rest s).length := by
  induction fuel generalizing s with
  | zero => omega
  | succ fuel ih =>
    by_cases hend : rest s = []
    · refine ⟨[], s, passTexts_done stod _ _ hend, scanTokens_loop_done stod _ _ hend, hend,
        ?_, ?_, ?_⟩
      · rw [hend]
        rfl
      · intro x hx
        cases hx
      · rw [hend]
        simp
    · obtain ⟨c, r, hr⟩ := List.exists_cons_of_ne_nil hend
      obtain ⟨u, hu, hp, hcol⟩ := scanToken_column stod s hr
      have hsplit := rest_split hp.moves
      have hclen := consumed_length hp.moves
      have hprog := hp.progress
      have hlen : (rest u).length < fuel := by
        have := congrArg List.length hsplit
        rw [List.length_append] at this
        omega
      obtain ⟨texts, t, htexts, ht, hnil, hflat, hshape, hcolumn⟩ := ih u hlen
      refine ⟨consumed s u :: texts, t, passTexts_step stod _ _ _ _ hr hu htexts, ?_, hnil, ?_,
        ?_, ?_⟩
      · rw [scanTokens_loop_step stod _ _ hr, hu, bind_ok]
        exact ht
      · rw [List.flatten_cons, hflat, ← hsplit]
      · intro x hx
        rcases List.mem_cons.1 hx with rfl | hx
        · refine ⟨?_, fun hn => ?_⟩
          · intro h
            rw [h] at hclen
            simp at hclen
            omega
          · rcases hcol hn with ⟨h1, -⟩ | ⟨h1, -⟩
            · exact Or.inl h1
            · exact Or.inr h1
        · exact hshape x hx
      · rw [hcolumn, hsplit]
        by_cases hR : '\n' ∈ rest u
        · rw [if_pos hR, if_pos (List.mem_append_right _ hR), afterLastNewline_append_right _ hR,
            lastNewlineInside_cons_of_mem _ (by rw [hflat]; exact hR)]
        · rw [if_neg hR, lastNewlineInside_cons_of_not_mem _ (by rw [hflat]; exact hR)]
          by_cases hx : '\n' ∈ consumed s u
          · rw [if_pos (List.mem_append_left _ hx), afterLastNewline_append_left _ hR,
              List.length_append]
            rcases hcol hx with ⟨h1, h2⟩ | ⟨h1, h2⟩
            · rw [h2, h1]
              simp [afterLastNewline]
            · have hne : consumed s u ≠ ['\n'] := by
                intro h
                rw [h, opensInner_newline] at h1
                cases h1
              rw [h2]
              simp only [hx, hne, ne_eq, not_false_eq_true, and_self, decide_True, if_true]
              omega
          · have hno : '\n' ∉ consumed s u ++ rest u := by
              rw [List.mem_append, not_or]
              exact ⟨hx, hR⟩
            rw [if_neg hno, hp.moves.2.2.2.2 hx, List.length_append, hclen]
            omega

theorem lastNewlineInside_eq_false {texts : List (List Char)}
    (h : ∀ x ∈ texts, '\n' ∈ x → x = ['\n']) : lastNewlineInside texts = false := by
  induction texts with
  | nil => rfl
  | cons x texts ih =>
    have ih' := ih (fun y hy => h y (List.mem_cons_of_mem _ hy))
    rw [lastNewlineInside]
    split
    · exact ih'
    · rw [decide_eq_false_iff_not]
      rintro ⟨h1, h2⟩
      exact h2 (h x (List.mem_cons_self _ _) h1)

theorem flatten_split {x : List Char} {texts : List (List Char)} (h : x ∈ texts) :
    ∃ pre post, texts.flatten = pre ++ (x ++ post) := by
  obtain ⟨a, b, rfl⟩ := List.append_of_mem h
  exact ⟨a.flatten, b.flatten, by rw [List.flatten_append, List.flatten_cons]⟩

theorem opensInner_cases {x : List Char} (h : opensInner x = true) :
    '\'' ∈ x ∨ '"' ∈ x ∨ ∃ a b, x = a ++ '/' :: '*' :: b := by
  have hx4 : x = x.take 4 ++ x.drop 4 := (List.take_append_drop 4 x).symm
  have hx1 : x = x.take 1 ++ x.drop 1 := (List.take_append_drop 1 x).symm
  simp only [opensInner, Bool.or_eq_true, decide_eq_true_eq] at h
  rcases h with ((h | h) | h) | h
  · left
    rw [hx1, h]
    simp
  · right; left
    rw [hx1, h]
    simp
  · right; right
    exact ⟨[], '/' :: '*' :: x.drop 4, by rw [hx4, h]; simp⟩
  · right; right
    exact ⟨['-', '-'], x.drop 4, by rw [hx4, h]; simp⟩

theorem reached_bounds (stod : List Char → Option ℚ) (source : List Char) (s : Scanner)
    (h : Reached stod source s) :
    s.source_ = source ∧ s.start_ ≤ s.current_ ∧ s.current_ ≤ source.length := by
  induction h with
  | fresh => exact ⟨rfl, Nat.le_refl _, Nat.zero_le _⟩
  | @pass s t _ hs ht ih =>
    cases hr : rest s with
    | nil => rw [isAtEnd_of_nil hr] at hs; cases hs
    | cons c r =>
      have hr0 : rest { s with start_ := s.current_ } = c :: r := hr
      obtain ⟨u, hu, hext⟩ := scanToken_ok stod { s with start_ := s.current_ } hr0
      rw [hu] at ht
      cases ht
      obtain ⟨h1, -, h3⟩ := ih
      have hlt : s.current_ + 1 ≤ s.source_.length := by
        have := congrArg List.length hr
        rw [rest_length] at this
        simp at this
        omega
      have hb : t.current_ ≤ s.source_.length := hext.current_bound hlt
      have hle : s.current_ + 1 ≤ t.current_ := hext.current_le
      have hst : t.start_ = s.current_ := hext.start_eq
      have hsrc : t.source_ = s.source_ := hext.source_eq
      refine ⟨hsrc.trans h1, by omega, ?_⟩
      rw [← h1]
      exact hb

theorem reached_loop (stod : List Char → Option ℚ) (source : List Char) (fuel : Nat)
    (s : Scanner) (hf : (rest s).length < fuel) (hs : Reached stod source s) :
    ∃ t, scanTokens_loop stod fuel s = .ok t ∧ rest t = [] ∧ Reached stod source t := by
  induction fuel generalizing s with
  | zero => omega
  | succ fuel ih =>
    cases hr : rest s with
    | nil => exact ⟨s, scanTokens_loop_done stod _ _ hr, hr, hs⟩
    | cons c r =>
      obtain ⟨u, hu, hp⟩ := scanToken_pass stod s hr
      have hlen : (rest u).length < fuel := by
        rw [rest_of_moves hp.moves, List.length_drop]
        have h1 := hp.progress
        have h2 := hp.moves.2.2.1
        omega
      obtain ⟨t, ht, hnil, hreach⟩ := ih u hlen (Reached.pass hs (isAtEnd_of_cons hr) hu)
      refine ⟨t, ?_, hnil, hreach⟩
      rw [scanTokens_loop_step stod _ _ hr, hu, bind_ok]
      exact ht

theorem advance_ok_iff (s : Scanner) (c : Char) (t : Scanner) :
    advance s = .ok (c, t) ↔ s.current_ < s.source_.length ∧ s.source_[s.current_]? = some c ∧
      t = { s with column_ := s.column_ + 1, current_ := s.current_ + 1 } := by
  unfold advance
  cases hg : s.source_[s.current_]? with
  | none => simp
  | some d =>
    have hlt : s.current_ < s.source_.length := by
      by_contra hlt
      rw [List.getElem?_eq_none (Nat.le_of_not_lt hlt)] at hg
      cases hg
    constructor
    · intro h
      cases h
      exact ⟨hlt, rfl, rfl⟩
    · rintro ⟨-, h2, h3⟩
      cases h2
      rw [h3]

theorem advance_fault_iff (s : Scanner) :
    advance s = .error .out_of_bounds ↔ s.source_.length ≤ s.current_ := by
  unfold advance
  cases hg : s.source_[s.current_]? with
  | none =>
    simp only [true_iff]
    by_contra hlt
    rw [List.getElem?_eq_getElem (Nat.lt_of_not_le hlt)] at hg
    cases hg
  | some d =>
    have hlt : s.current_ < s.source_.length := by
      by_contra hlt
      rw [List.getElem?_eq_none (Nat.le_of_not_lt hlt)] at hg
      cases hg
    simp only [false_iff, reduceCtorEq]
    omega

theorem match_bounds (s : Scanner) (e : Char) :
    (match_ s e).2.start_ = s.start_ ∧ s.current_ ≤ (match_ s e).2.current_ ∧
      (s.current_ ≤ s.source_.length → (match_ s e).2.current_ ≤ s.source_.length) :=
  ⟨(match_extends s e).start_eq, (match_extends s e).current_le,
    (match_extends s e).current_bound⟩

/-- The column counter a scan ends with, for every text: the number of characters of the text
that follow its last newline (the whole length when there is none), plus one when that newline
was read by a pass that read more than the newline alone. The texts `texts` are those read by the
successive passes of the loop; a pass that reads a newline reads it alone, at the top level of
`scanToken`, and leaves the counter at zero, or it runs `scanString` or the block loop of
`scanComment` and leaves the counter at one more than the number of characters read after the
newline. -/
theorem sentinel_column (stod : List Char → Option ℚ) :
    (∀ source, ∃ texts body eof fin,
      passTexts stod (source.length + 1) (Scanner.init source) = .ok texts ∧
      scan stod source = .ok (body ++ [eof], fin) ∧ eof.type = .END_OF_FILE ∧
      eof.column = fin.column_ ∧ texts.flatten = source ∧
      (∀ x ∈ texts, x ≠ [] ∧ ('\n' ∈ x → x = ['\n'] ∨ opensInner x = true)) ∧
      eof.column =
        (afterLastNewline source).length + (if lastNewlineInside texts then 1 else 0) ∧
      ('\n' ∉ source → eof.column = source.length) ∧
      ('\'' ∉ source → '"' ∉ source → (∀ pre post, source ≠ pre ++ '/' :: '*' :: post) →
        eof.column = (afterLastNewline source).length)) ∧
    (∀ s, isAtEnd s = false →
      ∃ t, scanToken stod { s with start_ := s.current_ } = .ok t ∧
        ('\n' ∉ consumed s t → t.column_ = s.column_ + (consumed s t).length) ∧
        ('\n' ∈ consumed s t →
          (consumed s t = ['\n'] ∧ t.column_ = 0) ∨
          (opensInner (consumed s t) = true ∧
            t.column_ = (afterLastNewline (consumed s t)).length + 1))) := by
  refine ⟨fun source => ?_, fun s hs => ?_⟩
  · obtain ⟨texts, t, htexts, ht, hnil, hflat, hshape, hcol⟩ :=
      passTexts_column stod (source.length + 1) (Scanner.init source) (rest_length_lt _)
    rw [rest_init] at hflat hcol
    rw [show (Scanner.init source).column_ = 0 from rfl] at hcol
    have hfalse : (∀ x ∈ texts, '\n' ∈ x → x = ['\n']) →
        t.column_ = (afterLastNewline source).length := by
      intro h
      rw [hcol, lastNewlineInside_eq_false h]
      split
      · rfl
      · next hn => rw [afterLastNewline_of_not_mem hn]; exact Nat.zero_add _
    have hmain : t.column_ =
        (afterLastNewline source).length + (if lastNewlineInside texts then 1 else 0) := by
      rw [hcol]
      split
      · rfl
      · next hn =>
        have h : ∀ x ∈ texts, '\n' ∈ x → x = ['\n'] := by
          intro x hx hnx
          obtain ⟨pre, post, hsp⟩ := flatten_split hx
          exact absurd (by rw [← hflat, hsp]; simp [hnx]) hn
        rw [lastNewlineInside_eq_false h, afterLastNewline_of_not_mem hn]
        simp
    refine ⟨texts, t.tokens_, Token.mk4 .END_OF_FILE [] t.line_ t.column_, finish t, htexts,
      scan_of_loop stod source t ht, rfl, rfl, hflat, hshape, hmain, ?_, ?_⟩
    · intro hn
      show t.column_ = _
      rw [hcol, if_neg hn]
      exact Nat.zero_add _
    · intro hq1 hq2 hblock
      refine hfalse (fun x hx hnx => ?_)
      rcases (hshape x hx).2 hnx with h | h
      · exact h
      · obtain ⟨pre, post, hsp⟩ := flatten_split hx
        rw [hflat] at hsp
        rcases opensInner_cases h with h1 | h1 | ⟨a, b, h1⟩
        · exact absurd (by rw [hsp]; simp [h1]) hq1
        · exact absurd (by rw [hsp]; simp [h1]) hq2
        · refine absurd ?_ (hblock (pre ++ a) (b ++ post))
          rw [hsp, h1]
          simp
  · cases hr : rest s with
    | nil => rw [isAtEnd_of_nil hr] at hs; cases hs
    | cons c r =>
      obtain ⟨t, ht, hp, hcol⟩ := scanToken_column stod s hr
      refine ⟨t, ht, fun hn => ?_, hcol⟩
      rw [hp.moves.2.2.2.2 hn, consumed_length hp.moves]

/-! ## The claims -/

/-- C1. For every input text, one `scanTokens` call on a freshly constructed scanner returns a
token sequence that is non-empty, whose last element has kind END_OF_FILE, and none of whose
other elements has kind END_OF_FILE. -/
theorem C1_sentinel_last_and_unique (stod : List Char → Option ℚ) (source : List Char) :
    ∃ toks fin, scan stod source = .ok (toks, fin) ∧ toks ≠ [] ∧
      toks.getLast?.map Token.type = some TokenType.END_OF_FILE ∧
      ∀ x ∈ toks.dropLast, x.type ≠ TokenType.END_OF_FILE := by
  obtain ⟨t, ts, es, hscan, -, -, -, -, hp⟩ := scan_ok stod source
  refine ⟨_, t, hscan, by simp, by simp [Token.mk4], ?_⟩
  intro x hx
  rw [List.dropLast_concat] at hx
  have := hp x hx
  intro hk
  rw [hk] at this
  exact absurd this (by decide)

/-- C2 (code defect). The claim says a line comment produces no token, so that scanning
`-- x` followed by a newline and `SELECT` gives the single token SELECT on line 2. The code gives
two tokens there: after `scanToken` has consumed `--`, `scanComment` looks for two further dashes,
finds none and returns, so ` x` is scanned as ordinary text. Scanning `SELECT` alone gives one
token, and only the four-dash form `---- x` is skipped. -/
theorem C2_line_comment_text_is_scanned (stod : List Char → Option ℚ) :
    outcome (scan stod "-- x\nSELECT".toList) =
        .ok ([(.IDENTIFIER, "x", 1), (.SELECT, "SELECT", 2), (.END_OF_FILE, "", 2)], []) ∧
      outcome (scan stod "SELECT".toList) =
        .ok ([(.SELECT, "SELECT", 1), (.END_OF_FILE, "", 1)], []) ∧
      outcome (scan stod "---- x\nSELECT".toList) =
        .ok ([(.SELECT, "SELECT", 2), (.END_OF_FILE, "", 2)], []) :=
  ⟨rfl, rfl, rfl⟩

/-- C3 (code defect). The claim says a closed block comment produces no token, so that scanning
`/* c */a` gives the same tokens as scanning `a`. The code gives four tokens before the sentinel:
after `scanToken` has consumed `/*`, `scanComment` looks for a further `/*`, finds none and
returns, so the comment body and its closing `*/` are scanned as ordinary text. Only the doubled
opener `/*/* c */a` is skipped. -/
theorem C3_block_comment_text_is_scanned (stod : List Char → Option ℚ) :
    outcome (scan stod "/* c */a".toList) =
        .ok ([(.IDENTIFIER, "c", 1), (.STAR, "*", 1), (.SLASH, "/", 1), (.IDENTIFIER, "a", 1),
          (.END_OF_FILE, "", 1)], []) ∧
      outcome (scan stod "a".toList) =
        .ok ([(.IDENTIFIER, "a", 1), (.END_OF_FILE, "", 1)], []) ∧
      outcome (scan stod "/*/* c */a".toList) =
        .ok ([(.IDENTIFIER, "a", 1), (.END_OF_FILE, "", 1)], []) :=
  ⟨rfl, rfl, rfl⟩

/-- C4 (code defect). The claim says an unterminated block comment gives only the sentinel and
exactly one error, `Unterminated block comment`. The code reports nothing for `/*` and for
`/* c`, and for the latter it emits the comment body as a token: `scanComment` reaches its block
loop and its error only when a second `/*` follows the opener, as in `/*/* c`. -/
theorem C4_unterminated_block_comment_unreported (stod : List Char → Option ℚ) :
    outcome (scan stod "/*".toList) = .ok ([(.END_OF_FILE, "", 1)], []) ∧
      outcome (scan stod "/* c".toList) =
        .ok ([(.IDENTIFIER, "c", 1), (.END_OF_FILE, "", 1)], []) ∧
      outcome (scan stod "/*/* c".toList) =
        .ok ([(.END_OF_FILE, "", 1)], ["[Line 1, Col 6] Unterminated block comment"]) :=
  ⟨rfl, rfl, rfl⟩

/-- C5. For a quote character `q` (single or double) and a body `b` in which every `q` is
immediately preceded by a backslash and which does not end in a backslash, scanning
`q ++ b ++ q` gives no error and exactly one token before the sentinel, a STRING whose text is
`b` with every backslash-`q` pair replaced by `q` and every other character copied. -/
theorem C5_string_decoding (stod : List Char → Option ℚ) (q : Char) (b : List Char)
    (hq : q = '\'' ∨ q = '"')
    (hocc : ∀ pre post, b = pre ++ q :: post → pre.getLast? = some '\\')
    (hend : b.getLast? ≠ some '\\') :
    ∃ tok eof fin, scan stod (q :: (b ++ [q])) = .ok ([tok, eof], fin) ∧ fin.errors_ = [] ∧
      tok.type = .STRING ∧ tok.lexeme = unescape q b ∧ eof.type = .END_OF_FILE := by
  have hq' := quote_ne_backslash hq
  have hb := escapedBody_of q hq' b hocc hend
  have hr0 : rest (Scanner.init (q :: (b ++ [q]))) = q :: (b ++ [q]) := rfl
  have hr1 : rest (advanceBy (Scanner.init (q :: (b ++ [q]))) 1) = b ++ [q] := by
    rw [rest_advanceBy, hr0]; rfl
  obtain ⟨t, ht, hrt, hst⟩ := scanString_closed _ q hq' b [] hr1 hb
  have hstep := scanToken_quote stod _ hq hr0
  rw [ht] at hstep
  have hscan := scan_one_step stod q (b ++ [q]) _ hstep hrt
  refine ⟨_, _, _, hscan, ?_, rfl, rfl, rfl⟩
  show t.errors_ = []
  rw [hst.errors_eq]
  rfl

/-- C5 at the specification's example: the literal `'it\'s'` decodes to `it's`. -/
theorem C5_string_decoding_witness :
    ∃ tok eof fin, scan (fun _ => none) "'it\\'s'".toList = .ok ([tok, eof], fin) ∧
      fin.errors_ = [] ∧ tok.type = .STRING ∧ tok.lexeme = "it's".toList ∧
      eof.type = .END_OF_FILE :=
  C5_string_decoding (fun _ => none) '\'' "it\\'s".toList (Or.inl rfl)
    (by
      intro pre post h
      rcases pre with _ | ⟨p0, _ | ⟨p1, _ | ⟨p2, _ | ⟨p3, _ | ⟨p4, pre⟩⟩⟩⟩⟩ <;>
        simp [String.toList] at h ⊢
      exact h.2.2.1.symm)
    (by decide)

/-- C6. For a quote character `q` (single or double) and a body `b` that does not contain `q`,
scanning `q ++ b` terminates with a token sequence consisting of the end-of-input sentinel only
and with exactly one error, whose text ends in `Unterminated string literal` after the
line/column header. -/
theorem C6_unterminated_string (stod : List Char → Option ℚ) (q : Char) (b : List Char)
    (hq : q = '\'' ∨ q = '"') (hb : q ∉ b) :
    ∃ eof fin line col, scan stod (q :: b) = .ok ([eof], fin) ∧ eof.type = .END_OF_FILE ∧
      fin.errors_ = [formatError line col "Unterminated string literal".toList] ∧
      ∃ header, formatError line col "Unterminated string literal".toList =
        header ++ "Unterminated string literal".toList := by
  have hq0 : q ≠ '\x00' := by rcases hq with rfl | rfl <;> decide
  have hr0 : rest (Scanner.init (q :: b)) = q :: b := rfl
  have hr1 : rest (advanceBy (Scanner.init (q :: b)) 1) = b := by
    rw [rest_advanceBy, hr0]; rfl
  obtain ⟨t, ht, hrt, hst⟩ := scanString_open _ q hq0 (by rw [hr1]; exact hb)
  have hstep := scanToken_quote stod _ hq hr0
  rw [ht] at hstep
  have hscan := scan_one_step stod q b _ hstep hrt
  have htok : (finish (addError t "Unterminated string literal".toList)).tokens_ =
      [Token.mk4 .END_OF_FILE [] t.line_ t.column_] := by
    show t.tokens_ ++ _ = _
    rw [hst.tokens_eq]
    rfl
  rw [htok] at hscan
  refine ⟨_, _, t.line_, t.column_, hscan, rfl, ?_, ⟨_, rfl⟩⟩
  show t.errors_ ++ _ = _
  rw [hst.errors_eq]
  rfl

/-- C6 at the specification's example `'abc`. -/
theorem C6_unterminated_string_witness :
    ∃ eof fin line col, scan (fun _ => none) "'abc".toList = .ok ([eof], fin) ∧
      eof.type = .END_OF_FILE ∧
      fin.errors_ = [formatError line col "Unterminated string literal".toList] ∧
      ∃ header, formatError line col "Unterminated string literal".toList =
        header ++ "Unterminated string literal".toList :=
  C6_unterminated_string (fun _ => none) '\'' "abc".toList (Or.inl rfl) (by decide)

/-- C7. For every entry `(w, k)` of the keyword table and every text `v` that differs from `w`
only in the case of some of its letters, scanning `v` gives no error and exactly one token before
the sentinel, of kind `k`, whose lexeme is `v` as written. -/
theorem C7_keywords_case_insensitive (stod : List Char → Option ℚ) (w v : List Char)
    (k : TokenType) (hk : (w, k) ∈ keywords_)
    (hv : List.Forall₂ (fun a b => a = b ∨ a = b.toLower ∨ a = b.toUpper) v w) :
    ∃ tok eof fin, scan stod v = .ok ([tok, eof], fin) ∧ fin.errors_ = [] ∧
      tok.type = k ∧ tok.lexeme = v ∧ eof.type = .END_OF_FILE := by
  obtain ⟨hne, hcap⟩ := keywords_capitals (w, k) hk
  obtain ⟨hmap, halpha⟩ := caseVariant_facts hv hcap
  have hkind : identifierKind v = k := by
    unfold identifierKind
    rw [hmap, keywords_find_self (w, k) hk]
  cases v with
  | nil => cases hv; exact absurd rfl hne
  | cons c v' =>
    obtain ⟨fin, hscan, herr⟩ := scan_word stod c v' (halpha c (List.mem_cons_self _ _))
      (fun x hx => isAlphaNumeric_of_isAlpha (halpha x (List.mem_cons_of_mem _ hx)))
    rw [hkind] at hscan
    exact ⟨_, _, fin, hscan, herr, rfl, rfl, rfl⟩

/-- C7 at the specification's example: `Select` is one SELECT token spelled `Select`. -/
theorem C7_keywords_case_insensitive_witness :
    ∃ tok eof fin, scan (fun _ => none) "Select".toList = .ok ([tok, eof], fin) ∧
      fin.errors_ = [] ∧ tok.type = .SELECT ∧ tok.lexeme = "Select".toList ∧
      eof.type = .END_OF_FILE :=
  C7_keywords_case_insensitive (fun _ => none) "SELECT".toList "Select".toList .SELECT
    (by decide)
    (List.Forall₂.cons (Or.inl rfl) (List.Forall₂.cons (Or.inr (Or.inl rfl))
      (List.Forall₂.cons (Or.inr (Or.inl rfl)) (List.Forall₂.cons (Or.inr (Or.inl rfl))
        (List.Forall₂.cons (Or.inr (Or.inl rfl)) (List.Forall₂.cons (Or.inr (Or.inl rfl))
          List.Forall₂.nil))))))

/-- C8. For every non-empty word `v` made only of ASCII letters, digits and underscores, whose
first character is not a digit and whose uppercase form is not a key of the keyword table,
scanning `v` gives exactly one token before the sentinel, of kind IDENTIFIER, whose lexeme is `v`
character for character (and no error). -/
theorem C8_identifier_verbatim (stod : List Char → Option ℚ) (v : List Char)
    (hne : v ≠ [])
    (hchars : ∀ x ∈ v, x.isAlpha = true ∨ x.isDigit = true ∨ x = '_')
    (hfirst : ∀ c, v.head? = some c → c.isDigit = false)
    (hkey : ∀ p ∈ keywords_, p.1 ≠ v.map Char.toUpper) :
    ∃ tok eof fin, scan stod v = .ok ([tok, eof], fin) ∧ fin.errors_ = [] ∧
      tok.type = .IDENTIFIER ∧ tok.lexeme = v ∧ eof.type = .END_OF_FILE := by
  cases v with
  | nil => exact absurd rfl hne
  | cons c v' =>
    have hc : isAlpha c = true := by
      have h1 := hchars c (List.mem_cons_self _ _)
      have h2 := hfirst c rfl
      rw [isAlpha_iff]
      rcases h1 with h | h | h
      · rw [libIsAlpha_iff] at h; omega
      · rw [h] at h2; cases h2
      · subst h; decide
    obtain ⟨fin, hscan, herr⟩ := scan_word stod c v' hc
      (fun x hx => isAlphaNumeric_of_ascii (hchars x (List.mem_cons_of_mem _ hx)))
    have hkind : identifierKind (c :: v') = .IDENTIFIER := by
      unfold identifierKind
      have : (c :: v').map toupper = (c :: v').map Char.toUpper :=
        List.map_congr_left (fun x _ => toupper_eq x)
      rw [this, keywords_find_none hkey]
    rw [hkind] at hscan
    exact ⟨_, _, fin, hscan, herr, rfl, rfl, rfl⟩

/-- C8 at the specification's example: `MyTable` keeps its casing. -/
theorem C8_identifier_verbatim_witness :
    ∃ tok eof fin, scan (fun _ => none) "MyTable".toList = .ok ([tok, eof], fin) ∧
      fin.errors_ = [] ∧ tok.type = .IDENTIFIER ∧ tok.lexeme = "MyTable".toList ∧
      eof.type = .END_OF_FILE :=
  C8_identifier_verbatim (fun _ => none) "MyTable".toList (by decide) (by decide) (by decide)
    (by decide)

/-- C9. For non-empty digit strings `d` and `e`: scanning `d.e` gives exactly one token before
the sentinel, a NUMBER with lexeme `d.e`; scanning `d` gives exactly one, a NUMBER with lexeme
`d`; and scanning `d.` gives a NUMBER with lexeme `d` followed by a DOT token, the trailing dot
not being consumed by the number. -/
theorem C9_number_grammar (stod : List Char → Option ℚ) (d e : List Char)
    (hd : d ≠ []) (he : e ≠ [])
    (hdd : ∀ x ∈ d, x.isDigit = true) (hde : ∀ x ∈ e, x.isDigit = true) :
    (∃ tok eof fin, scan stod (d ++ '.' :: e) = .ok ([tok, eof], fin) ∧
        tok.type = .NUMBER ∧ tok.lexeme = d ++ '.' :: e ∧ eof.type = .END_OF_FILE) ∧
    (∃ tok eof fin, scan stod d = .ok ([tok, eof], fin) ∧
        tok.type = .NUMBER ∧ tok.lexeme = d ∧ eof.type = .END_OF_FILE) ∧
    (∃ num dot eof fin, scan stod (d ++ ['.']) = .ok ([num, dot, eof], fin) ∧
        num.type = .NUMBER ∧ num.lexeme = d ∧ dot.type = .DOT ∧ dot.lexeme = ['.'] ∧
        eof.type = .END_OF_FILE) := by
  have hdd' := isDigit_all hdd
  have hde' := isDigit_all hde
  cases d with
  | nil => exact absurd rfl hd
  | cons c d' =>
    cases e with
    | nil => exact absurd rfl he
    | cons y e' =>
      have hc := hdd' c (List.mem_cons_self _ _)
      have hd' : ∀ x ∈ d', isDigit x = true := fun x hx => hdd' x (List.mem_cons_of_mem _ hx)
      have hy := hde' y (List.mem_cons_self _ _)
      have he' : ∀ x ∈ e', isDigit x = true := fun x hx => hde' x (List.mem_cons_of_mem _ hx)
      refine ⟨?_, ?_, ?_⟩
      · obtain ⟨t, tok, hstep, hrt, -, htok, hty, hlex⟩ :=
          scanToken_decimal stod (Scanner.init (c :: d' ++ '.' :: y :: e')) c y d' e' [] rfl
            (by simp [rest_init]) hc hd' hy he' (by simp)
        have hscan := scan_one_step stod c (d' ++ '.' :: y :: e') t hstep hrt
        refine ⟨tok, Token.mk4 .END_OF_FILE [] t.line_ t.column_, finish t, ?_, hty, hlex, rfl⟩
        refine Eq.trans hscan ?_
        show Except.ok (t.tokens_ ++ _, _) = _
        rw [htok]
        rfl
      · obtain ⟨t, tok, hstep, hrt, -, htok, hty, hlex⟩ :=
          scanToken_integer stod (Scanner.init (c :: d')) c d' [] rfl
            (by simp [rest_init]) hc hd' (by simp) (by simp)
        have hscan := scan_one_step stod c d' t hstep hrt
        refine ⟨tok, Token.mk4 .END_OF_FILE [] t.line_ t.column_, finish t, ?_, hty, hlex, rfl⟩
        refine Eq.trans hscan ?_
        show Except.ok (t.tokens_ ++ _, _) = _
        rw [htok]
        rfl
      · obtain ⟨t, tok, hstep, hrt, hsrc, htok, hty, hlex⟩ :=
          scanToken_integer stod (Scanner.init (c :: d' ++ ['.'])) c d' ['.'] rfl
            (by simp [rest_init]) hc hd' (by simp; decide) (by simp)
        have hrt' : rest { t with start_ := t.current_ } = ['.'] := hrt
        have hstep2 := scanToken_dot stod { t with start_ := t.current_ } hrt'
        have hru : rest (addToken (advanceBy { t with start_ := t.current_ } 1) .DOT) = [] := by
          show rest (advanceBy { t with start_ := t.current_ } 1) = []
          rw [rest_advanceBy, hrt']; rfl
        have hscan := scan_two stod (c :: d' ++ ['.']) t _ (by simp) hstep hrt hstep2 hru
        have hdotlex : substr t.source_ t.current_ (t.current_ + 1 - t.current_) = ['.'] := by
          unfold substr
          rw [show t.source_.drop t.current_ = ['.'] from hrt]
          simp
        refine ⟨tok, Token.mk4 .DOT ['.'] t.line_ (t.column_ + 1),
          Token.mk4 .END_OF_FILE [] t.line_ (t.column_ + 1),
          finish (addToken (advanceBy { t with start_ := t.current_ } 1) .DOT),
          ?_, hty, hlex, rfl, rfl, rfl⟩
        refine Eq.trans hscan ?_
        show Except.ok (t.tokens_ ++ [Token.mk4 .DOT
          (substr t.source_ t.current_ (t.current_ + 1 - t.current_)) t.line_ (t.column_ + 1)]
            ++ _, _) = _
        rw [htok, hdotlex]
        rfl

/-- C9 at the specification's examples `45.67`, `45` and `45.`. -/
theorem C9_number_grammar_witness :
    (∃ tok eof fin, scan (fun _ => none) "45.67".toList = .ok ([tok, eof], fin) ∧
        tok.type = .NUMBER ∧ tok.lexeme = "45.67".toList ∧ eof.type = .END_OF_FILE) ∧
    (∃ tok eof fin, scan (fun _ => none) "45".toList = .ok ([tok, eof], fin) ∧
        tok.type = .NUMBER ∧ tok.lexeme = "45".toList ∧ eof.type = .END_OF_FILE) ∧
    (∃ num dot eof fin, scan (fun _ => none) "45.".toList = .ok ([num, dot, eof], fin) ∧
        num.type = .NUMBER ∧ num.lexeme = "45".toList ∧ dot.type = .DOT ∧ dot.lexeme = ['.'] ∧
        eof.type = .END_OF_FILE) :=
  C9_number_grammar (fun _ => none) "45".toList "67".toList (by decide) (by decide)
    (by decide) (by decide)

/-- C11. Scanning `<> <= >= != < > =` gives no error and the kinds NOT_EQUAL, LESS_EQUAL,
GREATER_EQUAL, NOT_EQUAL, LESS_THAN, GREATER_THAN, EQUAL in that order, followed only by the
sentinel. In every scanner state, `scanToken` on `<` followed by `=` consumes both and adds
LESS_EQUAL, on `<` followed by `>` consumes both and adds NOT_EQUAL, on `<` followed by anything
else (or nothing) consumes one character and adds LESS_THAN; on `>` followed by `=` it consumes
both and adds GREATER_EQUAL, otherwise one character and GREATER_THAN. -/
theorem C11_operator_lookahead (stod : List Char → Option ℚ) (s : Scanner) (r : List Char) :
    outcome (scan stod "<> <= >= != < > =".toList) =
      .ok ([(.NOT_EQUAL, "<>", 1), (.LESS_EQUAL, "<=", 1), (.GREATER_EQUAL, ">=", 1),
        (.NOT_EQUAL, "!=", 1), (.LESS_THAN, "<", 1), (.GREATER_THAN, ">", 1), (.EQUAL, "=", 1),
        (.END_OF_FILE, "", 1)], []) ∧
    (rest s = '<' :: '=' :: r →
      scanToken stod s = .ok (addToken (advanceBy s 2) .LESS_EQUAL)) ∧
    (rest s = '<' :: '>' :: r →
      scanToken stod s = .ok (addToken (advanceBy s 2) .NOT_EQUAL)) ∧
    (rest s = '<' :: r → r.head? ≠ some '=' → r.head? ≠ some '>' →
      scanToken stod s = .ok (addToken (advanceBy s 1) .LESS_THAN)) ∧
    (rest s = '>' :: '=' :: r →
      scanToken stod s = .ok (addToken (advanceBy s 2) .GREATER_EQUAL)) ∧
    (rest s = '>' :: r → r.head? ≠ some '=' →
      scanToken stod s = .ok (addToken (advanceBy s 1) .GREATER_THAN)) := by
  refine ⟨rfl, ?_, ?_, ?_, ?_, ?_⟩
  · intro h
    rw [scanToken_less stod s h]; rfl
  · intro h
    rw [scanToken_less stod s h]; rfl
  · intro h h1 h2
    rw [scanToken_less stod s h, if_neg h1, if_neg h2]
  · intro h
    rw [scanToken_greater stod s h]; rfl
  · intro h h1
    rw [scanToken_greater stod s h, if_neg h1]

/-- C11 at concrete states: the fresh scanners over `<=`, `<`, and `>x`. -/
theorem C11_operator_lookahead_witness :
    scanToken (fun _ => none) (Scanner.init "<=".toList) =
        .ok (addToken (advanceBy (Scanner.init "<=".toList) 2) .LESS_EQUAL) ∧
      scanToken (fun _ => none) (Scanner.init "<".toList) =
        .ok (addToken (advanceBy (Scanner.init "<".toList) 1) .LESS_THAN) ∧
      scanToken (fun _ => none) (Scanner.init ">x".toList) =
        .ok (addToken (advanceBy (Scanner.init ">x".toList) 1) .GREATER_THAN) :=
  ⟨(C11_operator_lookahead (fun _ => none) (Scanner.init "<=".toList) []).2.1 rfl,
    (C11_operator_lookahead (fun _ => none) (Scanner.init "<".toList) []).2.2.2.1 rfl
      (by decide) (by decide),
    (C11_operator_lookahead (fun _ => none) (Scanner.init ">x".toList) ['x']).2.2.2.2.2 rfl
      (by decide)⟩

/-- C13. In every scanner state whose next character `c` has no `case` label in `scanToken`
and is neither an ASCII digit, nor an ASCII letter, nor an underscore, `scanToken` appends no
token, appends exactly one error, made of the line/column header and the message
`Unexpected character: 'c'`, and advances the cursor by exactly one character. Scanning
`SELECT @ FROM t;` gives the kinds SELECT, FROM, IDENTIFIER `t`, SEMICOLON, END_OF_FILE and
exactly one error, which names `@`. -/
theorem C13_unexpected_character (stod : List Char → Option ℚ) (s : Scanner) (c : Char)
    (r : List Char) :
    (rest s = c :: r → c ∉ caseLabels → c.isDigit = false → c.isAlpha = false → c ≠ '_' →
      ∃ t, scanToken stod s = .ok t ∧ t.tokens_ = s.tokens_ ∧
        t.errors_ = s.errors_ ++ [formatError t.line_ t.column_
          ("Unexpected character: '".toList ++ [c] ++ "'".toList)] ∧
        t.current_ = s.current_ + 1 ∧ rest t = r) ∧
    outcome (scan stod "SELECT @ FROM t;".toList) =
      .ok ([(.SELECT, "SELECT", 1), (.FROM, "FROM", 1), (.IDENTIFIER, "t", 1),
        (.SEMICOLON, ";", 1), (.END_OF_FILE, "", 1)],
        ["[Line 1, Col 8] Unexpected character: '@'"]) := by
  refine ⟨?_, rfl⟩
  intro h hc hd ha hu
  have hd' : isDigit c = false := by rw [isDigit_eq]; exact hd
  have ha' : isAlpha c = false := by
    cases hx : isAlpha c with
    | false => rfl
    | true =>
      rw [isAlpha_iff] at hx
      have h1 : ¬ (c.isAlpha = true) := by rw [ha]; simp
      rw [libIsAlpha_iff] at h1
      have h2 : c.toNat ≠ 95 := fun h95 => hu ((char_eq_iff c '_').2 h95)
      omega
  exact ⟨addError (advanceBy s 1) ("Unexpected character: '".toList ++ [c] ++ "'".toList),
    scanToken_unexpected stod s h hc hd' ha', rfl, rfl, rfl, rest_advanceBy_cons h⟩

/-- C13 at a concrete state: the fresh scanner over `@`. -/
theorem C13_unexpected_character_witness :
    ∃ t, scanToken (fun _ => none) (Scanner.init "@".toList) = .ok t ∧ t.tokens_ = [] ∧
      t.errors_ = [formatError t.line_ t.column_ "Unexpected character: '@'".toList] ∧
      t.current_ = 1 ∧
      rest t = [] :=
  (C13_unexpected_character (fun _ => none) (Scanner.init "@".toList) '@' []).1 rfl
    (by decide) (by decide) (by decide) (by decide)

/-- C14. Scanning always returns. Every `scanToken` call from a state that is not at the end of
the text returns a state whose cursor is strictly further on and still within the text;
`scanTokens` returns from every scanner state, so one scan of any text returns its tokens, with
whatever is malformed recorded among the errors of the returned scanner and never as a fault;
and the loop of `scanTokens` gives the same result for every step budget larger than the number
of unread characters. -/
theorem C14_scan_terminates (stod : List Char → Option ℚ) :
    (∀ s, isAtEnd s = false →
      ∃ t, scanToken stod s = .ok t ∧ s.current_ < t.current_ ∧
        t.current_ ≤ s.source_.length ∧ t.source_ = s.source_) ∧
    (∀ s, ∃ toks fin, scanTokens stod s = .ok (toks, fin)) ∧
    (∀ source, ∃ toks fin, scan stod source = .ok (toks, fin)) ∧
    (∀ s fuel, (rest s).length < fuel →
      scanTokens_loop stod fuel s = scanTokens_loop stod ((rest s).length + 1) s) := by
  have hall : ∀ s, ∃ toks fin, scanTokens stod s = .ok (toks, fin) := by
    intro s
    obtain ⟨t, ht, -⟩ := scanTokens_loop_ok stod (s.source_.length + 1) s (rest_length_lt s)
    refine ⟨(finish t).tokens_, finish t, ?_⟩
    unfold scanTokens
    rw [ht, bind_ok]
    rfl
  refine ⟨?_, hall, fun source => hall (Scanner.init source), scanTokens_loop_fuel stod⟩
  intro s hs
  cases hr : rest s with
  | nil => rw [isAtEnd_of_nil hr] at hs; cases hs
  | cons c r =>
    obtain ⟨t, ht, hext⟩ := scanToken_ok stod s hr
    have hlen : s.current_ + 1 ≤ s.source_.length := by
      have := congrArg List.length hr
      rw [rest_length] at this
      simp at this
      omega
    exact ⟨t, ht, hext.current_le, hext.current_bound hlen, hext.source_eq⟩

/-- C15. Every entry of the error sequence of every scan is the text `[Line l, Col c] m` with
`l` and `c` in decimal and `m` one of the five messages of the scanner. The entry is built by
`addError` from the scanner's own `line_` and `column_` at the call, and every pass of the loop
adds at most one entry, rendered from the counters the pass ends with. -/
theorem C15_diagnostic_format (stod : List Char → Option ℚ) :
    (∀ source, ∃ toks fin, scan stod source = .ok (toks, fin) ∧
      ∀ e ∈ fin.errors_, ∃ l c m, knownMessage m ∧
        e = "[Line ".toList ++ (Nat.repr l).toList ++ ", Col ".toList ++ (Nat.repr c).toList ++
          "] ".toList ++ m) ∧
    (∀ s m, (addError s m).errors_ = s.errors_ ++
      ["[Line ".toList ++ (Nat.repr s.line_).toList ++ ", Col ".toList ++
        (Nat.repr s.column_).toList ++ "] ".toList ++ m]) ∧
    (∀ s, isAtEnd s = false →
      ∃ t, scanToken stod { s with start_ := s.current_ } = .ok t ∧
        (t.errors_ = s.errors_ ∨
          ∃ m, knownMessage m ∧ t.errors_ = s.errors_ ++ [formatError t.line_ t.column_ m])) := by
  refine ⟨?_, fun s m => rfl, ?_⟩
  · intro source
    obtain ⟨t, hscan, -, -, hP⟩ := scan_induct stod source
      (fun u => ∀ e ∈ u.errors_, ∃ l c m, knownMessage m ∧ e = formatError l c m)
      (by intro e he; cases he)
      (by
        intro s t hs hp e he
        rcases hp.errors with h | ⟨m, h, hm⟩
        · rw [h] at he; exact hs e he
        · rw [h] at he
          rcases List.mem_append.1 he with he | he
          · exact hs e he
          · exact ⟨t.line_, t.column_, m, hm, List.mem_singleton.1 he⟩)
    exact ⟨_, _, hscan, hP⟩
  · intro s hs
    cases hr : rest s with
    | nil => rw [isAtEnd_of_nil hr] at hs; cases hs
    | cons c r =>
      obtain ⟨t, ht, hp⟩ := scanToken_pass stod s hr
      refine ⟨t, ht, ?_⟩
      rcases hp.errors with h | ⟨m, h, hm⟩
      · exact Or.inl h
      · exact Or.inr ⟨m, hm, h⟩

/-- C16 (code defect). The claim says a token records the line and column of its first
character, which is what `scanner.h` documents (`column`: "coluna inicial do token"). The code
records the counters as they stand after the token's last character: the token `SELECT` at the
start of the text gets column 6, not 1; in `SELECT * FROM t` the tokens get columns 6, 8, 13 and
15 where they start in columns 1, 8, 10 and 15; and a string that starts on line 1 and spans a
newline gets line 2. -/
theorem C16_position_is_not_the_start (stod : List Char → Option ℚ) :
    placement (scan stod "SELECT".toList) = .ok [(.SELECT, 1, 6), (.END_OF_FILE, 1, 6)] ∧
    placement (scan stod "SELECT * FROM t".toList) =
      .ok [(.SELECT, 1, 6), (.STAR, 1, 8), (.FROM, 1, 13), (.IDENTIFIER, 1, 15),
        (.END_OF_FILE, 1, 15)] ∧
    placement (scan stod "'a\nb'".toList) = .ok [(.STRING, 2, 3), (.END_OF_FILE, 2, 3)] :=
  ⟨rfl, rfl, rfl⟩

/-- C17. For every text without a newline the scan cuts the text into consecutive chunks, one
per pass of the loop, and every token before the sentinel is the token of one chunk: its
recorded column is the number of characters of the text up to and including the last character
of its chunk, and its chunk is the text it was read from (its lexeme, or for a STRING the quoted
literal). So the column is that of the token's last character, not of its first; scanning
`SELECT` records column 6. -/
theorem C17_column_is_end_offset (stod : List Char → Option ℚ) (source : List Char)
    (hnl : '\n' ∉ source) :
    (∃ chunks eof fin, scan stod source = .ok (chunks.filterMap Chunk.token ++ [eof], fin) ∧
      eof.type = .END_OF_FILE ∧ (chunks.map Chunk.text).flatten = source ∧
      ∀ pre c post tok, chunks = pre ++ c :: post → c.token = some tok →
        tok.column = ((pre.map Chunk.text).flatten ++ c.text).length ∧ tok.line = 1 ∧
          c.text ≠ [] ∧ tokenText tok c.text) ∧
    placement (scan stod "SELECT".toList) = .ok [(.SELECT, 1, 6), (.END_OF_FILE, 1, 6)] := by
  refine ⟨?_, rfl⟩
  obtain ⟨t, hscan, hnil, -, hsrc, hline, hcol, chunks, hjoin, htoks, hgood⟩ :=
    scan_induct stod source
      (fun u => u.source_ = source ∧ u.line_ = 1 ∧ u.column_ = u.current_ ∧
        ∃ chunks : List Chunk,
        (chunks.map Chunk.text).flatten = source.take u.current_ ∧
        u.tokens_ = chunks.filterMap Chunk.token ∧
        ∀ pre c post tok, chunks = pre ++ c :: post → c.token = some tok →
          tok.column = ((pre.map Chunk.text).flatten ++ c.text).length ∧ tok.line = 1 ∧
            c.text ≠ [] ∧ tokenText tok c.text)
      ⟨rfl, rfl, rfl, [], rfl, rfl, by
        intro pre c post tok h
        exact absurd h (by simp)⟩
      (by
        intro s t ⟨hsrc, hline, hcol, chunks, hjoin, htoks, hgood⟩ hp
        have hm := hp.moves
        have hprog := hp.progress
        have hn : '\n' ∉ consumed s t := not_mem_of_not_mem_source hm (by rw [hsrc]; exact hnl)
        have htake := take_of_moves hm
        have hclen := consumed_length hm
        have hbound := current_le_length hm hprog
        rw [hsrc] at htake hbound
        obtain ⟨m1, m2, -, m4, m5⟩ := hm
        have hline' : t.line_ = 1 := by
          rw [m4, List.count_eq_zero_of_not_mem hn, hline]
        have hcol' : t.column_ = t.current_ := by
          rw [m5 hn, hcol]; omega
        have hne : consumed s t ≠ [] := by
          intro h
          rw [h] at hclen
          simp at hclen
          omega
        have hold : ∀ (o : Option Token), (∀ tok, o = some tok →
            tok.column = t.column_ ∧ tok.line = t.line_ ∧ tokenText tok (consumed s t)) →
            ∀ pre c post tok, chunks ++ [⟨consumed s t, o⟩] = pre ++ c :: post →
              c.token = some tok →
              tok.column = ((pre.map Chunk.text).flatten ++ c.text).length ∧ tok.line = 1 ∧
                c.text ≠ [] ∧ tokenText tok c.text := by
          intro o ho pre c post tok hsplit hc
          rcases split_concat hsplit with ⟨-, hpre, hcc⟩ | ⟨post', -, hch⟩
          · subst hpre hcc
            obtain ⟨h1, h2, h3⟩ := ho tok hc
            refine ⟨?_, by rw [h2, hline'], hne, h3⟩
            rw [h1, hcol', hjoin, ← htake, List.length_take]
            exact (Nat.min_eq_left hbound).symm
          · exact hgood pre c post' tok hch hc
        refine ⟨m1.trans hsrc, hline', hcol', ?_⟩
        rcases hp.tokens with h | ⟨tok, h, hl, hc, -, htext⟩
        · refine ⟨chunks ++ [⟨consumed s t, none⟩], ?_, ?_, hold none (by intro tok h; cases h)⟩
          · rw [List.map_append, List.flatten_append, hjoin, htake]
            simp
          · rw [h, htoks, List.filterMap_append]
            simp
        · refine ⟨chunks ++ [⟨consumed s t, some tok⟩], ?_, ?_, hold (some tok) ?_⟩
          · rw [List.map_append, List.flatten_append, hjoin, htake]
            simp
          · rw [h, htoks, List.filterMap_append]
            simp
          · intro tok' h'
            cases h'
            exact ⟨hc, hl, htext⟩)
  refine ⟨chunks, Token.mk4 .END_OF_FILE [] t.line_ t.column_, finish t, ?_, rfl, ?_, hgood⟩
  · rw [hscan, ← htoks]
    rfl
  · rw [hjoin, ← hsrc]
    exact take_of_rest_nil hnil

/-- C17 at a concrete text: `SELECT * FROM t`. -/
theorem C17_column_is_end_offset_witness :
    (∃ chunks eof fin, scan (fun _ => none) "SELECT * FROM t".toList =
        .ok (chunks.filterMap Chunk.token ++ [eof], fin) ∧
      eof.type = .END_OF_FILE ∧ (chunks.map Chunk.text).flatten = "SELECT * FROM t".toList ∧
      ∀ pre c post tok, chunks = pre ++ c :: post → c.token = some tok →
        tok.column = ((pre.map Chunk.text).flatten ++ c.text).length ∧ tok.line = 1 ∧
          c.text ≠ [] ∧ tokenText tok c.text) ∧
    placement (scan (fun _ => none) "SELECT".toList) =
      .ok [(.SELECT, 1, 6), (.END_OF_FILE, 1, 6)] :=
  C17_column_is_end_offset (fun _ => none) "SELECT * FROM t".toList (by decide)

/-- C18. In every scan the (line, column) pairs recorded on the tokens before the sentinel are
strictly increasing in lexicographic order, each token being strictly before every later one,
and the pair recorded on the sentinel is not smaller than that of the last token before it. -/
theorem C18_positions_increase (stod : List Char → Option ℚ) (source : List Char) :
    ∃ body eof fin, scan stod source = .ok (body ++ [eof], fin) ∧
      eof.type = .END_OF_FILE ∧
      body.Pairwise (fun a b => a.line < b.line ∨ (a.line = b.line ∧ a.column < b.column)) ∧
      ∀ a ∈ body.getLast?, a.line < eof.line ∨ (a.line = eof.line ∧ a.column ≤ eof.column) := by
  obtain ⟨t, hscan, -, -, hpair, hle⟩ := scan_induct stod source
    (fun u => u.tokens_.Pairwise
        (fun a b => a.line < b.line ∨ (a.line = b.line ∧ a.column < b.column)) ∧
      ∀ a ∈ u.tokens_, a.line < u.line_ ∨ (a.line = u.line_ ∧ a.column ≤ u.column_))
    ⟨List.Pairwise.nil, by intro a ha; cases ha⟩
    (by
      intro s t ⟨hs1, hs2⟩ hp
      have hpos := pass_position hp
      have hold : ∀ a ∈ s.tokens_, a.line < t.line_ ∨ (a.line = t.line_ ∧ a.column < t.column_) := by
        intro a ha
        have := hs2 a ha
        omega
      rcases hp.tokens with h | ⟨tok, h, hl, hc, -, -⟩
      · rw [h]
        refine ⟨hs1, fun a ha => ?_⟩
        have := hold a ha
        omega
      · rw [h]
        refine ⟨?_, fun a ha => ?_⟩
        · rw [List.pairwise_append]
          refine ⟨hs1, List.pairwise_singleton _ _, ?_⟩
          intro a ha b hb
          rw [List.mem_singleton] at hb
          subst hb
          rw [hl, hc]
          exact hold a ha
        · rcases List.mem_append.1 ha with ha | ha
          · have := hold a ha
            omega
          · rw [List.mem_singleton] at ha
            subst ha
            right
            exact ⟨hl, Nat.le_of_eq hc⟩)
  refine ⟨t.tokens_, Token.mk4 .END_OF_FILE [] t.line_ t.column_, finish t, hscan, rfl, hpair, ?_⟩
  intro a ha
  exact hle a (List.mem_of_mem_getLast? ha)

/-- C19. For every entry `(w, k)` of the keyword table `tokenTypeToString k` is the uppercase
spelling `w`; the table has 42 entries, with pairwise distinct keys and pairwise distinct kinds,
and its kinds are exactly the 42 keyword kinds; and every relational, arithmetic and delimiter
kind displays as its literal symbol. -/
theorem C19_display_names :
    (∀ p ∈ keywords_, tokenTypeToString p.2 = p.1 ∧ p.1.map Char.toUpper = p.1) ∧
    keywords_.length = 42 ∧ keywordKinds.length = 42 ∧ keywordKinds.Nodup ∧
    (keywords_.map Prod.fst).Nodup ∧ (keywords_.map Prod.snd).Nodup ∧
    (∀ k, k ∈ keywords_.map Prod.snd ↔ k ∈ keywordKinds) ∧
    tokenTypeToString .EQUAL = "=".toList ∧ tokenTypeToString .NOT_EQUAL = "!=".toList ∧
    tokenTypeToString .LESS_THAN = "<".toList ∧ tokenTypeToString .LESS_EQUAL = "<=".toList ∧
    tokenTypeToString .GREATER_THAN = ">".toList ∧
    tokenTypeToString .GREATER_EQUAL = ">=".toList ∧
    tokenTypeToString .PLUS = "+".toList ∧ tokenTypeToString .MINUS = "-".toList ∧
    tokenTypeToString .STAR = "*".toList ∧ tokenTypeToString .SLASH = "/".toList ∧
    tokenTypeToString .PERCENT = "%".toList ∧
    tokenTypeToString .LPAREN = "(".toList ∧ tokenTypeToString .RPAREN = ")".toList ∧
    tokenTypeToString .COMMA = ",".toList ∧ tokenTypeToString .SEMICOLON = ";".toList ∧
    tokenTypeToString .DOT = ".".toList := by
  refine ⟨by decide, rfl, rfl, by decide, by decide, by decide, ?_, ?_⟩
  · intro k
    cases k <;> decide
  · decide

/-- C20. For every text that holds no quote character and no occurrence of `--` or `/*`, the
scan returns, and if it reports no error then the lexemes of the returned tokens, concatenated
in order, are exactly the text without its spaces, tabs, carriage returns and newlines. -/
theorem C20_characters_accounted (stod : List Char → Option ℚ) (source : List Char)
    (hq1 : '\'' ∉ source) (hq2 : '"' ∉ source)
    (hdash : ∀ pre post, source ≠ pre ++ '-' :: '-' :: post)
    (hblock : ∀ pre post, source ≠ pre ++ '/' :: '*' :: post) :
    ∃ toks fin, scan stod source = .ok (toks, fin) ∧
      (fin.errors_ = [] →
        (toks.map Token.lexeme).flatten = source.filter (fun c => decide (c ∉ blanks))) := by
  obtain ⟨t, hscan, hnil, -, hsrc, hP⟩ := scan_induct stod source
    (fun u => u.source_ = source ∧ (u.errors_ = [] →
      (u.tokens_.map Token.lexeme).flatten =
        (source.take u.current_).filter (fun c => decide (c ∉ blanks))))
    ⟨rfl, fun _ => rfl⟩
    (by
      intro s t ⟨hsrc, hs⟩ hp
      have hm := hp.moves
      have htake := take_of_moves hm
      have hsplit := source_of_moves hm
      rw [hsrc] at htake hsplit
      refine ⟨hm.1.trans hsrc, fun herr => ?_⟩
      have herr' : t.errors_ = s.errors_ := by
        rcases hp.errors with h | ⟨m, h, -⟩
        · exact h
        · rw [h] at herr
          exact absurd herr (by simp)
      have hs' := hs (by rw [← herr', herr])
      rw [htake, List.filter_append]
      rcases hp.tokens with h | ⟨tok, h, -, -, -, htext⟩
      · rcases hp.silent h herr' with ⟨c, hc, hcb⟩ | ⟨r, hr⟩ | ⟨r, hr⟩
        · rw [h, hs', hc]
          simp [hcb]
        · rw [hr] at hsplit
          exact absurd hsplit (hdash _ _)
        · rw [hr] at hsplit
          exact absurd hsplit (hblock _ _)
      · by_cases hstr : tok.type = .STRING
        · obtain ⟨q, body, hq, hqb⟩ := htext.1 hstr
          have hmem : q ∈ source := by
            rw [hsplit, hqb]
            simp
          rcases hq with rfl | rfl
          · exact absurd hmem hq1
          · exact absurd hmem hq2
        · obtain ⟨hlex, hnb⟩ := htext.2 hstr
          rw [h, List.map_append, List.flatten_append, hs', filter_eq_self_of_no_blank hnb]
          simp [hlex])
  refine ⟨(finish t).tokens_, finish t, hscan, fun herr => ?_⟩
  have := hP herr
  rw [← hsrc] at this ⊢
  rw [take_of_rest_nil hnil] at this
  show ((t.tokens_ ++ [Token.mk4 .END_OF_FILE [] t.line_ t.column_]).map Token.lexeme).flatten = _
  rw [List.map_append, List.flatten_append, this]
  simp [Token.mk4]

/-- C20 at a concrete text: scanning `SELECT a, b` / `FROM t WHERE a >= 1;` reports no error, and
the lexemes of its twelve tokens (the sentinel's is empty), concatenated in order, are the text
without its blanks. -/
theorem C20_characters_accounted_witness :
    ∃ toks fin, scan (fun _ => some 0) "SELECT a, b\nFROM t WHERE a >= 1;".toList =
        .ok (toks, fin) ∧
      fin.errors_ = [] ∧
      toks.map (fun t => String.mk t.lexeme) =
        ["SELECT", "a", ",", "b", "FROM", "t", "WHERE", "a", ">=", "1", ";", ""] ∧
      (toks.map Token.lexeme).flatten =
        "SELECT a, b\nFROM t WHERE a >= 1;".toList.filter (fun c => decide (c ∉ blanks)) ∧
      "SELECT a, b\nFROM t WHERE a >= 1;".toList.filter (fun c => decide (c ∉ blanks)) =
        "SELECTa,bFROMtWHEREa>=1;".toList := by
  obtain ⟨toks, fin, hscan, h⟩ :=
    C20_characters_accounted (fun _ => some 0) "SELECT a, b\nFROM t WHERE a >= 1;".toList
      (by decide) (by decide)
      (by
        intro pre post h
        have : ('-' : Char) ∈ "SELECT a, b\nFROM t WHERE a >= 1;".toList := by
          rw [h]; simp
        revert this
        decide)
      (by
        intro pre post h
        have : ('/' : Char) ∈ "SELECT a, b\nFROM t WHERE a >= 1;".toList := by
          rw [h]; simp
        revert this
        decide)
  have hout : outcome (scan (fun _ => some 0) "SELECT a, b\nFROM t WHERE a >= 1;".toList) =
      .ok ([(.SELECT, "SELECT", 1), (.IDENTIFIER, "a", 1), (.COMMA, ",", 1),
        (.IDENTIFIER, "b", 1), (.FROM, "FROM", 2), (.IDENTIFIER, "t", 2), (.WHERE, "WHERE", 2),
        (.IDENTIFIER, "a", 2), (.GREATER_EQUAL, ">=", 2), (.NUMBER, "1", 2), (.SEMICOLON, ";", 2),
        (.END_OF_FILE, "", 2)], []) := rfl
  rw [hscan] at hout
  have hpair := Except.ok.inj hout
  have herr : fin.errors_ = [] := by
    have := congrArg Prod.snd hpair
    exact List.map_eq_nil_iff.1 this
  have hlex : toks.map (fun t => String.mk t.lexeme) =
      ["SELECT", "a", ",", "b", "FROM", "t", "WHERE", "a", ">=", "1", ";", ""] := by
    have := congrArg (fun p => p.1.map (fun x => x.2.1)) hpair
    simpa [List.map_map, Function.comp_def] using this
  exact ⟨toks, fin, hscan, herr, hlex, h herr, by decide⟩

/-- C21 (code defect). The claim says the sentinel's column is the number of characters that
follow the last newline, wherever that newline was read. At the top level `scanToken` sets
`column_` to zero after `advance` has counted the newline; `scanString` and the block loop of
`scanComment` set it to zero before `advance`, which then counts the newline itself. So after the
string literal `'a\nb'` the sentinel's column is 3, after `SELECT 'a\nb' FROM t` it is 10 and
after the block comment `/*/*\n*/` it is 3, where 2, 9 and 2 characters follow the newline; the
same two characters after a newline read at the top level end at column 2. For every text the
column is the number of characters after the last newline or one more, and it is that number
when the text has no newline, and when it has no quote and no `/*`. -/
theorem C21_column_off_by_one_inside (stod : List Char → Option ℚ) :
    placement (scan stod "'a\nb'".toList) = .ok [(.STRING, 2, 3), (.END_OF_FILE, 2, 3)] ∧
    (afterLastNewline "'a\nb'".toList).length = 2 ∧
    placement (scan stod "SELECT 'a\nb' FROM t".toList) =
      .ok [(.SELECT, 1, 6), (.STRING, 2, 3), (.FROM, 2, 8), (.IDENTIFIER, 2, 10),
        (.END_OF_FILE, 2, 10)] ∧
    (afterLastNewline "SELECT 'a\nb' FROM t".toList).length = 9 ∧
    placement (scan stod "/*/*\n*/".toList) = .ok [(.END_OF_FILE, 2, 3)] ∧
    (afterLastNewline "/*/*\n*/".toList).length = 2 ∧
    placement (scan stod "\n*/".toList) =
      .ok [(.STAR, 2, 1), (.SLASH, 2, 2), (.END_OF_FILE, 2, 2)] ∧
    (afterLastNewline "\n*/".toList).length = 2 ∧
    (∀ source, ∃ body eof fin, scan stod source = .ok (body ++ [eof], fin) ∧
      eof.type = .END_OF_FILE ∧ eof.column = fin.column_ ∧
      (afterLastNewline source).length ≤ eof.column ∧
      eof.column ≤ (afterLastNewline source).length + 1 ∧
      ('\n' ∉ source → eof.column = source.length) ∧
      ('\'' ∉ source → '"' ∉ source → (∀ pre post, source ≠ pre ++ '/' :: '*' :: post) →
        eof.column = (afterLastNewline source).length)) := by
  refine ⟨rfl, rfl, rfl, rfl, rfl, rfl, rfl, rfl, fun source => ?_⟩
  obtain ⟨texts, body, eof, fin, -, hscan, heof, hfin, -, -, hcol, hnone, hplain⟩ :=
    (sentinel_column stod).1 source
  refine ⟨body, eof, fin, hscan, heof, hfin, ?_, ?_, hnone, hplain⟩
  · rw [hcol]
    exact Nat.le_add_right _ _
  · rw [hcol]
    split
    · exact Nat.le_refl _
    · exact Nat.le_succ _

/-- C22. For every text the scan returns, and the line recorded on the sentinel (which is the
value the line counter ends with) is 1 plus the number of newline characters of the text, strings,
comments and lexical errors included. Every pass of the loop moves the cursor forward over the
characters it reads and adds to the line counter exactly the number of newlines among them, so
each newline of the text is read once and counted once. -/
theorem C22_line_count_exact (stod : List Char → Option ℚ) :
    (∀ source, ∃ body eof fin, scan stod source = .ok (body ++ [eof], fin) ∧
      eof.type = .END_OF_FILE ∧ eof.line = 1 + source.count '\n' ∧
      fin.line_ = 1 + source.count '\n') ∧
    (∀ s, isAtEnd s = false →
      ∃ t, scanToken stod { s with start_ := s.current_ } = .ok t ∧ s.current_ < t.current_ ∧
        t.current_ ≤ s.source_.length ∧ rest s = consumed s t ++ rest t ∧
        t.line_ = s.line_ + (consumed s t).count '\n') := by
  refine ⟨?_, ?_⟩
  · intro source
    obtain ⟨t, hscan, hnil, hsrc, -, hP⟩ := scan_induct stod source
      (fun u => u.source_ = source ∧ u.line_ = 1 + (source.take u.current_).count '\n')
      ⟨rfl, rfl⟩
      (by
        intro s t ⟨hsrc, hline⟩ hp
        have htake := take_of_moves hp.moves
        rw [hsrc] at htake
        refine ⟨hp.moves.1.trans hsrc, ?_⟩
        rw [htake, List.count_append, hp.moves.2.2.2.1, hline, Nat.add_assoc])
    have hall : source.take t.current_ = source := by
      rw [← hsrc]
      exact take_of_rest_nil hnil
    rw [hall] at hP
    exact ⟨t.tokens_, Token.mk4 .END_OF_FILE [] t.line_ t.column_, finish t, hscan, rfl, hP, hP⟩
  · intro s hs
    cases hr : rest s with
    | nil => rw [isAtEnd_of_nil hr] at hs; cases hs
    | cons c r =>
      obtain ⟨t, ht, hp⟩ := scanToken_pass stod s hr
      refine ⟨t, ht, hp.progress, current_le_length hp.moves hp.progress, ?_, hp.moves.2.2.2.1⟩
      rw [← hr, rest_of_moves hp.moves]
      exact (List.take_append_drop _ _).symm

/-- C23. Cursor bounds and in-bounds reads. In every state in which the loop of `scanTokens`
tests its condition during a scan, `start_ ≤ current_ ≤ length of the text`, and from each such
state that is not at the end the pass returns (no read outside the text, which the model would
report as the fault `out_of_bounds`) a state with `start_` at the old cursor and the cursor
further on and still within the text. The cursor moves only in `advance` and `match`: an
`advance` that returns has read at an index strictly below the length and moved the cursor by
one, an `advance` at or past the end is the fault, and `match` moves the cursor by at most one
and never past the end. From any state whatsoever `scanComment` (with its two unguarded
`advance` calls) and `scanString` (with its `advance` over the closing quote) return without the
fault and keep the cursor within the text; and the whole scan of any text returns, ending in a
state of the loop that is at the end of the text. -/
theorem C23_cursor_in_bounds (stod : List Char → Option ℚ) :
    (∀ source s, Reached stod source s →
      s.source_ = source ∧ s.start_ ≤ s.current_ ∧ s.current_ ≤ source.length ∧
      (isAtEnd s = false →
        ∃ t, scanToken stod { s with start_ := s.current_ } = .ok t ∧ t.start_ = s.current_ ∧
          s.current_ < t.current_ ∧ t.current_ ≤ source.length)) ∧
    (∀ s c t, advance s = .ok (c, t) →
      s.current_ < s.source_.length ∧ s.source_[s.current_]? = some c ∧
        t.current_ = s.current_ + 1 ∧ t.start_ = s.start_ ∧ t.source_ = s.source_) ∧
    (∀ s, advance s = .error .out_of_bounds ↔ s.source_.length ≤ s.current_) ∧
    (∀ s e, (match_ s e).2.start_ = s.start_ ∧ s.current_ ≤ (match_ s e).2.current_ ∧
      (s.current_ ≤ s.source_.length → (match_ s e).2.current_ ≤ s.source_.length)) ∧
    (∀ s, ∃ t, scanComment s = .ok t ∧ t.start_ = s.start_ ∧ s.current_ ≤ t.current_ ∧
      (s.current_ ≤ s.source_.length → t.current_ ≤ s.source_.length)) ∧
    (∀ s q, q = '\'' ∨ q = '"' →
      ∃ t, scanString s q = .ok t ∧ t.start_ = s.start_ ∧ s.current_ ≤ t.current_ ∧
        (s.current_ ≤ s.source_.length → t.current_ ≤ s.source_.length)) ∧
    (∀ source, ∃ t, Reached stod source t ∧ isAtEnd t = true ∧
      scan stod source = .ok ((finish t).tokens_, finish t)) := by
  refine ⟨?_, ?_, advance_fault_iff, match_bounds, ?_, ?_, ?_⟩
  · intro source s hs
    obtain ⟨h1, h2, h3⟩ := reached_bounds stod source s hs
    refine ⟨h1, h2, h3, fun hend => ?_⟩
    cases hr : rest s with
    | nil => rw [isAtEnd_of_nil hr] at hend; cases hend
    | cons c r =>
      obtain ⟨t, ht, hp⟩ := scanToken_pass stod s hr
      obtain ⟨-, g2, g3⟩ := reached_bounds stod source t (Reached.pass hs hend ht)
      have hr0 : rest { s with start_ := s.current_ } = c :: r := hr
      obtain ⟨u, hu, hext⟩ := scanToken_ok stod { s with start_ := s.current_ } hr0
      rw [ht] at hu
      cases hu
      exact ⟨t, ht, hext.start_eq, hp.progress, g3⟩
  · intro s c t h
    obtain ⟨h1, h2, h3⟩ := (advance_ok_iff s c t).1 h
    subst h3
    exact ⟨h1, h2, rfl, rfl, rfl⟩
  · intro s
    obtain ⟨t, ht, hext⟩ := scanComment_ok s
    exact ⟨t, ht, hext.start_eq, hext.current_le, hext.current_bound⟩
  · intro s q hq
    obtain ⟨t, ht, hext⟩ := scanString_ok s q (by rcases hq with rfl | rfl <;> decide)
    exact ⟨t, ht, hext.start_eq, hext.current_le, hext.current_bound⟩
  · intro source
    obtain ⟨t, ht, hnil, hreach⟩ := reached_loop stod source (source.length + 1)
      (Scanner.init source) (rest_length_lt _) Reached.fresh
    exact ⟨t, hreach, isAtEnd_of_nil hnil, scan_of_loop stod source t ht⟩

/-- C24. For every text the scan returns, and no token of the returned sequence has the kind
WHITESPACE, COMMENT or UNKNOWN: every token before the sentinel has one of the kinds `scanToken`
can append, and the sentinel is END_OF_FILE. -/
theorem C24_special_kinds_never_emitted (stod : List Char → Option ℚ) (source : List Char) :
    ∃ toks fin, scan stod source = .ok (toks, fin) ∧ fin.tokens_ = toks ∧
      ∀ tok ∈ toks, tok.type ≠ .WHITESPACE ∧ tok.type ≠ .COMMENT ∧ tok.type ≠ .UNKNOWN := by
  obtain ⟨t, hscan, -, -, hP⟩ := scan_induct stod source
    (fun u => ∀ tok ∈ u.tokens_, produced tok.type = true)
    (by intro tok h; cases h)
    (by
      intro s t hs hp tok htok
      rcases hp.tokens with h | ⟨x, h, -, -, hx, -⟩
      · rw [h] at htok
        exact hs tok htok
      · rw [h] at htok
        rcases List.mem_append.1 htok with h1 | h1
        · exact hs tok h1
        · rw [List.mem_singleton.1 h1]
          exact hx)
  refine ⟨(finish t).tokens_, finish t, hscan, rfl, ?_⟩
  intro tok htok
  have hfacts : ∀ k : TokenType, produced k = true ∨ k = .END_OF_FILE →
      k ≠ .WHITESPACE ∧ k ≠ .COMMENT ∧ k ≠ .UNKNOWN := by
    intro k
    cases k <;> decide
  rcases List.mem_append.1 htok with h1 | h1
  · exact hfacts _ (Or.inl (hP tok h1))
  · rw [List.mem_singleton.1 h1]
    exact hfacts _ (Or.inr rfl)

/-- C25. For every keyword kind and every relational-operator, arithmetic-operator and delimiter
kind `k`, scanning the text `tokenTypeToString k` returns exactly one token followed by the
sentinel, records no error, and that token has kind `k` and the scanned text as its lexeme. -/
theorem C25_display_name_round_trip (stod : List Char → Option ℚ) (k : TokenType)
    (hk : k ∈ keywordKinds ++ symbolKinds) :
    ∃ tok eof fin, scan stod (tokenTypeToString k) = .ok ([tok, eof], fin) ∧ tok.type = k ∧
      tok.lexeme = tokenTypeToString k ∧ eof.type = .END_OF_FILE ∧ fin.errors_ = [] := by
  cases k <;> first
    | exact ⟨_, _, _, rfl, rfl, rfl, rfl, rfl⟩
    | exact absurd hk (by decide)

/-- C25 at the kind NOT_EQUAL, whose display name is `!=`. -/
theorem C25_display_name_round_trip_witness :
    ∃ tok eof fin, scan (fun _ => none) (tokenTypeToString .NOT_EQUAL) = .ok ([tok, eof], fin) ∧
      tok.type = .NOT_EQUAL ∧ tok.lexeme = tokenTypeToString .NOT_EQUAL ∧
      eof.type = .END_OF_FILE ∧ fin.errors_ = [] :=
  C25_display_name_round_trip (fun _ => none) .NOT_EQUAL (by decide)

/-- C26. A second `scanTokens` call on the same scanner, from whatever state the first call
started in: the first call returns and leaves the scanner at the end of the text; the second call
then reads nothing and returns the first call's tokens followed by one more END_OF_FILE token,
placed at the same line and column as the first sentinel; the errors, the cursor and the counters
are as the first call left them. In particular this holds of a freshly constructed scanner for
any text. -/
theorem C26_second_call_appends_sentinel (stod : List Char → Option ℚ) :
    (∀ s, ∃ toks fin eof fin2, scanTokens stod s = .ok (toks, fin) ∧
      scanTokens stod fin = .ok (toks ++ [eof], fin2) ∧
      eof = Token.mk4 .END_OF_FILE [] fin.line_ fin.column_ ∧ toks.getLast? = some eof ∧
      fin2.errors_ = fin.errors_ ∧ fin2.current_ = fin.current_ ∧ fin2.line_ = fin.line_ ∧
      fin2.column_ = fin.column_ ∧ fin.tokens_ = toks ∧ fin2.tokens_ = toks ++ [eof]) ∧
    (∀ source, ∃ toks fin eof fin2, scan stod source = .ok (toks, fin) ∧
      scanTokens stod fin = .ok (toks ++ [eof], fin2) ∧ eof.type = .END_OF_FILE ∧
      fin2.errors_ = fin.errors_) := by
  have hall : ∀ s, ∃ toks fin eof fin2, scanTokens stod s = .ok (toks, fin) ∧
      scanTokens stod fin = .ok (toks ++ [eof], fin2) ∧
      eof = Token.mk4 .END_OF_FILE [] fin.line_ fin.column_ ∧ toks.getLast? = some eof ∧
      fin2.errors_ = fin.errors_ ∧ fin2.current_ = fin.current_ ∧ fin2.line_ = fin.line_ ∧
      fin2.column_ = fin.column_ ∧ fin.tokens_ = toks ∧ fin2.tokens_ = toks ++ [eof] := by
    intro s
    obtain ⟨t, ht, hnil, -⟩ := scanTokens_loop_ok stod (s.source_.length + 1) s (rest_length_lt s)
    have h1 : scanTokens stod s = .ok ((finish t).tokens_, finish t) := by
      unfold scanTokens
      rw [ht, bind_ok]
      rfl
    have hnil2 : rest (finish t) = [] := hnil
    have h2 : scanTokens stod (finish t) =
        .ok ((finish (finish t)).tokens_, finish (finish t)) := by
      unfold scanTokens
      rw [scanTokens_loop_done stod _ _ hnil2, bind_ok]
      rfl
    refine ⟨_, _, Token.mk4 .END_OF_FILE [] t.line_ t.column_, _, h1, h2, rfl, ?_, rfl, rfl, rfl,
      rfl, rfl, rfl⟩
    simp [finish]
  refine ⟨hall, fun source => ?_⟩
  obtain ⟨toks, fin, eof, fin2, h1, h2, h3, -, h5, -⟩ := hall (Scanner.init source)
  exact ⟨toks, fin, eof, fin2, h1, h2, by rw [h3]; rfl, h5⟩

end miniql.lexer
